import Mathlib

/-!
Significant-figure engine of `sigfig.js`: a shallow embedding of the pure
core of `src/sigfig.js`.

* `sanitizeInputRaw`, `countSigFigsFromString`, `countSigFigsCoefficient`,
  `decimalPlacesFromString`: the analysis of numeric strings;
* `tokenizeExpr`, `shuntingYard`, `evaluateRPN`, `evalExpression`: the
  expression evaluator.

JavaScript strings are lists of characters (`Str`).  A regular expression is
modelled by the deterministic scanner it denotes, and each such definition
names the source expression it stands for.  Thrown errors are the `error`
results of `Except`, with the message of the source.  The evaluator computes
on doubles in the source; here it is parametric in the arithmetic (`Arith`),
so that what is proved of it holds for doubles as for any other carrier.
-/

namespace SigFig

/-- A JavaScript string, as the list of its characters. -/
abbrev Str := List Char

/-! ## Character classes -/

/-- The class `\d` of a JavaScript regular expression: `0` to `9`. -/
def isDigit (c : Char) : Bool := 48 ≤ c.toNat && c.toNat ≤ 57

/-- The class `\s`, which is also the set removed by `String.prototype.trim`:
the white space and line terminator code points of ECMAScript. -/
def isJsSpace (c : Char) : Bool :=
  let n := c.toNat
  n == 0x09 || n == 0x0A || n == 0x0B || n == 0x0C || n == 0x0D || n == 0x20 ||
  n == 0xA0 || n == 0x1680 || (0x2000 ≤ n && n ≤ 0x200A) || n == 0x2028 ||
  n == 0x2029 || n == 0x202F || n == 0x205F || n == 0x3000 || n == 0xFEFF

/-- Line terminators, the characters that `.` does not match. -/
def isLineTerminator (c : Char) : Bool :=
  let n := c.toNat
  n == 0x0A || n == 0x0D || n == 0x2028 || n == 0x2029

/-! ## Utilities -/

/-- The method `s.trim()`. -/
def trim (s : Str) : Str :=
  ((s.dropWhile isJsSpace).reverse.dropWhile isJsSpace).reverse

/-- The function `sanitizeInputRaw` on a string argument:
`String(s).trim().replace(/,/g, '').replace(/\s+/g, '')`. -/
def sanitizeInputRaw (s : Str) : Str :=
  ((trim s).filter (fun c => c != ',')).filter (fun c => !isJsSpace c)

/-- The replacement `s.replace(/^[+-]/, '')`. -/
def stripSign : Str → Str
  | [] => []
  | c :: r => if c == '+' || c == '-' then r else c :: r

/-- Whether a string matches `^[+-]?\d+$`. -/
def isSignedDigits : Str → Bool
  | [] => false
  | c :: r =>
    if c == '+' || c == '-' then !r.isEmpty && r.all isDigit
    else isDigit c && r.all isDigit

/-- The match `s.match(/^(.*?)[eE]([+-]?\d+)$/)`: the two capture groups, for
the shortest prefix of non-terminator characters that is followed by `e` or
`E` and a signed integer reaching the end of the string. -/
def sciMatch : Str → Option (Str × Str)
  | [] => none
  | c :: r =>
    if (c == 'e' || c == 'E') && isSignedDigits r then some ([], r)
    else if isLineTerminator c then none
    else (sciMatch r).map (fun p => (c :: p.1, p.2))

/-- The call `s.split('.')`, as the first piece and the list of the others
(the result of `split` is never empty). -/
def splitDot : Str → Str × List Str
  | [] => ([], [])
  | c :: r =>
    if c == '.' then ([], (splitDot r).1 :: (splitDot r).2)
    else (c :: (splitDot r).1, (splitDot r).2)

/-- The replacement `s.replace(/^0+/, '')`. -/
def stripLeadingZeros (s : Str) : Str := s.dropWhile (fun c => c == '0')

/-- The replacement `s.replace(/0+$/, '')`: the leftmost position from which
only zeros follow, if any, is where the string is cut. -/
def stripTrailingZeros : Str → Str
  | [] => []
  | c :: r => if c == '0' && r.all (fun d => d == '0') then [] else c :: stripTrailingZeros r

/-- The test `/^[0]*$/.test(s)`. -/
def allZeros (s : Str) : Bool := s.all (fun c => c == '0')

/-! ## Significant figures -/

/-- The function `countSigFigsCoefficient`. -/
def countSigFigsCoefficient (s0 : Str) : Nat :=
  if s0.isEmpty then 0
  else
    let s1 := trim s0
    if s1.any (fun c => !(isDigit c || c == '.')) then 0
    else
      let s := if s1.head? == some '.' then '0' :: s1 else s1
      let hasDot := s.contains '.'
      if hasDot then
        let parts := splitDot s
        let intPart := parts.1
        let fracPart := parts.2.head?.getD []
        let intAllZeros := allZeros intPart
        let fracAllZeros := if fracPart.isEmpty then true else allZeros fracPart
        if intAllZeros && fracAllZeros then fracPart.length
        else
          let combined := stripLeadingZeros intPart ++ fracPart
          if combined.length == 0 then fracPart.length
          else combined.length
      else
        let noLeading := stripLeadingZeros s
        if noLeading.length == 0 then 1
        else
          let strippedTrailing := stripTrailingZeros noLeading
          if strippedTrailing.length == 0 then 1
          else strippedTrailing.length

/-- The function `countSigFigsFromString` on a string argument. -/
def countSigFigsFromString (raw : Str) : Nat :=
  let s := sanitizeInputRaw raw
  if s.isEmpty then 0
  else
    let s := stripSign s
    match sciMatch s with
    | some (coeff, _) => countSigFigsCoefficient coeff
    | none => countSigFigsCoefficient s

/-! ## Decimal places -/

/-- The value of a run of decimal digits. -/
def parseDigits (ds : Str) : Nat :=
  ds.foldl (fun acc c => 10 * acc + (c.toNat - 48)) 0

/-- The call `parseInt(x, 10)` on a string of the form `[+-]?\d+`, the only
strings the source passes to it: an optional sign and the leading digits.
The result here is the integer the digits denote.  The source returns the
double nearest to it: the same integer up to `2^53` in absolute value, a
rounded one beyond, and an infinity from 309 digits on. -/
def parseInt : Str → Int
  | [] => 0
  | c :: r =>
    if c == '-' then -((parseDigits (r.takeWhile isDigit) : Nat) : Int)
    else if c == '+' then ((parseDigits (r.takeWhile isDigit) : Nat) : Int)
    else ((parseDigits ((c :: r).takeWhile isDigit) : Nat) : Int)

/-- The call `s.indexOf('.')`, with `-1` when there is no dot. -/
def indexOfDot (s : Str) : Int :=
  if s.contains '.' then (s.indexOf '.' : Nat) else -1

/-- The function `decimalPlacesFromString` on a string argument.  The outer
`Except` records a thrown `TypeError` (reading `.length` of a missing split
piece); the inner `Option` is the result, with `none` for `null`.  In the
scientific branch the source computes `after - exp` on doubles and the model
on integers: the two agree as long as the exponent and the difference are at
most `2^53` in absolute value. -/
def decimalPlacesFromString (raw : Str) : Except String (Option Int) :=
  let s := sanitizeInputRaw raw
  if s.isEmpty then .ok none
  else
    let s := stripSign s
    match sciMatch s with
    | some (coeff, ex) =>
      let exp := parseInt ex
      let dotIndex := indexOfDot coeff
      let after : Int := if dotIndex == -1 then 0 else (coeff.length : Int) - dotIndex - 1
      let dp := after - exp
      .ok (some dp)
    | none =>
      if indexOfDot s != -1 then
        match (splitDot s).2.head? with
        | some p => .ok (some (p.length : Int))
        | none => .error "TypeError"
      else .ok (some 0)

/-! ## Expression evaluation: tokens -/

/-- The optional group `(\.\d+)?` at the head of a string: the matched text
and the rest. -/
def scanFrac : Str → Str × Str
  | [] => ([], [])
  | c :: r =>
    if c == '.' && r.head?.any isDigit then ('.' :: r.takeWhile isDigit, r.dropWhile isDigit)
    else ([], c :: r)

/-- The optional sign `[+-]?` at the head of a string. -/
def scanSign : Str → Str × Str
  | [] => ([], [])
  | c :: r => if c == '+' || c == '-' then ([c], r) else ([], c :: r)

/-- The optional group `([eE][+-]?\d+)?` at the head of a string. -/
def scanExp : Str → Str × Str
  | [] => ([], [])
  | c :: r =>
    if (c == 'e' || c == 'E') && (scanSign r).2.head?.any isDigit then
      (c :: ((scanSign r).1 ++ (scanSign r).2.takeWhile isDigit), (scanSign r).2.dropWhile isDigit)
    else ([], c :: r)

/-- The alternative `\d+(\.\d+)?([eE][+-]?\d+)?` at the head of a string. -/
def scanNumber (s : Str) : Option (Str × Str) :=
  if s.head?.any isDigit then
    let d := s.takeWhile isDigit
    let f := scanFrac (s.dropWhile isDigit)
    let e := scanExp f.2
    some (d ++ (f.1 ++ e.1), e.2)
  else none

/-- The alternative `\.\d+` at the head of a string. -/
def scanDotNumber : Str → Option (Str × Str)
  | [] => none
  | c :: r =>
    if c == '.' && r.head?.any isDigit then some ('.' :: r.takeWhile isDigit, r.dropWhile isDigit)
    else none

/-- The class `[+\-*/^()]`. -/
def isOpChar (c : Char) : Bool :=
  c == '+' || c == '-' || c == '*' || c == '/' || c == '^' || c == '(' || c == ')'

/-- One match of the tokenizer's expression
`/(\d+(\.\d+)?([eE][+-]?\d+)?|\.\d+|[+\-*/^()])/` anchored at the head of a
string: the matched token and the rest. -/
def scanToken (s : Str) : Option (Str × Str) :=
  match scanNumber s with
  | some m => some m
  | none =>
    match scanDotNumber s with
    | some m => some m
    | none =>
      match s with
      | [] => none
      | c :: r => if isOpChar c then some ([c], r) else none

/-- The `re.exec` loop of `tokenizeExpr`.  The first argument is the number
of characters still covered by the last match (the distance to `lastIndex`);
where nothing matches, the search moves one character on. -/
def tokenizeLoop : Nat → Str → List Str
  | _, [] => []
  | k + 1, _ :: r => tokenizeLoop k r
  | 0, c :: r =>
    match scanToken (c :: r) with
    | some m => m.1 :: tokenizeLoop (m.1.length - 1) r
    | none => tokenizeLoop 0 r

/-- The function `tokenizeExpr` on a string argument. -/
def tokenizeExpr (expr : Str) : List Str := tokenizeLoop 0 (trim expr)

/-- The test `/^(\d+(\.\d+)?([eE][+-]?\d+)?|\.\d+)$/.test(t)`. -/
def isNumberToken (t : Str) : Bool :=
  match scanNumber t with
  | some m => m.2.isEmpty
  | none =>
    match scanDotNumber t with
    | some m => m.2.isEmpty
    | none => false

/-! ## Expression evaluation: shunting-yard -/

/-- The table `prec`, with `none` where `o in prec` is false. -/
def prec (t : Str) : Option Nat :=
  if t = ['+'] then some 1
  else if t = ['-'] then some 1
  else if t = ['*'] then some 2
  else if t = ['/'] then some 2
  else if t = ['^'] then some 3
  else none

/-- The table `rightAssoc`, read as a truth value. -/
def rightAssoc (t : Str) : Bool := decide (t = ['^'])

/-- The test `t === '+' || t === '-' || t === '*' || t === '/' || t === '^'`. -/
def isOperator (t : Str) : Bool :=
  decide (t = ['+']) || decide (t = ['-']) || decide (t = ['*']) || decide (t = ['/']) ||
    decide (t = ['^'])

/-- The loop condition of the operator case: `(o2 in prec) && ((rightAssoc[t]
&& prec[t] < prec[o2]) || (!rightAssoc[t] && prec[t] <= prec[o2]))`. -/
def shouldPop (t o2 : Str) : Bool :=
  match prec o2, prec t with
  | some p2, some p => (rightAssoc t && decide (p < p2)) || (!rightAssoc t && decide (p ≤ p2))
  | _, _ => false

/-- The `while (ops.length)` loop of the operator case.  The operator stack
has its top at the head of the list. -/
def popOps (t : Str) : List Str → List Str → List Str × List Str
  | out, [] => (out, [])
  | out, o2 :: ops =>
    if shouldPop t o2 then popOps t (out ++ [o2]) ops else (out, o2 :: ops)

/-- The loop `while (ops.length && ops[ops.length - 1] !== '(') out.push(ops.pop())`. -/
def popToParen : List Str → List Str → List Str × List Str
  | out, [] => (out, [])
  | out, o :: ops => if o = ['('] then (out, o :: ops) else popToParen (out ++ [o]) ops

/-- The body of the `forEach` callback of `shuntingYard`, on the state
`(out, ops)`. -/
def syStep (st : List Str × List Str) (t : Str) : Except String (List Str × List Str) :=
  if isNumberToken t then .ok (st.1 ++ [t], st.2)
  else if isOperator t then
    let st1 := popOps t st.1 st.2
    .ok (st1.1, t :: st1.2)
  else if t = ['('] then .ok (st.1, t :: st.2)
  else if t = [')'] then
    let st1 := popToParen st.1 st.2
    match st1.2 with
    | o :: ops => if o = ['('] then .ok (st1.1, ops) else .error "Mismatched parentheses"
    | [] => .error "Mismatched parentheses"
  else .ok st

/-- The final `while (ops.length)` loop of `shuntingYard`. -/
def drainOps : List Str → List Str → Except String (List Str)
  | out, [] => .ok out
  | out, op :: ops =>
    if op = ['('] ∨ op = [')'] then .error "Mismatched parentheses"
    else drainOps (out ++ [op]) ops

/-- The `forEach` loop of `shuntingYard`, from a given state. -/
def syLoop : List Str → List Str × List Str → Except String (List Str × List Str)
  | [], st => .ok st
  | t :: ts, st =>
    match syStep st t with
    | .ok st1 => syLoop ts st1
    | .error e => .error e

/-- The function `shuntingYard`. -/
def shuntingYard (tokens : List Str) : Except String (List Str) :=
  match syLoop tokens ([], []) with
  | .ok st => drainOps st.1 st.2
  | .error e => .error e

/-! ## Expression evaluation: the stack machine -/

/-- The number arithmetic the evaluator runs on.  The source computes on
doubles; the evaluator is kept parametric in the carrier and in the
operations: `num` is `Number(tok)`, `nan` is what `undefined` converts to,
`pow` is `Math.pow`, `neg` is unary minus. -/
structure Arith (V : Type) where
  num : Str → V
  nan : V
  add : V → V → V
  sub : V → V → V
  mul : V → V → V
  div : V → V → V
  pow : V → V → V
  neg : V → V

/-- The call `stack.pop()`, its result converted to a number where it is
used: popping the empty stack gives `undefined`, which every operation of
`evaluateRPN` converts to `nan`.  The stack has its top at the head. -/
def pop {V : Type} (A : Arith V) : List V → V × List V
  | [] => (A.nan, [])
  | v :: st => (v, st)

/-- The `for (let tok of rpn)` loop of `evaluateRPN`. -/
def evalLoop {V : Type} (A : Arith V) : List Str → List V → Except String (List V)
  | [], st => .ok st
  | tok :: rpn, st =>
    if isNumberToken tok then evalLoop A rpn (A.num tok :: st)
    else if tok = ['u', '-'] then
      let a := pop A st
      evalLoop A rpn (A.neg a.1 :: a.2)
    else
      let b := pop A st
      let a := pop A b.2
      if tok = ['+'] then evalLoop A rpn (A.add a.1 b.1 :: a.2)
      else if tok = ['-'] then evalLoop A rpn (A.sub a.1 b.1 :: a.2)
      else if tok = ['*'] then evalLoop A rpn (A.mul a.1 b.1 :: a.2)
      else if tok = ['/'] then evalLoop A rpn (A.div a.1 b.1 :: a.2)
      else if tok = ['^'] then evalLoop A rpn (A.pow a.1 b.1 :: a.2)
      else .error ("Unknown operator " ++ String.mk tok)

/-- The function `evaluateRPN`. -/
def evaluateRPN {V : Type} (A : Arith V) (rpn : List Str) : Except String V :=
  match evalLoop A rpn [] with
  | .ok [v] => .ok v
  | .ok _ => .error "Invalid expression"
  | .error e => .error e

/-- The class `[0-9eE+\-*/^().\s]` whose complement `evalExpression` deletes. -/
def isAllowedChar (c : Char) : Bool :=
  isDigit c || c == 'e' || c == 'E' || c == '+' || c == '-' || c == '*' || c == '/' ||
    c == '^' || c == '(' || c == ')' || c == '.' || isJsSpace c

/-- The function `evalExpression` on a string argument. -/
def evalExpression {V : Type} (A : Arith V) (expr : Str) : Except String V :=
  let safe := expr.filter isAllowedChar
  let tokens := tokenizeExpr safe
  if tokens.length == 0 then .error "Empty expression"
  else
    match shuntingYard tokens with
    | .ok rpn => evaluateRPN A rpn
    | .error e => .error e

/-! ## Rounding to decimal places -/

/-- A JavaScript number: a finite value, given by the rational it denotes
(every finite double is one), or one of the three non-finite values. -/
inductive JsNumber
  | finite (q : ℚ)
  | nan
  | posInf
  | negInf

/-- What a formatting function returns: a text the source builds itself, or
the default text of a number, `String(x)`, which is left unread; `ofScaled x
dp` is `String(Math.round(x / factor) * factor)` with `factor = Math.pow(10,
-dp)`, a computation on doubles that is left unread as well. -/
inductive Shown
  | text (s : Str)
  | ofNumber (x : JsNumber)
  | ofScaled (x : ℚ) (dp : Int)

/-- The decimal digit of a number below ten. -/
def digitChar (d : Nat) : Char := Char.ofNat (48 + d)

/-- The decimal digits of a natural number, most significant first, by
repeated division; the first argument bounds the number of digits. -/
def natDigitsAux : Nat → Nat → Str
  | 0, _ => []
  | fuel + 1, n =>
    if n < 10 then [digitChar n] else natDigitsAux fuel (n / 10) ++ [digitChar (n % 10)]

/-- The decimal representation of a natural number, with no leading zeros;
`0` for zero. -/
def natDigits (n : Nat) : Str := natDigitsAux (n + 1) n

/-- Steps 11 of `Number.prototype.toFixed` for `0 ≤ x < 10^21` and `f`
fraction digits: `n` is the integer nearest to `x * 10^f`, the larger one of
two; its digits are padded with zeros to `f + 1` characters and the point is
put before the last `f` of them. -/
def toFixedDigits (x : ℚ) (f : Nat) : Str :=
  let n := (2 * x.num.natAbs * 10 ^ f + x.den) / (2 * x.den)
  let m := natDigits n
  if f = 0 then m
  else
    let m1 := List.replicate (f + 1 - m.length) '0' ++ m
    m1.take (m1.length - f) ++ '.' :: m1.drop (m1.length - f)

/-- The method `x.toFixed(fd)` of ECMAScript on a finite number and an
integer argument: a `RangeError` outside `0..100`, the default text of the
number from `10^21` on, and the fixed-point text otherwise, after a `-` for a
negative number. -/
def toFixed (x : ℚ) (fd : Int) : Except String Shown :=
  if fd < 0 ∨ 100 < fd then .error "RangeError"
  else if (10 : ℚ) ^ 21 ≤ |x| then .ok (.ofNumber (.finite x))
  else .ok (.text ((if x < 0 then ['-'] else []) ++ toFixedDigits |x| fd.toNat))

/-- The function `formatRoundedToDecimalPlaces` on a number and an integer
number of places. -/
def formatRoundedToDecimalPlaces (value : JsNumber) (dp : Int) : Except String Shown :=
  match value with
  | .finite q =>
    if 0 ≤ dp then toFixed q dp
    else .ok (.ofScaled q dp)
  | x => .ok (.ofNumber x)

/-! ## Vocabulary of the statements -/

/-- A character of a coefficient: a digit or the decimal point. -/
def isCoeffChar (c : Char) : Bool := isDigit c || c == '.'

/-- The characters the sanitizer keeps: everything but white space and commas. -/
def isKept (c : Char) : Bool := !isJsSpace c && c != ','

/-- An integer that doubles represent exactly, with all the integers between
it and zero: at most `2^53` in absolute value.  On such integers the source's
`parseInt` and its subtraction of integers return what the model computes. -/
def doubleExact (n : Int) : Prop := n.natAbs ≤ 2 ^ 53

/-- The plain decimal writing `expand` of the specification, for the number
written `i.f` times ten to the `k`: the decimal point of the coefficient is
moved by `k` places, with zeros added where the digits run out.  The point is
left out when no digit follows it. -/
def specExpand (i f : Str) (k : Int) : Str :=
  let digits := i ++ f
  let p : Int := (i.length : Int) + k
  if p ≤ 0 then '0' :: '.' :: (List.replicate (-p).toNat '0' ++ digits)
  else if p < (digits.length : Int) then digits.take p.toNat ++ '.' :: digits.drop p.toNat
  else digits ++ List.replicate (p.toNat - digits.length) '0'

/-! ### Infix expressions and their conventional reading -/

/-- The five binary operators. -/
inductive BinOp
  | add
  | sub
  | mul
  | div
  | pow
  deriving DecidableEq, Repr

/-- The token of an operator. -/
def BinOp.tok : BinOp → Str
  | .add => ['+']
  | .sub => ['-']
  | .mul => ['*']
  | .div => ['/']
  | .pow => ['^']

/-- The conventional binding strength: `^` above `*` and `/`, above `+` and `-`. -/
def BinOp.strength : BinOp → Nat
  | .add => 1
  | .sub => 1
  | .mul => 2
  | .div => 2
  | .pow => 3

/-- The conventional grouping: only `^` groups to the right. -/
def BinOp.groupsRight : BinOp → Bool
  | .pow => true
  | _ => false

/-- The operation an operator denotes in an arithmetic. -/
def BinOp.apply {V : Type} (A : Arith V) : BinOp → V → V → V
  | .add => A.add
  | .sub => A.sub
  | .mul => A.mul
  | .div => A.div
  | .pow => A.pow

/-- An infix expression as it is read: a number literal, a binary operation
on two expressions, or an expression in parentheses. -/
inductive Expr
  | lit (t : Str)
  | bin (op : BinOp) (l r : Expr)
  | paren (e : Expr)
  deriving Repr

/-- The token sequence an expression is written as. -/
def Expr.tokens : Expr → List Str
  | .lit t => [t]
  | .bin op l r => l.tokens ++ op.tok :: r.tokens
  | .paren e => ['('] :: (e.tokens ++ [[')']])

/-- The text of an expression: its tokens, one after the other. -/
def Expr.text (e : Expr) : Str := e.tokens.flatten

/-- The value of an expression in an arithmetic. -/
def Expr.value {V : Type} (A : Arith V) : Expr → V
  | .lit t => A.num t
  | .bin op l r => op.apply A (l.value A) (r.value A)
  | .paren e => e.value A

/-- The binding strength of an expression at its root; literals and
parenthesised expressions bind tightest. -/
def Expr.level : Expr → Nat
  | .lit _ => 4
  | .bin op _ _ => op.strength
  | .paren _ => 4

/-- An expression tree is the conventional reading of its own token sequence:
literals are number literals, and the operands of every operator bind at
least as tightly as the operator, strictly so on the side the operator does
not group to. -/
def Expr.conventional : Expr → Bool
  | .lit t => isNumberToken t
  | .bin op l r =>
    l.conventional && r.conventional &&
      (if op.groupsRight then decide (op.strength < l.level) && decide (op.strength ≤ r.level)
       else decide (op.strength ≤ l.level) && decide (op.strength < r.level))
  | .paren e => e.conventional

/-- The conventional grammar of infix expressions, as a relation between a
binding level, a token sequence and the tree it is read as.  Level 1 is a sum
(`E → E + T | E - T | T`), level 2 a product (`T → T * P | T / P | P`), level
3 a power (`P → A ^ P | A`), level 4 an atom (`A → literal | ( E )`). -/
inductive Parses : Nat → List Str → Expr → Prop
  | literal (t : Str) : isNumberToken t = true → Parses 4 [t] (.lit t)
  | parens {ts : List Str} {e : Expr} :
      Parses 1 ts e → Parses 4 (['('] :: (ts ++ [[')']])) (.paren e)
  | atom {ts : List Str} {e : Expr} : Parses 4 ts e → Parses 3 ts e
  | power {l r : List Str} {a b : Expr} :
      Parses 4 l a → Parses 3 r b → Parses 3 (l ++ ['^'] :: r) (.bin .pow a b)
  | factor {ts : List Str} {e : Expr} : Parses 3 ts e → Parses 2 ts e
  | times {l r : List Str} {a b : Expr} :
      Parses 2 l a → Parses 3 r b → Parses 2 (l ++ ['*'] :: r) (.bin .mul a b)
  | over {l r : List Str} {a b : Expr} :
      Parses 2 l a → Parses 3 r b → Parses 2 (l ++ ['/'] :: r) (.bin .div a b)
  | term {ts : List Str} {e : Expr} : Parses 2 ts e → Parses 1 ts e
  | plus {l r : List Str} {a b : Expr} :
      Parses 1 l a → Parses 2 r b → Parses 1 (l ++ ['+'] :: r) (.bin .add a b)
  | minus {l r : List Str} {a b : Expr} :
      Parses 1 l a → Parses 2 r b → Parses 1 (l ++ ['-'] :: r) (.bin .sub a b)

/-- The writing of an expression in reverse Polish order. -/
def Expr.rpn : Expr → List Str
  | .lit t => [t]
  | .bin op l r => l.rpn ++ (r.rpn ++ [op.tok])
  | .paren e => e.rpn

/-- The operators of an expression that are still on the operator stack when
its last token has been read, top first. -/
def Expr.spine : Expr → List Str
  | .lit _ => []
  | .bin op _ r => r.spine ++ [op.tok]
  | .paren _ => []

/-- The output produced when the last token of an expression has been read. -/
def Expr.emitted : Expr → List Str
  | .lit t => [t]
  | .bin _ l r => l.emitted ++ (l.spine ++ r.emitted)
  | .paren e => e.emitted ++ e.spine

/-- The operator on top of the stack, if any, binds more loosely than the
expression about to be read, or equally and to the right. -/
def ctxOk (ops : List Str) (e : Expr) : Prop :=
  ∀ o, ops.head? = some o → ∀ p, prec o = some p → p < e.level ∨ (p = e.level ∧ p = 3)

/-- The free arithmetic: values are terms, operations build terms. -/
inductive Term
  | num (t : Str)
  | nan
  | add (a b : Term)
  | sub (a b : Term)
  | mul (a b : Term)
  | div (a b : Term)
  | pow (a b : Term)
  | neg (a : Term)
  deriving DecidableEq, Repr

/-- The arithmetic of terms. -/
def termArith : Arith Term :=
  { num := Term.num, nan := Term.nan, add := Term.add, sub := Term.sub, mul := Term.mul,
    div := Term.div, pow := Term.pow, neg := Term.neg }

/-- Balanced parentheses in a token sequence: no prefix has more `)` than `(`
tokens, and the totals agree. -/
def specBalanced (ts : List Str) : Prop :=
  (∀ n, (ts.take n).count [')'] ≤ (ts.take n).count ['(']) ∧ ts.count ['('] = ts.count [')']

/-- The running parenthesis depth of a token sequence from a given depth;
`none` where a `)` meets depth 0. -/
def parenScan : List Str → Nat → Option Nat
  | [], d => some d
  | t :: ts, d =>
    if t = ['('] then parenScan ts (d + 1)
    else if t = [')'] then (if d = 0 then none else parenScan ts (d - 1))
    else parenScan ts d

/-- A token made of one operator or parenthesis character. -/
def isOpToken : Str → Bool
  | [c] => isOpChar c
  | _ => false

/-- No two number literals stand next to each other in a token sequence. -/
def separated : List Str → Bool
  | a :: b :: r => !(isNumberToken a && isNumberToken b) && separated (b :: r)
  | _ => true

/-- The characters a number literal is made of. -/
def isLitChar (c : Char) : Bool :=
  isDigit c || c == '.' || c == 'e' || c == 'E' || c == '+' || c == '-'

/-- A character after which a number literal cannot go on: not a digit, a
point or an exponent mark. -/
def isStopChar (c : Char) : Bool := !(isDigit c || c == '.' || c == 'e' || c == 'E')

/-- A text spells a token sequence: it is the tokens in order, with any
white-space characters before, between and after them. -/
inductive Spells : List Str → Str → Prop
  | done : Spells [] []
  | token (t : Str) {ts : List Str} {s : Str} : Spells ts s → Spells (t :: ts) (t ++ s)
  | space (c : Char) {ts : List Str} {s : Str} :
      isJsSpace c = true → Spells ts s → Spells ts (c :: s)

/-- A token the stack machine accepts: a number literal or one of the five
operators. -/
def isRpnToken (t : Str) : Bool := isNumberToken t || isOperator t

/-- The height of the value stack after a sequence in reverse Polish order,
from a given height, as long as every operator finds its two operands:
a number adds one value, an operator replaces two values by one; `none`
where an operator finds fewer than two. -/
def specStack : List Str → Nat → Option Nat
  | [], n => some n
  | t :: r, n =>
    if isNumberToken t then specStack r (n + 1)
    else if 2 ≤ n then specStack r (n - 1)
    else none


/-- The state of the shunting-yard is well formed: the output holds numbers
and operators, the stack operators and opening parentheses. -/
def StateOk (st : List Str × List Str) : Prop :=
  (∀ x ∈ st.1, isRpnToken x = true) ∧ (∀ x ∈ st.2, isOperator x = true ∨ x = ['('])

/-! ## Facts on characters -/

theorem digit_ne_dot {c : Char} (h : isDigit c = true) : c ≠ '.' := by
  rintro rfl; revert h; decide

theorem digit_ne_plus {c : Char} (h : isDigit c = true) : c ≠ '+' := by
  rintro rfl; revert h; decide

theorem digit_ne_minus {c : Char} (h : isDigit c = true) : c ≠ '-' := by
  rintro rfl; revert h; decide

theorem digit_ne_comma {c : Char} (h : isDigit c = true) : c ≠ ',' := by
  rintro rfl; revert h; decide

theorem digit_ne_e {c : Char} (h : isDigit c = true) : c ≠ 'e' := by
  rintro rfl; revert h; decide

theorem digit_ne_E {c : Char} (h : isDigit c = true) : c ≠ 'E' := by
  rintro rfl; revert h; decide

theorem digit_not_space {c : Char} (h : isDigit c = true) : isJsSpace c = false := by
  simp only [isDigit, Bool.and_eq_true, decide_eq_true_eq] at h
  simp only [isJsSpace, Bool.or_eq_false_iff, beq_eq_false_iff_ne, ne_eq, Bool.and_eq_false_imp,
    decide_eq_true_eq, decide_eq_false_iff_not]
  omega

theorem digit_not_terminator {c : Char} (h : isDigit c = true) : isLineTerminator c = false := by
  simp only [isDigit, Bool.and_eq_true, decide_eq_true_eq] at h
  simp only [isLineTerminator, Bool.or_eq_false_iff, beq_eq_false_iff_ne, ne_eq]
  omega

theorem terminator_is_space {c : Char} (h : isLineTerminator c = true) : isJsSpace c = true := by
  simp only [isLineTerminator, Bool.or_eq_true, beq_iff_eq] at h
  simp only [isJsSpace, Bool.or_eq_true, beq_iff_eq, Bool.and_eq_true, decide_eq_true_eq]
  omega

theorem coeffChar_not_space {c : Char} (h : isCoeffChar c = true) : isJsSpace c = false := by
  simp only [isCoeffChar, Bool.or_eq_true, beq_iff_eq] at h
  rcases h with h | rfl
  · exact digit_not_space h
  · decide

theorem coeffChar_not_terminator {c : Char} (h : isCoeffChar c = true) :
    isLineTerminator c = false := by
  cases hc : isLineTerminator c
  · rfl
  · have := terminator_is_space hc
    rw [coeffChar_not_space h] at this
    exact absurd this (by decide)

theorem coeffChar_ne {c : Char} (h : isCoeffChar c = true) :
    c ≠ ',' ∧ c ≠ '+' ∧ c ≠ '-' ∧ c ≠ 'e' ∧ c ≠ 'E' := by
  refine ⟨?_, ?_, ?_, ?_, ?_⟩ <;> (rintro rfl; revert h; decide)

/-! ## Facts on the sanitizer -/

theorem dropWhile_eq_self_of_head {p : Char → Bool} :
    ∀ (s : Str), (∀ c, s.head? = some c → p c = false) → s.dropWhile p = s
  | [], _ => rfl
  | c :: r, h => by simp [List.dropWhile, h c rfl]

theorem trim_eq_self {s : Str} (h : ∀ c ∈ s, isJsSpace c = false) : trim s = s := by
  unfold trim
  rw [dropWhile_eq_self_of_head s (fun c hc => h c (List.mem_of_mem_head? hc))]
  rw [dropWhile_eq_self_of_head s.reverse
    (fun c hc => h c (List.mem_reverse.1 (List.mem_of_mem_head? hc)))]
  exact List.reverse_reverse s

theorem filter_dropWhile_space (q : Char → Bool) (hq : ∀ c, isJsSpace c = true → q c = false) :
    ∀ s : Str, (s.dropWhile isJsSpace).filter q = s.filter q
  | [] => rfl
  | c :: r => by
    cases hc : isJsSpace c
    · simp [List.dropWhile, hc]
    · simp [List.dropWhile, hc, hq c hc, filter_dropWhile_space q hq r]

theorem filter_trim (q : Char → Bool) (hq : ∀ c, isJsSpace c = true → q c = false) (s : Str) :
    (trim s).filter q = s.filter q := by
  unfold trim
  rw [List.filter_reverse, filter_dropWhile_space q hq, List.filter_reverse,
    List.reverse_reverse, filter_dropWhile_space q hq]

/-- The sanitizer deletes every white-space character and every comma, and
nothing else. -/
theorem sanitize_eq_filter (s : Str) : sanitizeInputRaw s = s.filter isKept := by
  unfold sanitizeInputRaw
  rw [List.filter_filter]
  have : (fun c => (!isJsSpace c) && (c != ',')) = isKept := rfl
  rw [this]
  exact filter_trim isKept (fun c hc => by simp [isKept, hc]) s

theorem sanitize_eq_self {s : Str} (h : ∀ c ∈ s, isKept c = true) : sanitizeInputRaw s = s := by
  rw [sanitize_eq_filter]; exact List.filter_eq_self.2 h

theorem sanitize_idem (s : Str) : sanitizeInputRaw (sanitizeInputRaw s) = sanitizeInputRaw s := by
  rw [sanitize_eq_filter, sanitize_eq_filter, List.filter_filter]
  congr 1; funext c; simp

theorem sanitize_append (a b : Str) :
    sanitizeInputRaw (a ++ b) = sanitizeInputRaw a ++ sanitizeInputRaw b := by
  simp [sanitize_eq_filter]

theorem sanitize_cons_kept {c : Char} (h : isKept c = true) (s : Str) :
    sanitizeInputRaw (c :: s) = c :: sanitizeInputRaw s := by
  simp [sanitize_eq_filter, h]

theorem sanitize_spaces {w : Str} (h : ∀ c ∈ w, isJsSpace c = true) : sanitizeInputRaw w = [] := by
  rw [sanitize_eq_filter, List.filter_eq_nil_iff]
  intro c hc; simp [isKept, h c hc]

theorem coeffChar_kept {c : Char} (h : isCoeffChar c = true) : isKept c = true := by
  simp [isKept, coeffChar_not_space h, (coeffChar_ne h).1]

/-! ## Facts on the scanners of the counter -/

theorem sciMatch_none {s : Str} (h : ∀ c ∈ s, c ≠ 'e' ∧ c ≠ 'E') : sciMatch s = none := by
  induction s with
  | nil => rfl
  | cons c r ih =>
    have hc := h c (List.mem_cons_self c r)
    have hr := ih (fun d hd => h d (List.mem_cons_of_mem c hd))
    simp [sciMatch, hc.1, hc.2, hr]

theorem sciMatch_coeff_none {s : Str} (h : ∀ c ∈ s, isCoeffChar c = true) : sciMatch s = none :=
  sciMatch_none (fun c hc => ⟨(coeffChar_ne (h c hc)).2.2.2.1, (coeffChar_ne (h c hc)).2.2.2.2⟩)

theorem sciMatch_append {body x : Str} {e : Char} (hb : ∀ c ∈ body, isCoeffChar c = true)
    (he : e = 'e' ∨ e = 'E') (hx : isSignedDigits x = true) :
    sciMatch (body ++ e :: x) = some (body, x) := by
  induction body with
  | nil => rcases he with rfl | rfl <;> simp [sciMatch, hx]
  | cons c r ih =>
    have hc := hb c (List.mem_cons_self c r)
    have hr := ih (fun d hd => hb d (List.mem_cons_of_mem c hd))
    have hne := coeffChar_ne hc
    simp [sciMatch, hne.2.2.2.1, hne.2.2.2.2, coeffChar_not_terminator hc, hr]

theorem splitDot_nodot {s : Str} (h : ∀ c ∈ s, c ≠ '.') : splitDot s = (s, []) := by
  induction s with
  | nil => rfl
  | cons c r ih =>
    have hc := h c (List.mem_cons_self c r)
    have hr := ih (fun d hd => h d (List.mem_cons_of_mem c hd))
    simp [splitDot, hc, hr]

theorem splitDot_append {i : Str} (f : Str) (h : ∀ c ∈ i, c ≠ '.') :
    splitDot (i ++ '.' :: f) = (i, (splitDot f).1 :: (splitDot f).2) := by
  induction i with
  | nil => simp [splitDot]
  | cons c r ih =>
    have hc := h c (List.mem_cons_self c r)
    have hr := ih (fun d hd => h d (List.mem_cons_of_mem c hd))
    simp [splitDot, hc, hr]

theorem contains_dot_digits {s : Str} (h : ∀ c ∈ s, isDigit c = true) :
    s.contains '.' = false := by
  cases hc : s.contains '.'
  · rfl
  · rw [List.contains_iff_exists_mem_beq] at hc
    obtain ⟨c, hm, hb⟩ := hc
    have : c = '.' := by simpa using Eq.symm (beq_iff_eq.1 hb)
    exact absurd this (digit_ne_dot (h c hm))

theorem contains_dot_append (i f : Str) : (i ++ '.' :: f).contains '.' = true := by
  rw [List.contains_iff_exists_mem_beq]
  exact ⟨'.', by simp, by simp⟩

theorem any_bad_false {s : Str} (h : ∀ c ∈ s, isCoeffChar c = true) :
    s.any (fun c => !(isDigit c || c == '.')) = false := by
  rw [Bool.eq_false_iff]
  intro hany
  rw [List.any_eq_true] at hany
  obtain ⟨c, hm, hc⟩ := hany
  have := h c hm
  simp only [isCoeffChar] at this
  simp [this] at hc

theorem stripLeadingZeros_eq_nil {s : Str} :
    stripLeadingZeros s = [] ↔ allZeros s = true := by
  unfold stripLeadingZeros allZeros
  rw [List.dropWhile_eq_nil_iff, List.all_eq_true]

/-- The trailing cut of `replace(/0+$/, '')` is the library's `rdropWhile`. -/
theorem stripTrailingZeros_eq (s : Str) :
    stripTrailingZeros s = s.rdropWhile (fun c => c == '0') := by
  induction s with
  | nil => rfl
  | cons c r ih =>
    unfold stripTrailingZeros
    rw [ih]
    unfold List.rdropWhile
    rw [List.reverse_cons, List.dropWhile_append]
    by_cases hr : r.all (fun d => d == '0') = true
    · have h1 : List.dropWhile (fun c => c == '0') r.reverse = [] := by
        rw [List.dropWhile_eq_nil_iff]
        intro x hx
        exact List.all_eq_true.1 hr x (List.mem_reverse.1 hx)
      by_cases hc : c = '0'
      · simp [hr, h1, hc]
      · simp [hr, h1, hc]
    · have h1 : List.dropWhile (fun c => c == '0') r.reverse ≠ [] := by
        intro h0
        rw [List.dropWhile_eq_nil_iff] at h0
        exact hr (List.all_eq_true.2 (fun x hx => h0 x (List.mem_reverse.2 hx)))
      have h2 : (List.dropWhile (fun c => c == '0') r.reverse).isEmpty = false := by
        cases h : List.dropWhile (fun c => c == '0') r.reverse with
        | nil => exact absurd h h1
        | cons _ _ => rfl
      simp [hr, h2]

/-! ## The coefficient counter on well-formed coefficients -/

/-- The counter on a non-empty run of digits. -/
theorem coeff_digits {s : Str} (hne : s ≠ []) (h : ∀ c ∈ s, isDigit c = true) :
    countSigFigsCoefficient s =
      if (stripLeadingZeros s).length = 0 then 1
      else if (stripTrailingZeros (stripLeadingZeros s)).length = 0 then 1
      else (stripTrailingZeros (stripLeadingZeros s)).length := by
  have hcoeff : ∀ c ∈ s, isCoeffChar c = true := fun c hc => by simp [isCoeffChar, h c hc]
  have htrim : trim s = s := trim_eq_self (fun c hc => digit_not_space (h c hc))
  have hhead : (s.head? == some '.') = false := by
    cases s with
    | nil => rfl
    | cons c r =>
      have := digit_ne_dot (h c (List.mem_cons_self c r))
      simp [this]
  have hemp : s.isEmpty = false := by cases s <;> simp_all
  unfold countSigFigsCoefficient
  have hmem : '.' ∉ s := fun hm => digit_ne_dot (h _ hm) rfl
  simp only [hemp, htrim, any_bad_false hcoeff, hhead]
  simp [hmem]

/-- The counter on `i.f` with a non-empty integer part. -/
theorem coeff_dotted {i f : Str} (hne : i ≠ []) (hi : ∀ c ∈ i, isDigit c = true)
    (hf : ∀ c ∈ f, isDigit c = true) :
    countSigFigsCoefficient (i ++ '.' :: f) =
      if allZeros i && allZeros f then f.length else (stripLeadingZeros i ++ f).length := by
  have hcoeff : ∀ c ∈ i ++ '.' :: f, isCoeffChar c = true := by
    intro c hc
    rw [List.mem_append, List.mem_cons] at hc
    rcases hc with hc | rfl | hc
    · simp [isCoeffChar, hi c hc]
    · rfl
    · simp [isCoeffChar, hf c hc]
  have htrim : trim (i ++ '.' :: f) = i ++ '.' :: f :=
    trim_eq_self (fun c hc => coeffChar_not_space (hcoeff c hc))
  have hhead : ((i ++ '.' :: f).head? == some '.') = false := by
    cases i with
    | nil => exact absurd rfl hne
    | cons c r =>
      have := digit_ne_dot (hi c (List.mem_cons_self c r))
      simp [this]
  have hemp : (i ++ '.' :: f).isEmpty = false := by cases i <;> simp
  have hsplit : splitDot (i ++ '.' :: f) = (i, [f]) := by
    rw [splitDot_append f (fun c hc => digit_ne_dot (hi c hc)),
      splitDot_nodot (fun c hc => digit_ne_dot (hf c hc))]
  unfold countSigFigsCoefficient
  simp only [hemp, htrim, any_bad_false hcoeff, hhead, Bool.false_eq_true, if_false,
    contains_dot_append, if_true, hsplit]
  have hfz : (if f.isEmpty = true then true else allZeros f) = allZeros f := by
    cases f <;> simp [allZeros]
  simp only [List.head?_cons, Option.getD_some, hfz]
  by_cases hz : (allZeros i && allZeros f) = true
  · rw [if_pos hz, if_pos hz]
  · have hlen : ¬ ((stripLeadingZeros i ++ f).length == 0) = true := by
      intro h0
      have h1 : stripLeadingZeros i ++ f = [] := List.length_eq_zero.1 (by simpa using h0)
      rw [List.append_eq_nil] at h1
      have ha := stripLeadingZeros_eq_nil.1 h1.1
      have hb : allZeros f = true := by rw [h1.2]; rfl
      exact hz (by simp [ha, hb])
    rw [if_neg hz, if_neg hz, if_neg hlen]

/-- The counter on `.f`: a leading dot is read as `0.`. -/
theorem coeff_leading_dot (f : Str) (hf : ∀ c ∈ f, isDigit c = true) :
    countSigFigsCoefficient ('.' :: f) = countSigFigsCoefficient ('0' :: '.' :: f) := by
  have hcoeff : ∀ c ∈ '.' :: f, isCoeffChar c = true := by
    intro c hc
    rw [List.mem_cons] at hc
    rcases hc with rfl | hc
    · rfl
    · simp [isCoeffChar, hf c hc]
  have hcoeff0 : ∀ c ∈ '0' :: '.' :: f, isCoeffChar c = true := by
    intro c hc
    rw [List.mem_cons] at hc
    rcases hc with rfl | hc
    · rfl
    · exact hcoeff c hc
  have htrim : trim ('.' :: f) = '.' :: f :=
    trim_eq_self (fun c hc => coeffChar_not_space (hcoeff c hc))
  have htrim0 : trim ('0' :: '.' :: f) = '0' :: '.' :: f :=
    trim_eq_self (fun c hc => coeffChar_not_space (hcoeff0 c hc))
  unfold countSigFigsCoefficient
  simp only [htrim, htrim0, any_bad_false hcoeff, any_bad_false hcoeff0]
  simp

/-! ## The counter on signed coefficients -/

theorem signedDigits_kept {x : Str} (hx : isSignedDigits x = true) : ∀ c ∈ x, isKept c = true := by
  cases x with
  | nil => intro c hc; cases hc
  | cons d r =>
    simp only [isSignedDigits] at hx
    have hdig : ∀ c, isDigit c = true → isKept c = true := fun c hc =>
      coeffChar_kept (by simp [isCoeffChar, hc])
    intro c hc
    rw [List.mem_cons] at hc
    by_cases hd : (d == '+' || d == '-') = true
    · rw [if_pos hd] at hx
      simp only [Bool.and_eq_true, List.all_eq_true] at hx
      rcases hc with rfl | hc
      · simp only [Bool.or_eq_true, beq_iff_eq] at hd
        rcases hd with rfl | rfl <;> decide
      · exact hdig c (hx.2 c hc)
    · rw [if_neg hd] at hx
      simp only [Bool.and_eq_true, List.all_eq_true] at hx
      rcases hc with rfl | hc
      · exact hdig c hx.1
      · exact hdig c (hx.2 c hc)

theorem sign_kept {sg : Str} (hs : sg = [] ∨ sg = ['+'] ∨ sg = ['-']) :
    ∀ c ∈ sg, isKept c = true := by
  rcases hs with rfl | rfl | rfl <;> decide

theorem stripSign_sign_append {sg body : Str} (hs : sg = [] ∨ sg = ['+'] ∨ sg = ['-'])
    (hb : ∀ c, body.head? = some c → c ≠ '+' ∧ c ≠ '-') : stripSign (sg ++ body) = body := by
  rcases hs with rfl | rfl | rfl
  · cases body with
    | nil => rfl
    | cons c r =>
      have := hb c rfl
      simp [stripSign, this.1, this.2]
  · simp [stripSign]
  · simp [stripSign]

/-- The counter on a signed coefficient is the coefficient counter on the
coefficient. -/
theorem count_signed_coeff {sg body : Str} (hs : sg = [] ∨ sg = ['+'] ∨ sg = ['-'])
    (hb : ∀ c ∈ body, isCoeffChar c = true) :
    countSigFigsFromString (sg ++ body) = countSigFigsCoefficient body := by
  have hclean : sanitizeInputRaw (sg ++ body) = sg ++ body := by
    apply sanitize_eq_self
    intro c hc
    rw [List.mem_append] at hc
    rcases hc with hc | hc
    · exact sign_kept hs c hc
    · exact coeffChar_kept (hb c hc)
  have hstrip : stripSign (sg ++ body) = body :=
    stripSign_sign_append hs (fun c hc =>
      ⟨(coeffChar_ne (hb c (List.mem_of_mem_head? hc))).2.1,
        (coeffChar_ne (hb c (List.mem_of_mem_head? hc))).2.2.1⟩)
  unfold countSigFigsFromString
  simp only [hclean, hstrip, sciMatch_coeff_none hb]
  by_cases hemp : (sg ++ body).isEmpty = true
  · have : body = [] := (List.append_eq_nil.1 (List.isEmpty_iff.1 hemp)).2
    subst this
    simp [hemp, countSigFigsCoefficient]
  · simp [hemp]

/-- The counter on a signed coefficient followed by an exponent is the
coefficient counter on the coefficient. -/
theorem count_signed_sci {sg body x : Str} {e : Char} (hs : sg = [] ∨ sg = ['+'] ∨ sg = ['-'])
    (hb : ∀ c ∈ body, isCoeffChar c = true) (he : e = 'e' ∨ e = 'E')
    (hx : isSignedDigits x = true) :
    countSigFigsFromString (sg ++ body ++ e :: x) = countSigFigsCoefficient body := by
  have hclean : sanitizeInputRaw (sg ++ body ++ e :: x) = sg ++ body ++ e :: x := by
    apply sanitize_eq_self
    intro c hc
    simp only [List.mem_append, List.mem_cons] at hc
    rcases hc with (hc | hc) | rfl | hc
    · exact sign_kept hs c hc
    · exact coeffChar_kept (hb c hc)
    · rcases he with rfl | rfl <;> decide
    · exact signedDigits_kept hx c hc
  have hstrip : stripSign (sg ++ (body ++ e :: x)) = body ++ e :: x := by
    apply stripSign_sign_append hs
    intro c hc
    cases body with
    | nil =>
      simp only [List.nil_append, List.head?_cons, Option.some.injEq] at hc
      subst hc
      rcases he with rfl | rfl <;> decide
    | cons d r =>
      simp only [List.cons_append, List.head?_cons, Option.some.injEq] at hc
      have := coeffChar_ne (hb d (List.mem_cons_self d r))
      rw [← hc]
      exact ⟨this.2.1, this.2.2.1⟩
  have hemp : (sg ++ body ++ e :: x).isEmpty = false := by
    cases h : sg ++ body ++ e :: x with
    | nil => simp at h
    | cons _ _ => rfl
  unfold countSigFigsFromString
  rw [hclean]
  simp only [hemp, Bool.false_eq_true, if_false]
  rw [List.append_assoc, hstrip, sciMatch_append hb he hx]

theorem count_eq_of_sanitize_eq {s t : Str} (h : sanitizeInputRaw s = sanitizeInputRaw t) :
    countSigFigsFromString s = countSigFigsFromString t := by
  unfold countSigFigsFromString
  rw [h]

theorem getLast?_dropWhile_zero :
    ∀ s : Str, s ≠ [] → s.getLast? ≠ some '0' →
      stripLeadingZeros s ≠ [] ∧ (stripLeadingZeros s).getLast? = s.getLast?
  | [], h, _ => absurd rfl h
  | c :: r, _, hl => by
    by_cases hc : c = '0'
    · subst hc
      cases r with
      | nil => exact absurd rfl hl
      | cons d r2 =>
        have hl2 : (d :: r2).getLast? ≠ some '0' := by
          rw [List.getLast?_cons_cons] at hl; exact hl
        have ih := getLast?_dropWhile_zero (d :: r2) (List.cons_ne_nil d r2) hl2
        have hs : stripLeadingZeros ('0' :: d :: r2) = stripLeadingZeros (d :: r2) := by
          simp [stripLeadingZeros]
        rw [hs, List.getLast?_cons_cons]
        exact ih
    · have hs : stripLeadingZeros (c :: r) = c :: r := by
        simp [stripLeadingZeros, hc]
      rw [hs]
      exact ⟨List.cons_ne_nil c r, rfl⟩

/-! ## Significant figures: the claims -/

/-- Zeros written between the decimal point and the first non-zero digit are
counted: on `0.` followed by `k` zeros and a digit string `d`, under an
optional sign, the counter returns `k + |d|`. -/
theorem count_fraction_leading_zeros {sg d : Str} (k : Nat)
    (hs : sg = [] ∨ sg = ['+'] ∨ sg = ['-']) (hd : ∀ c ∈ d, isDigit c = true) :
    countSigFigsFromString (sg ++ ('0' :: '.' :: (List.replicate k '0' ++ d))) = k + d.length := by
  have hf : ∀ c ∈ List.replicate k '0' ++ d, isDigit c = true := by
    intro c hc
    rw [List.mem_append] at hc
    rcases hc with hc | hc
    · rw [(List.mem_replicate.1 hc).2]; rfl
    · exact hd c hc
  have hi : ∀ c ∈ ['0'], isDigit c = true := by decide
  have hb : ∀ c ∈ '0' :: '.' :: (List.replicate k '0' ++ d), isCoeffChar c = true := by
    intro c hc
    rw [List.mem_cons, List.mem_cons] at hc
    rcases hc with rfl | rfl | hc
    · rfl
    · rfl
    · simp [isCoeffChar, hf c hc]
  rw [count_signed_coeff hs hb]
  have := @coeff_dotted ['0'] (List.replicate k '0' ++ d) (by simp) hi hf
  simp only [List.singleton_append] at this
  rw [this]
  have hz : stripLeadingZeros ['0'] = [] := rfl
  rw [hz]
  split <;> simp

/-- C1 (the code at the self-test inputs of the claim): leading zeros of the
fractional part are counted, so `0.004560` has count 6, ` .0050` has count 4
and `-0.0030` has count 4, where the self-test expects 4, 2 and 2. -/
theorem C1_leading_zeros_counted :
    countSigFigsFromString "0.004560".toList = 6 ∧
    countSigFigsFromString " .0050".toList = 4 ∧
    countSigFigsFromString "-0.0030".toList = 4 := by
  decide

/-- C2: on a non-empty string of decimal digits the count is the length of
the string without its leading zeros and then without its trailing zeros, or
1 when nothing is left; when the string does not end in `0` it is the length
without the leading zeros. -/
theorem C2_integer_count (s : Str) (hne : s ≠ []) (hd : ∀ c ∈ s, isDigit c = true) :
    countSigFigsFromString s =
        (if (s.dropWhile (fun c => c == '0')).rdropWhile (fun c => c == '0') = [] then 1
         else ((s.dropWhile (fun c => c == '0')).rdropWhile (fun c => c == '0')).length) ∧
      (s.getLast? ≠ some '0' →
        countSigFigsFromString s = (s.dropWhile (fun c => c == '0')).length) := by
  have hb : ∀ c ∈ s, isCoeffChar c = true := fun c hc => by simp [isCoeffChar, hd c hc]
  have hcount : countSigFigsFromString s = countSigFigsCoefficient s := by
    have := @count_signed_coeff [] _ (Or.inl rfl) hb
    simpa using this
  have hmain : countSigFigsFromString s =
      (if (s.dropWhile (fun c => c == '0')).rdropWhile (fun c => c == '0') = [] then 1
       else ((s.dropWhile (fun c => c == '0')).rdropWhile (fun c => c == '0')).length) := by
    rw [hcount, coeff_digits hne hd, stripTrailingZeros_eq]
    unfold stripLeadingZeros
    by_cases h0 : s.dropWhile (fun c => c == '0') = []
    · simp [h0, List.rdropWhile]
    · have h1 : ¬ (s.dropWhile (fun c => c == '0')).length = 0 := by
        rwa [List.length_eq_zero]
      rw [if_neg h1]
      simp only [List.length_eq_zero]
  refine ⟨hmain, fun hl => ?_⟩
  rw [hmain]
  obtain ⟨hn, hlast⟩ := getLast?_dropWhile_zero s hne hl
  unfold stripLeadingZeros at hn hlast
  have hself : (s.dropWhile (fun c => c == '0')).rdropWhile (fun c => c == '0') =
      s.dropWhile (fun c => c == '0') := by
    rw [List.rdropWhile_eq_self_iff]
    intro hl2 hp
    have hz : (s.dropWhile (fun c => c == '0')).getLast hl2 = '0' := by simpa using hp
    apply hl
    rw [← hlast, List.getLast?_eq_getLast _ hl2, hz]
  rw [hself, if_neg hn]

/-- C2, at the self-test input `1020` (count 3). -/
theorem C2_integer_count_witness :
    "1020".toList ≠ [] ∧ (∀ c ∈ "1020".toList, isDigit c = true) ∧
      countSigFigsFromString "1020".toList = 3 :=
  ⟨by decide, by decide,
    (C2_integer_count "1020".toList (by decide) (by decide)).1.trans (by decide)⟩

/-- C3 fails at `0.`: a zero written with a bare trailing point has count 0. -/
theorem C3_bare_point_zero_counterexample : ¬ 1 ≤ countSigFigsFromString "0.".toList := by
  decide

/-- C3 (amended): a zero written without a decimal point has count 1, and a
zero written with a decimal point has as its count the number of zeros after
the point, which is at least 1 unless the point ends the string. -/
theorem C3_zero_count (sg : Str) (a b : Nat) (hs : sg = [] ∨ sg = ['+'] ∨ sg = ['-']) :
    (0 < a → countSigFigsFromString (sg ++ List.replicate a '0') = 1) ∧
      (0 < a + b →
        countSigFigsFromString (sg ++ (List.replicate a '0' ++ '.' :: List.replicate b '0')) = b) ∧
      (0 < a + b → 0 < b →
        1 ≤ countSigFigsFromString
          (sg ++ (List.replicate a '0' ++ '.' :: List.replicate b '0'))) := by
  have hrep : ∀ n, ∀ c ∈ List.replicate n '0', isDigit c = true := by
    intro n c hc
    rw [(List.mem_replicate.1 hc).2]; rfl
  have hzero : ∀ n, allZeros (List.replicate n '0') = true := by
    intro n; simp [allZeros]
  have hdot : 0 < a + b →
      countSigFigsFromString (sg ++ (List.replicate a '0' ++ '.' :: List.replicate b '0')) = b := by
    intro _
    have hb : ∀ c ∈ List.replicate a '0' ++ '.' :: List.replicate b '0', isCoeffChar c = true := by
      intro c hc
      rw [List.mem_append, List.mem_cons] at hc
      rcases hc with hc | rfl | hc
      · simp [isCoeffChar, hrep a c hc]
      · rfl
      · simp [isCoeffChar, hrep b c hc]
    rw [count_signed_coeff hs hb]
    cases a with
    | zero =>
      rw [List.replicate_zero, List.nil_append, coeff_leading_dot _ (hrep b)]
      have := @coeff_dotted ['0'] (List.replicate b '0') (by simp)
        (by decide) (hrep b)
      simp only [List.singleton_append] at this
      rw [this]
      simp [hzero, allZeros]
    | succ n =>
      rw [coeff_dotted (by simp [List.replicate_succ]) (hrep (n + 1)) (hrep b)]
      simp [hzero]
  refine ⟨fun ha => ?_, hdot, fun hab hb => ?_⟩
  · have hb : ∀ c ∈ List.replicate a '0', isCoeffChar c = true := fun c hc => by
      simp [isCoeffChar, hrep a c hc]
    rw [count_signed_coeff hs hb, coeff_digits (by
      cases a with
      | zero => exact absurd ha (by decide)
      | succ n => simp [List.replicate_succ]) (hrep a)]
    have : stripLeadingZeros (List.replicate a '0') = [] :=
      stripLeadingZeros_eq_nil.2 (hzero a)
    simp [this]
  · rw [hdot hab]; exact hb

/-- C3 (amended), at `-0` (count 1) and `-0.00` (count 2). -/
theorem C3_zero_count_witness :
    countSigFigsFromString "-0".toList = 1 ∧ countSigFigsFromString "-0.00".toList = 2 :=
  ⟨(C3_zero_count ['-'] 1 2 (Or.inr (Or.inr rfl))).1 (by decide),
    (C3_zero_count ['-'] 1 2 (Or.inr (Or.inr rfl))).2.1 (by decide)⟩

/-- C4: with an integer part that has a non-zero digit, the count of `i.f` is
the length of `i` without its leading zeros plus the length of `f`. -/
theorem C4_explicit_point_count (i f : Str) (hi : ∀ c ∈ i, isDigit c = true)
    (hf : ∀ c ∈ f, isDigit c = true) (hnz : ∃ c ∈ i, c ≠ '0') :
    countSigFigsFromString (i ++ '.' :: f) =
      (i.dropWhile (fun c => c == '0')).length + f.length := by
  have hb : ∀ c ∈ i ++ '.' :: f, isCoeffChar c = true := by
    intro c hc
    rw [List.mem_append, List.mem_cons] at hc
    rcases hc with hc | rfl | hc
    · simp [isCoeffChar, hi c hc]
    · rfl
    · simp [isCoeffChar, hf c hc]
  have hne : i ≠ [] := by
    obtain ⟨c, hc, _⟩ := hnz
    exact List.ne_nil_of_mem hc
  have hnotz : allZeros i = false := by
    obtain ⟨c, hc, hc0⟩ := hnz
    rw [Bool.eq_false_iff]
    intro hall
    have := List.all_eq_true.1 hall c hc
    exact hc0 (by simpa using this)
  have := @count_signed_coeff [] _ (Or.inl rfl) hb
  rw [List.nil_append] at this
  rw [this, coeff_dotted hne hi hf, hnotz]
  simp [stripLeadingZeros]

/-- C4, at the self-test input `1000.` (count 4). -/
theorem C4_explicit_point_count_witness :
    (∀ c ∈ "1000".toList, isDigit c = true) ∧ (∃ c ∈ "1000".toList, c ≠ '0') ∧
      countSigFigsFromString ("1000".toList ++ '.' :: []) = 4 :=
  ⟨by decide, ⟨'1', by decide, by decide⟩,
    C4_explicit_point_count "1000".toList [] (by decide) (by simp) ⟨'1', by decide, by decide⟩⟩

/-- C5: an exponent `e x` or `E x` after an optionally signed coefficient
leaves the count unchanged. -/
theorem C5_exponent_ignored (sg body x : Str) (hs : sg = [] ∨ sg = ['+'] ∨ sg = ['-'])
    (hb : ∀ c ∈ body, isCoeffChar c = true) (hx : isSignedDigits x = true) :
    countSigFigsFromString (sg ++ body ++ 'e' :: x) = countSigFigsFromString (sg ++ body) ∧
      countSigFigsFromString (sg ++ body ++ 'E' :: x) = countSigFigsFromString (sg ++ body) := by
  rw [count_signed_sci hs hb (Or.inl rfl) hx, count_signed_sci hs hb (Or.inr rfl) hx,
    count_signed_coeff hs hb]
  exact ⟨rfl, rfl⟩

/-- C5, at the self-test input `1.200E-2` (count 4, as for `1.200`). -/
theorem C5_exponent_ignored_witness :
    countSigFigsFromString "1.200E-2".toList = countSigFigsFromString "1.200".toList ∧
      countSigFigsFromString "1.200".toList = 4 :=
  ⟨(C5_exponent_ignored [] "1.200".toList "-2".toList (Or.inl rfl) (by decide) (by decide)).2,
    by decide⟩

/-- C6: the count is unchanged by a sign put before a string that does not
itself begin with a sign, a white-space character or a comma; by sanitizing
the input first; by white space added around the input; and by a comma
inserted anywhere. -/
theorem C6_sign_space_comma_invariance (s w1 w2 a b : Str)
    (hhead : ∀ c, s.head? = some c → c ≠ '+' ∧ c ≠ '-' ∧ isKept c = true)
    (hw1 : ∀ c ∈ w1, isJsSpace c = true) (hw2 : ∀ c ∈ w2, isJsSpace c = true) :
    countSigFigsFromString ('+' :: s) = countSigFigsFromString s ∧
      countSigFigsFromString ('-' :: s) = countSigFigsFromString s ∧
      countSigFigsFromString (sanitizeInputRaw a) = countSigFigsFromString a ∧
      countSigFigsFromString (w1 ++ a ++ w2) = countSigFigsFromString a ∧
      countSigFigsFromString (a ++ ',' :: b) = countSigFigsFromString (a ++ b) := by
  have hsign : ∀ g : Char, (g = '+' ∨ g = '-') →
      countSigFigsFromString (g :: s) = countSigFigsFromString s := by
    intro g hg
    have hk : isKept g = true := by rcases hg with rfl | rfl <;> decide
    unfold countSigFigsFromString
    rw [sanitize_cons_kept hk]
    have hst : stripSign (g :: sanitizeInputRaw s) = sanitizeInputRaw s := by
      rcases hg with rfl | rfl <;> simp [stripSign]
    simp only [List.isEmpty_cons, Bool.false_eq_true, if_false, hst]
    cases s with
    | nil => rfl
    | cons c r =>
      have hc := hhead c rfl
      rw [sanitize_cons_kept hc.2.2]
      simp [stripSign, hc.1, hc.2.1]
  refine ⟨hsign '+' (Or.inl rfl), hsign '-' (Or.inr rfl), ?_, ?_, ?_⟩
  · exact count_eq_of_sanitize_eq (sanitize_idem a)
  · apply count_eq_of_sanitize_eq
    rw [sanitize_append, sanitize_append, sanitize_spaces hw1, sanitize_spaces hw2]
    simp
  · apply count_eq_of_sanitize_eq
    simp [sanitize_eq_filter, isKept]

/-- C6, at ` 1,020.50 ` against `1020.50`, and `+1.20e3` against `1.20e3`. -/
theorem C6_sign_space_comma_invariance_witness :
    countSigFigsFromString "+1.20e3".toList = countSigFigsFromString "1.20e3".toList ∧
      countSigFigsFromString (" ".toList ++ "1020.50".toList ++ "\t ".toList) =
        countSigFigsFromString "1020.50".toList ∧
      countSigFigsFromString ("1".toList ++ ',' :: "020.50".toList) =
        countSigFigsFromString ("1".toList ++ "020.50".toList) :=
  ⟨(C6_sign_space_comma_invariance "1.20e3".toList " ".toList "\t ".toList "1020.50".toList []
      (by decide) (by decide) (by decide)).1,
    (C6_sign_space_comma_invariance "1.20e3".toList " ".toList "\t ".toList "1020.50".toList []
      (by decide) (by decide) (by decide)).2.2.2.1,
    (C6_sign_space_comma_invariance "1.20e3".toList [] [] "1".toList "020.50".toList
      (by decide) (by decide) (by decide)).2.2.2.2⟩

/-! ## Decimal places on well-formed strings -/

theorem indexOfDot_eq_neg_one (s : Str) : (indexOfDot s == -1) = !s.contains '.' := by
  unfold indexOfDot
  cases h : s.contains '.'
  · simp
  · simp only [if_true, Bool.not_true]
    rw [beq_eq_false_iff_ne]
    omega

theorem indexOfDot_append {i : Str} (f : Str) (hi : ∀ c ∈ i, c ≠ '.') :
    indexOfDot (i ++ '.' :: f) = (i.length : Int) := by
  unfold indexOfDot
  rw [contains_dot_append, if_pos rfl]
  congr 1
  induction i with
  | nil => simp [List.indexOf_cons]
  | cons c r ih =>
    have hc := hi c (List.mem_cons_self c r)
    have hr := ih (fun d hd => hi d (List.mem_cons_of_mem c hd))
    simp only [List.cons_append, List.indexOf_cons, List.length_cons]
    have : (c == '.') = false := by simpa using hc
    rw [this]
    simp [hr]

theorem splitDot_fst (s : Str) : (splitDot s).1 = s.takeWhile (fun c => c != '.') := by
  induction s with
  | nil => rfl
  | cons c r ih =>
    by_cases hc : c = '.'
    · simp [splitDot, hc]
    · simp [splitDot, hc, ih]

theorem exists_first_dot :
    ∀ s : Str, s.contains '.' = true → ∃ a f, s = a ++ '.' :: f ∧ ∀ c ∈ a, c ≠ '.'
  | [], h => by simp at h
  | c :: r, h => by
    by_cases hc : c = '.'
    · exact ⟨[], r, by simp [hc], by simp⟩
    · have hr : r.contains '.' = true := by
        simp only [List.contains_cons, Bool.or_eq_true, beq_iff_eq] at h
        rcases h with h | h
        · exact absurd h.symm hc
        · exact h
      obtain ⟨a, f, hs, ha⟩ := exists_first_dot r hr
      refine ⟨c :: a, f, by simp [hs], ?_⟩
      intro d hd
      rw [List.mem_cons] at hd
      rcases hd with rfl | hd
      · exact hc
      · exact ha d hd

/-- The plain branch of `decimalPlacesFromString`, on a sanitized string. -/
theorem dp_plain {raw : Str} (hne : sanitizeInputRaw raw ≠ [])
    (hsci : sciMatch (stripSign (sanitizeInputRaw raw)) = none) :
    decimalPlacesFromString raw =
      if (stripSign (sanitizeInputRaw raw)).contains '.' then
        .ok (some (((splitDot (stripSign (sanitizeInputRaw raw))).2.head?.getD []).length : Int))
      else .ok (some 0) := by
  have hemp : (sanitizeInputRaw raw).isEmpty = false := by
    cases h : sanitizeInputRaw raw with
    | nil => exact absurd h hne
    | cons _ _ => rfl
  unfold decimalPlacesFromString
  simp only [hemp, Bool.false_eq_true, if_false, hsci]
  by_cases hdot : (stripSign (sanitizeInputRaw raw)).contains '.' = true
  · have h1 : (indexOfDot (stripSign (sanitizeInputRaw raw)) != -1) = true := by
      rw [bne, indexOfDot_eq_neg_one, hdot]; rfl
    rw [if_pos h1, if_pos hdot]
    obtain ⟨a, f, hs, ha⟩ := exists_first_dot _ hdot
    rw [hs, splitDot_append f ha]
    rfl
  · have h1 : ¬ (indexOfDot (stripSign (sanitizeInputRaw raw)) != -1) = true := by
      rw [bne, indexOfDot_eq_neg_one]
      simpa using hdot
    rw [if_neg h1, if_neg hdot]

/-- Decimal places of a plain string of digits. -/
theorem dp_digits {s : Str} (hne : s ≠ []) (hd : ∀ c ∈ s, isDigit c = true) :
    decimalPlacesFromString s = .ok (some 0) := by
  have hb : ∀ c ∈ s, isCoeffChar c = true := fun c hc => by simp [isCoeffChar, hd c hc]
  have hclean : sanitizeInputRaw s = s := sanitize_eq_self (fun c hc => coeffChar_kept (hb c hc))
  have hstrip : stripSign s = s := by
    have := @stripSign_sign_append [] s (Or.inl rfl) (fun c hc =>
      ⟨(coeffChar_ne (hb c (List.mem_of_mem_head? hc))).2.1,
        (coeffChar_ne (hb c (List.mem_of_mem_head? hc))).2.2.1⟩)
    simpa using this
  rw [dp_plain (by rwa [hclean]) (by rw [hclean, hstrip]; exact sciMatch_coeff_none hb)]
  rw [hclean, hstrip, contains_dot_digits hd]
  rfl

/-- Decimal places of a plain string `a.f`. -/
theorem dp_dotted {a f : Str} (ha : ∀ c ∈ a, isDigit c = true) (hf : ∀ c ∈ f, isDigit c = true) :
    decimalPlacesFromString (a ++ '.' :: f) = .ok (some (f.length : Int)) := by
  have hb : ∀ c ∈ a ++ '.' :: f, isCoeffChar c = true := by
    intro c hc
    rw [List.mem_append, List.mem_cons] at hc
    rcases hc with hc | rfl | hc
    · simp [isCoeffChar, ha c hc]
    · rfl
    · simp [isCoeffChar, hf c hc]
  have hclean : sanitizeInputRaw (a ++ '.' :: f) = a ++ '.' :: f :=
    sanitize_eq_self (fun c hc => coeffChar_kept (hb c hc))
  have hstrip : stripSign (a ++ '.' :: f) = a ++ '.' :: f := by
    have := @stripSign_sign_append [] (a ++ '.' :: f) (Or.inl rfl) (fun c hc =>
      ⟨(coeffChar_ne (hb c (List.mem_of_mem_head? hc))).2.1,
        (coeffChar_ne (hb c (List.mem_of_mem_head? hc))).2.2.1⟩)
    simpa using this
  rw [dp_plain (by rw [hclean]; simp) (by rw [hclean, hstrip]; exact sciMatch_coeff_none hb)]
  rw [hclean, hstrip, contains_dot_append, if_pos rfl,
    splitDot_append f (fun c hc => digit_ne_dot (ha c hc)),
    splitDot_nodot (fun c hc => digit_ne_dot (hf c hc))]
  rfl

/-- The scientific branch of `decimalPlacesFromString`. -/
theorem dp_sci {body x : Str} {e : Char} (hb : ∀ c ∈ body, isCoeffChar c = true)
    (he : e = 'e' ∨ e = 'E') (hx : isSignedDigits x = true) :
    decimalPlacesFromString (body ++ e :: x) =
      .ok (some ((if indexOfDot body == -1 then 0
        else (body.length : Int) - indexOfDot body - 1) - parseInt x)) := by
  have hclean : sanitizeInputRaw (body ++ e :: x) = body ++ e :: x := by
    apply sanitize_eq_self
    intro c hc
    simp only [List.mem_append, List.mem_cons] at hc
    rcases hc with hc | rfl | hc
    · exact coeffChar_kept (hb c hc)
    · rcases he with rfl | rfl <;> decide
    · exact signedDigits_kept hx c hc
  have hstrip : stripSign (body ++ e :: x) = body ++ e :: x := by
    have := @stripSign_sign_append [] (body ++ e :: x) (Or.inl rfl) (by
      intro c hc
      cases body with
      | nil =>
        simp only [List.nil_append, List.head?_cons, Option.some.injEq] at hc
        subst hc
        rcases he with rfl | rfl <;> decide
      | cons d r =>
        simp only [List.cons_append, List.head?_cons, Option.some.injEq] at hc
        have := coeffChar_ne (hb d (List.mem_cons_self d r))
        rw [← hc]
        exact ⟨this.2.1, this.2.2.1⟩)
    simpa using this
  have hemp : (body ++ e :: x).isEmpty = false := by
    cases h : body ++ e :: x with
    | nil => simp at h
    | cons _ _ => rfl
  unfold decimalPlacesFromString
  rw [hclean]
  simp only [hemp, Bool.false_eq_true, if_false, hstrip, sciMatch_append hb he hx]

/-! ## Decimal places: the claims -/

theorem mem_stripSign_dot (s : Str) : '.' ∈ stripSign s ↔ '.' ∈ s := by
  cases s with
  | nil => rfl
  | cons c r =>
    simp only [stripSign]
    by_cases hc : (c == '+' || c == '-') = true
    · rw [if_pos hc, List.mem_cons]
      simp only [Bool.or_eq_true, beq_iff_eq] at hc
      constructor
      · exact Or.inr
      · rintro (h | h)
        · rcases hc with rfl | rfl <;> exact absurd h (by decide)
        · exact h
    · rw [if_neg hc]

/-- Decimal places of the plain writing `specExpand i f k`. -/
theorem dp_specExpand {i f : Str} (k : Int) (hi : ∀ c ∈ i, isDigit c = true)
    (hf : ∀ c ∈ f, isDigit c = true) (hne : i ++ f ≠ []) :
    decimalPlacesFromString (specExpand i f k) = .ok (some (max 0 ((f.length : Int) - k))) := by
  have hdig : ∀ c ∈ i ++ f, isDigit c = true := by
    intro c hc
    rw [List.mem_append] at hc
    exact hc.elim (hi c) (hf c)
  have hrep : ∀ n, ∀ c ∈ List.replicate n '0', isDigit c = true := by
    intro n c hc
    rw [(List.mem_replicate.1 hc).2]; rfl
  unfold specExpand
  simp only []
  by_cases h1 : (i.length : Int) + k ≤ 0
  · rw [if_pos h1]
    have := @dp_dotted ['0']
      (List.replicate (-((i.length : Int) + k)).toNat '0' ++ (i ++ f)) (by decide) (by
        intro c hc
        rw [List.mem_append] at hc
        exact hc.elim (hrep _ c) (hdig c))
    simp only [List.singleton_append] at this
    rw [this]
    congr 2
    simp only [List.length_append, List.length_replicate]
    push_cast
    rw [Int.toNat_of_nonneg (by omega)]
    omega
  · rw [if_neg h1]
    by_cases h2 : (i.length : Int) + k < ((i ++ f).length : Int)
    · rw [if_pos h2]
      rw [dp_dotted (fun c hc => hdig c (List.mem_of_mem_take hc))
        (fun c hc => hdig c (List.mem_of_mem_drop hc))]
      congr 2
      rw [List.length_drop]
      rw [List.length_append] at h2 ⊢
      have h3 : (((i.length : Int) + k).toNat : Int) = (i.length : Int) + k :=
        Int.toNat_of_nonneg (by omega)
      omega
    · rw [if_neg h2]
      rw [dp_digits (fun h => hne (List.append_eq_nil.1 h).1) (by
        intro c hc
        rw [List.mem_append] at hc
        exact hc.elim (hdig c) (hrep _ c))]
      congr 2
      rw [List.length_append] at h2
      omega

/-- C7 fails at `1e3`: the code gives `-3` decimal places, while the plain
writing `1000` of the same number has `0`. -/
theorem C7_positive_exponent_counterexample :
    specExpand "1".toList [] 3 = "1000".toList ∧
      decimalPlacesFromString "1e3".toList = .ok (some (-3)) ∧
      decimalPlacesFromString "1000".toList = .ok (some 0) ∧
      decimalPlacesFromString "1e3".toList ≠
        decimalPlacesFromString (specExpand "1".toList [] 3) := by
  refine ⟨by decide, rfl, rfl, ?_⟩
  intro h
  have h1 : decimalPlacesFromString "1e3".toList = .ok (some (-3)) := rfl
  have h2 : decimalPlacesFromString (specExpand "1".toList [] 3) = .ok (some 0) := rfl
  rw [h1, h2] at h
  injection h with h
  injection h with h
  exact absurd h (by decide)

/-- C7 (amended): for `x = i.f e k`, with the exponent `k` and the difference
`|f| - k` among the integers doubles represent exactly, the code returns
`|f| - k`, and `-k` when the coefficient has no point; the plain writing of
the same number has `max 0 (|f| - k)` decimal places; so the two agree
exactly as long as `k ≤ |f|` (`k ≤ 0` without a point), and beyond that the
code's result is negative. -/
theorem C7_scientific_decimal_places (i f xs : Str) (e : Char)
    (hi : ∀ c ∈ i, isDigit c = true) (hf : ∀ c ∈ f, isDigit c = true) (hne : i ++ f ≠ [])
    (he : e = 'e' ∨ e = 'E') (hx : isSignedDigits xs = true)
    (_hk : doubleExact (parseInt xs)) (_hd : doubleExact ((f.length : Int) - parseInt xs)) :
    decimalPlacesFromString (i ++ '.' :: f ++ e :: xs) =
        .ok (some ((f.length : Int) - parseInt xs)) ∧
      decimalPlacesFromString (i ++ e :: xs) = .ok (some (-parseInt xs)) ∧
      decimalPlacesFromString (specExpand i f (parseInt xs)) =
        .ok (some (max 0 ((f.length : Int) - parseInt xs))) ∧
      (parseInt xs ≤ (f.length : Int) ↔
        decimalPlacesFromString (i ++ '.' :: f ++ e :: xs) =
          decimalPlacesFromString (specExpand i f (parseInt xs))) ∧
      (i ≠ [] →
        (parseInt xs ≤ 0 ↔
          decimalPlacesFromString (i ++ e :: xs) =
            decimalPlacesFromString (specExpand i [] (parseInt xs)))) := by
  have hb1 : ∀ c ∈ i ++ '.' :: f, isCoeffChar c = true := by
    intro c hc
    rw [List.mem_append, List.mem_cons] at hc
    rcases hc with hc | rfl | hc
    · simp [isCoeffChar, hi c hc]
    · rfl
    · simp [isCoeffChar, hf c hc]
  have hb2 : ∀ c ∈ i, isCoeffChar c = true := fun c hc => by simp [isCoeffChar, hi c hc]
  have h1 : decimalPlacesFromString (i ++ '.' :: f ++ e :: xs) =
      .ok (some ((f.length : Int) - parseInt xs)) := by
    rw [dp_sci hb1 he hx, indexOfDot_append f (fun c hc => digit_ne_dot (hi c hc))]
    have hneq : ((i.length : Int) == -1) = false := by
      rw [beq_eq_false_iff_ne]; omega
    rw [hneq]
    simp only [Bool.false_eq_true, if_false, List.length_append, List.length_cons]
    congr 2
    push_cast
    omega
  have h2 : decimalPlacesFromString (i ++ e :: xs) = .ok (some (-parseInt xs)) := by
    rw [dp_sci hb2 he hx, indexOfDot_eq_neg_one, contains_dot_digits hi]
    simp
  have h3 := dp_specExpand (parseInt xs) hi hf hne
  refine ⟨h1, h2, h3, ?_, fun hi0 => ?_⟩
  · rw [h1, h3]
    constructor
    · intro hk
      rw [max_eq_right (by omega)]
    · intro heq
      have : (f.length : Int) - parseInt xs = max 0 ((f.length : Int) - parseInt xs) := by
        injection heq with h; injection h
      omega
  · have hnil : ∀ c ∈ ([] : Str), isDigit c = true := fun c hc => absurd hc (List.not_mem_nil c)
    have h4 := @dp_specExpand i [] (parseInt xs) hi hnil (by rw [List.append_nil]; exact hi0)
    rw [h2, h4]
    simp only [List.length_nil, Int.Nat.cast_ofNat_Int, Int.zero_sub]
    constructor
    · intro hk
      rw [max_eq_right (by omega)]
    · intro heq
      have : -parseInt xs = max 0 (-parseInt xs) := by
        injection heq with h; injection h
      omega

/-- C7 (amended), at `12.345e2`, whose plain writing is `1234.5`: one decimal
place either way. -/
theorem C7_scientific_decimal_places_witness :
    specExpand "12".toList "345".toList 2 = "1234.5".toList ∧
      decimalPlacesFromString "12.345e2".toList = .ok (some 1) ∧
      decimalPlacesFromString "12.345e2".toList =
        decimalPlacesFromString (specExpand "12".toList "345".toList (parseInt "2".toList)) :=
  ⟨by decide,
    (C7_scientific_decimal_places "12".toList "345".toList "2".toList 'e' (by decide) (by decide)
      (by decide) (Or.inl rfl) (by decide) (by unfold doubleExact; decide)
      (by unfold doubleExact; decide)).1,
    (C7_scientific_decimal_places "12".toList "345".toList "2".toList 'e' (by decide) (by decide)
      (by decide) (Or.inl rfl) (by decide) (by unfold doubleExact; decide)
      (by unfold doubleExact; decide)).2.2.2.1.1 (by decide)⟩

/-- The exponent `9007199254740993` is `2^53 + 1`, the first integer doubles do
not represent: the source's `parseInt` rounds it, and the statement on
scientific notation does not speak of it. -/
theorem exponent_beyond_exact :
    parseInt "9007199254740993".toList = 2 ^ 53 + 1 ∧
      ¬ doubleExact (parseInt "9007199254740993".toList) ∧
      doubleExact (parseInt "9007199254740992".toList) := by
  unfold doubleExact
  decide

/-- C8: `decimalPlacesFromString` returns `null` exactly when the sanitized
input is empty; on a non-empty sanitized input without exponent part it
returns a natural number, which is 0 when there is no decimal point and
otherwise the number of characters between the first decimal point and the
next one or the end: all that follows the point when it is the only one. -/
theorem C8_plain_decimal_places (raw : Str) :
    (decimalPlacesFromString raw = .ok none ↔ sanitizeInputRaw raw = []) ∧
      (sanitizeInputRaw raw ≠ [] → sciMatch (stripSign (sanitizeInputRaw raw)) = none →
        ∃ n : Nat, decimalPlacesFromString raw = .ok (some (n : Int)) ∧
          ('.' ∉ sanitizeInputRaw raw → n = 0) ∧
          (∀ a f, stripSign (sanitizeInputRaw raw) = a ++ '.' :: f → '.' ∉ a →
            n = (f.takeWhile (fun c => c != '.')).length) ∧
          (∀ a f, stripSign (sanitizeInputRaw raw) = a ++ '.' :: f → '.' ∉ a → '.' ∉ f →
            n = f.length)) := by
  have hplain : sanitizeInputRaw raw ≠ [] → sciMatch (stripSign (sanitizeInputRaw raw)) = none →
      ∃ n : Nat, decimalPlacesFromString raw = .ok (some (n : Int)) ∧
        ('.' ∉ sanitizeInputRaw raw → n = 0) ∧
        (∀ a f, stripSign (sanitizeInputRaw raw) = a ++ '.' :: f → '.' ∉ a →
          n = (f.takeWhile (fun c => c != '.')).length) := by
    intro hne hsci
    rw [dp_plain hne hsci]
    by_cases hdot : (stripSign (sanitizeInputRaw raw)).contains '.' = true
    · rw [if_pos hdot]
      refine ⟨_, rfl, ?_, ?_⟩
      · intro hno
        have : '.' ∈ stripSign (sanitizeInputRaw raw) := by simpa using hdot
        exact absurd ((mem_stripSign_dot _).1 this) hno
      · intro a f hs ha
        rw [hs, splitDot_append f (fun c hc hcd => ha (hcd ▸ hc)), splitDot_fst]
        rfl
    · rw [if_neg hdot]
      refine ⟨0, rfl, fun _ => rfl, ?_⟩
      intro a f hs _
      exfalso
      apply hdot
      rw [hs]
      exact contains_dot_append a f
  refine ⟨⟨fun h => ?_, fun h => ?_⟩, fun hne hsci => ?_⟩
  · by_contra hne
    cases hsci : sciMatch (stripSign (sanitizeInputRaw raw)) with
    | none =>
      obtain ⟨n, hn, _⟩ := hplain hne hsci
      rw [hn] at h
      injection h with h
      exact Option.noConfusion h
    | some p =>
      have hemp : (sanitizeInputRaw raw).isEmpty = false := by
        cases h : sanitizeInputRaw raw with
        | nil => exact absurd h hne
        | cons _ _ => rfl
      unfold decimalPlacesFromString at h
      simp only [hemp, Bool.false_eq_true, if_false, hsci] at h
      injection h with h
      exact Option.noConfusion h
  · unfold decimalPlacesFromString
    simp [h]
  · obtain ⟨n, hn, h0, h1⟩ := hplain hne hsci
    refine ⟨n, hn, h0, h1, ?_⟩
    intro a f hs ha hf
    rw [h1 a f hs ha]
    congr 1
    rw [List.takeWhile_eq_self_iff]
    intro c hc
    have : c ≠ '.' := fun hcd => hf (hcd ▸ hc)
    simpa using this

/-- C8, at ` 12.50`: two decimal places. -/
theorem C8_plain_decimal_places_witness :
    sanitizeInputRaw " 12.50".toList ≠ [] ∧
      sciMatch (stripSign (sanitizeInputRaw " 12.50".toList)) = none ∧
      decimalPlacesFromString " 12.50".toList = .ok (some 2) := by
  refine ⟨by decide, by decide, ?_⟩
  obtain ⟨n, hn, _, _, h⟩ := (C8_plain_decimal_places " 12.50".toList).2 (by decide) (by decide)
  have h2 : n = 2 := h "12".toList "50".toList (by decide) (by decide) (by decide)
  rw [hn, h2]
  rfl

/-! ## Shunting-yard: operators and the stack -/

theorem prec_tok (b : BinOp) : prec b.tok = some b.strength := by
  cases b <;> rfl

theorem rightAssoc_tok (b : BinOp) : rightAssoc b.tok = b.groupsRight := by
  cases b <;> rfl

theorem isOperator_tok (b : BinOp) : isOperator b.tok = true := by
  cases b <;> rfl

theorem isNumberToken_tok (b : BinOp) : isNumberToken b.tok = false := by
  cases b <;> rfl

theorem tok_ne_paren (b : BinOp) : b.tok ≠ ['('] ∧ b.tok ≠ [')'] := by
  cases b <;> exact ⟨by decide, by decide⟩

theorem strength_le_three (b : BinOp) : b.strength ≤ 3 := by
  cases b <;> decide

theorem groupsRight_iff (b : BinOp) : b.groupsRight = true ↔ b.strength = 3 := by
  cases b <;> decide

theorem shouldPop_tok (t o : BinOp) :
    shouldPop t.tok o.tok =
      ((t.groupsRight && decide (t.strength < o.strength)) ||
        (!t.groupsRight && decide (t.strength ≤ o.strength))) := by
  unfold shouldPop
  rw [prec_tok, prec_tok, rightAssoc_tok]

theorem shouldPop_paren (t : Str) : shouldPop t ['('] = false := by
  unfold shouldPop
  have : prec ['('] = none := rfl
  rw [this]

theorem syLoop_append {ts1 : List Str} (ts2 : List Str) :
    ∀ {st st1 : List Str × List Str}, syLoop ts1 st = .ok st1 →
      syLoop (ts1 ++ ts2) st = syLoop ts2 st1 := by
  induction ts1 with
  | nil =>
    intro st st1 h
    simp only [syLoop] at h
    injection h with h
    rw [h]; rfl
  | cons t ts ih =>
    intro st st1 h
    simp only [List.cons_append, syLoop] at h ⊢
    cases hs : syStep st t with
    | error e => rw [hs] at h; cases h
    | ok st2 =>
      rw [hs] at h
      simp only [] at h ⊢
      exact ih h

theorem popOps_append (t : Str) (xs ops : List Str) (out : List Str)
    (hx : ∀ o ∈ xs, shouldPop t o = true)
    (ho : ∀ o, ops.head? = some o → shouldPop t o = false) :
    popOps t out (xs ++ ops) = (out ++ xs, ops) := by
  induction xs generalizing out with
  | nil =>
    cases ops with
    | nil => simp [popOps]
    | cons o r => simp [popOps, ho o rfl]
  | cons x xs ih =>
    rw [List.cons_append, popOps, if_pos (hx x (List.mem_cons_self x xs)),
      ih (out ++ [x]) (fun o h => hx o (List.mem_cons_of_mem x h))]
    simp

theorem popToParen_append (xs ops : List Str) (out : List Str) (hx : ∀ o ∈ xs, o ≠ ['(']) :
    popToParen out (xs ++ ['('] :: ops) = (out ++ xs, ['('] :: ops) := by
  induction xs generalizing out with
  | nil => simp [popToParen]
  | cons x xs ih =>
    rw [List.cons_append, popToParen, if_neg (hx x (List.mem_cons_self x xs)),
      ih (out ++ [x]) (fun o h => hx o (List.mem_cons_of_mem x h))]
    simp

theorem drainOps_operators (xs : List Str) (out : List Str)
    (hx : ∀ o ∈ xs, o ≠ ['('] ∧ o ≠ [')']) : drainOps out xs = .ok (out ++ xs) := by
  induction xs generalizing out with
  | nil => simp [drainOps]
  | cons x xs ih =>
    have := hx x (List.mem_cons_self x xs)
    simp only [drainOps, this.1, this.2, or_self, if_false]
    rw [ih (out ++ [x]) (fun o h => hx o (List.mem_cons_of_mem x h))]
    simp

/-! ## Shunting-yard on a conventional expression -/

theorem spine_operators (e : Expr) : ∀ o ∈ e.spine, ∃ b : BinOp, o = b.tok := by
  induction e with
  | lit t => intro o h; cases h
  | paren e _ => intro o h; cases h
  | bin op l r _ ihr =>
    intro o h
    simp only [Expr.spine, List.mem_append, List.mem_singleton] at h
    rcases h with h | h
    · exact ihr o h
    · exact ⟨op, h⟩

theorem spine_strength (e : Expr) (he : e.conventional = true) :
    ∀ o ∈ e.spine, ∃ b : BinOp, o = b.tok ∧ e.level ≤ b.strength := by
  induction e with
  | lit t => intro o h; cases h
  | paren e _ => intro o h; cases h
  | bin op l r _ ihr =>
    intro o h
    simp only [Expr.conventional, Bool.and_eq_true] at he
    simp only [Expr.spine, List.mem_append, List.mem_singleton] at h
    rcases h with h | h
    · obtain ⟨b, hb, hle⟩ := ihr he.1.2 o h
      refine ⟨b, hb, ?_⟩
      simp only [Expr.level]
      have h3 := he.2
      by_cases hg : op.groupsRight = true
      · rw [if_pos hg] at h3
        simp only [Bool.and_eq_true, decide_eq_true_eq] at h3
        omega
      · rw [if_neg hg] at h3
        simp only [Bool.and_eq_true, decide_eq_true_eq] at h3
        omega
    · exact ⟨op, h, Nat.le_refl _⟩

theorem emitted_spine (e : Expr) : e.emitted ++ e.spine = e.rpn := by
  induction e with
  | lit t => rfl
  | paren e ih => simp [Expr.emitted, Expr.spine, Expr.rpn, ih]
  | bin op l r ihl ihr =>
    simp only [Expr.emitted, Expr.spine, Expr.rpn, ← ihl, ← ihr, List.append_assoc]

theorem conventional_bin {op : BinOp} {l r : Expr} (h : (Expr.bin op l r).conventional = true) :
    l.conventional = true ∧ r.conventional = true ∧
      (op.groupsRight = true → op.strength < l.level ∧ op.strength ≤ r.level) ∧
      (op.groupsRight = false → op.strength ≤ l.level ∧ op.strength < r.level) := by
  simp only [Expr.conventional, Bool.and_eq_true] at h
  refine ⟨h.1.1, h.1.2, fun hg => ?_, fun hg => ?_⟩
  · have h3 := h.2
    rw [if_pos hg] at h3
    simpa using h3
  · have h3 := h.2
    rw [if_neg (by simp [hg])] at h3
    simpa using h3

theorem syStep_number {t : Str} (ht : isNumberToken t = true) (st : List Str × List Str) :
    syStep st t = .ok (st.1 ++ [t], st.2) := by
  simp [syStep, ht]

theorem syStep_operator (b : BinOp) (st : List Str × List Str) :
    syStep st b.tok = .ok ((popOps b.tok st.1 st.2).1, b.tok :: (popOps b.tok st.1 st.2).2) := by
  simp [syStep, isNumberToken_tok, isOperator_tok]

theorem syStep_open (st : List Str × List Str) : syStep st ['('] = .ok (st.1, ['('] :: st.2) := by
  have h1 : isNumberToken ['('] = false := rfl
  have h2 : isOperator ['('] = false := rfl
  simp [syStep, h1, h2]

theorem syStep_close (st : List Str × List Str) :
    syStep st [')'] =
      match (popToParen st.1 st.2).2 with
      | o :: ops =>
        if o = ['('] then .ok ((popToParen st.1 st.2).1, ops) else .error "Mismatched parentheses"
      | [] => .error "Mismatched parentheses" := by
  have h1 : isNumberToken [')'] = false := rfl
  have h2 : isOperator [')'] = false := rfl
  have h3 : ([')'] : Str) ≠ ['('] := by decide
  simp only [syStep, h1, h2, h3, Bool.false_eq_true, if_false, if_true]

/-- Reading the tokens of a conventional expression leaves its `emitted`
tokens on the output and its `spine` on the operator stack. -/
theorem syLoop_expr (e : Expr) (he : e.conventional = true) :
    ∀ (out ops : List Str), ctxOk ops e →
      syLoop e.tokens (out, ops) = .ok (out ++ e.emitted, e.spine ++ ops) := by
  induction e with
  | lit t =>
    intro out ops _
    have ht : isNumberToken t = true := he
    simp only [Expr.tokens, syLoop, syStep_number ht, Expr.emitted, Expr.spine, List.nil_append]
  | paren e ih =>
    intro out ops _
    have hctx : ctxOk (['('] :: ops) e := by
      intro o ho p hp
      simp only [List.head?_cons, Option.some.injEq] at ho
      subst ho
      have hnone : prec ['('] = none := rfl
      rw [hnone] at hp
      cases hp
    have h1 := ih he out (['('] :: ops) hctx
    simp only [Expr.tokens, syLoop, syStep_open]
    rw [syLoop_append [[')']] h1]
    simp only [syLoop, syStep_close]
    rw [popToParen_append e.spine ops (out ++ e.emitted) (fun o ho => by
      obtain ⟨b, hb⟩ := spine_operators e o ho
      rw [hb]; exact (tok_ne_paren b).1)]
    simp [Expr.emitted, Expr.spine]
  | bin op l r ihl ihr =>
    intro out ops hctx
    obtain ⟨hl, hr, hright, hleft⟩ := conventional_bin he
    have hlev : (Expr.bin op l r).level = op.strength := rfl
    have hctxl : ctxOk ops l := by
      intro o ho p hp
      rcases hctx o ho p hp with h | ⟨h1, h2⟩
      · rw [hlev] at h
        cases hg : op.groupsRight
        · have := (hleft hg).1; left; omega
        · have := (hright hg).1; left; omega
      · rw [hlev] at h1
        have hg : op.groupsRight = true := (groupsRight_iff op).2 (by omega)
        have := (hright hg).1
        left; omega
    have h1 := ihl hl out ops hctxl
    simp only [Expr.tokens]
    rw [syLoop_append (op.tok :: r.tokens) h1]
    simp only [syLoop, syStep_operator]
    have hpop : popOps op.tok (out ++ l.emitted) (l.spine ++ ops) =
        (out ++ l.emitted ++ l.spine, ops) := by
      apply popOps_append
      · intro o ho
        obtain ⟨b, hb, hle⟩ := spine_strength l hl o ho
        rw [hb, shouldPop_tok]
        cases hg : op.groupsRight
        · have := (hleft hg).1
          simp; omega
        · have := (hright hg).1
          simp; omega
      · intro o ho
        cases hp : prec o with
        | none => simp [shouldPop, hp]
        | some p =>
          have hpt := prec_tok op
          simp only [shouldPop, hp, hpt, rightAssoc_tok]
          rcases hctx o ho p hp with h | ⟨h1, h2⟩
          · rw [hlev] at h
            cases hg : op.groupsRight <;> simp <;> omega
          · rw [hlev] at h1
            have hg : op.groupsRight = true := (groupsRight_iff op).2 (by omega)
            simp [hg]; omega
    rw [hpop]
    have hctxr : ctxOk (op.tok :: ops) r := by
      intro o ho p hp
      simp only [List.head?_cons, Option.some.injEq] at ho
      subst ho
      rw [prec_tok] at hp
      injection hp with hp
      subst hp
      cases hg : op.groupsRight
      · have := (hleft hg).2; left; exact this
      · have := (hright hg).2
        have h3 := (groupsRight_iff op).1 hg
        omega
    rw [ihr hr _ _ hctxr]
    simp [Expr.emitted, Expr.spine]

/-- The shunting-yard turns the tokens of a conventional expression into its
postfix writing. -/
theorem shuntingYard_expr (e : Expr) (he : e.conventional = true) :
    shuntingYard e.tokens = .ok e.rpn := by
  unfold shuntingYard
  rw [syLoop_expr e he [] [] (by intro o ho; cases ho)]
  simp only [List.nil_append, List.append_nil]
  rw [drainOps_operators e.spine e.emitted (fun o ho => by
    obtain ⟨b, hb⟩ := spine_operators e o ho
    rw [hb]; exact tok_ne_paren b), emitted_spine]

/-! ## The stack machine on a postfix writing -/

theorem tok_ne_unary (b : BinOp) : b.tok ≠ ['u', '-'] := by
  cases b <;> decide

theorem evalLoop_operator {V : Type} (A : Arith V) (b : BinOp) (rpn : List Str) (x y : V)
    (st : List V) :
    evalLoop A (b.tok :: rpn) (y :: x :: st) = evalLoop A rpn (b.apply A x y :: st) := by
  have hn := isNumberToken_tok b
  cases b <;> simp only [BinOp.tok] at hn <;>
    simp [evalLoop, BinOp.tok, BinOp.apply, pop, hn]

theorem evalLoop_rpn {V : Type} (A : Arith V) (e : Expr) (he : e.conventional = true) :
    ∀ (rest : List Str) (st : List V),
      evalLoop A (e.rpn ++ rest) st = evalLoop A rest (e.value A :: st) := by
  induction e with
  | lit t =>
    intro rest st
    have ht : isNumberToken t = true := he
    simp [Expr.rpn, evalLoop, ht, Expr.value]
  | paren e ih =>
    intro rest st
    exact ih he rest st
  | bin op l r ihl ihr =>
    intro rest st
    obtain ⟨hl, hr, _, _⟩ := conventional_bin he
    simp only [Expr.rpn, List.append_assoc, Expr.value]
    rw [ihl hl, ihr hr]
    exact evalLoop_operator A op rest _ _ st

theorem evaluateRPN_rpn {V : Type} (A : Arith V) (e : Expr) (he : e.conventional = true) :
    evaluateRPN A e.rpn = .ok (e.value A) := by
  unfold evaluateRPN
  have := evalLoop_rpn A e he [] []
  rw [List.append_nil] at this
  rw [this]
  simp [evalLoop]

/-! ## The tokenizer's scanners -/

theorem takeWhile_append_stop {p : Char → Bool} (s rest : Str)
    (h : ∀ c, rest.head? = some c → p c = false) :
    (s ++ rest).takeWhile p = s.takeWhile p ∧ (s ++ rest).dropWhile p = s.dropWhile p ++ rest := by
  induction s with
  | nil =>
    cases rest with
    | nil => exact ⟨rfl, rfl⟩
    | cons c r => simp [List.takeWhile, List.dropWhile, h c rfl]
  | cons c r ih =>
    cases hc : p c
    · simp [List.takeWhile, List.dropWhile, hc]
    · simp [List.takeWhile, List.dropWhile, hc, ih.1, ih.2]

theorem head?_any_append {p : Char → Bool} (s rest : Str)
    (h : ∀ c, rest.head? = some c → p c = false) :
    (s ++ rest).head?.any p = s.head?.any p := by
  cases s with
  | nil =>
    cases rest with
    | nil => rfl
    | cons c r => simp [h c rfl]
  | cons c r => rfl

theorem takeWhile_digits (s : Str) : ∀ c ∈ s.takeWhile isDigit, isDigit c = true :=
  fun _ hc => (List.mem_takeWhile_imp hc)

theorem scanFrac_parts (x : Str) : (scanFrac x).1 ++ (scanFrac x).2 = x := by
  cases x with
  | nil => rfl
  | cons c r =>
    simp only [scanFrac]
    by_cases h : (c == '.' && r.head?.any isDigit) = true
    · rw [if_pos h]
      simp only [Bool.and_eq_true, beq_iff_eq] at h
      simp [h.1]
    · rw [if_neg h]; rfl

theorem scanFrac_chars (x : Str) : ∀ c ∈ (scanFrac x).1, isLitChar c = true := by
  cases x with
  | nil => intro c hc; cases hc
  | cons d r =>
    simp only [scanFrac]
    by_cases h : (d == '.' && r.head?.any isDigit) = true
    · rw [if_pos h]
      intro c hc
      rw [List.mem_cons] at hc
      rcases hc with rfl | hc
      · rfl
      · simp [isLitChar, takeWhile_digits r c hc]
    · rw [if_neg h]
      intro c hc; cases hc

theorem scanFrac_append_stop (x rest : Str)
    (h : ∀ c, rest.head? = some c → isDigit c = false ∧ c ≠ '.') :
    scanFrac (x ++ rest) = ((scanFrac x).1, (scanFrac x).2 ++ rest) := by
  have hd : ∀ c, rest.head? = some c → isDigit c = false := fun c hc => (h c hc).1
  cases x with
  | nil =>
    cases rest with
    | nil => rfl
    | cons c r => simp [scanFrac, (h c rfl).2]
  | cons c r =>
    simp only [List.cons_append, scanFrac, head?_any_append r rest hd]
    by_cases hc : (c == '.' && r.head?.any isDigit) = true
    · rw [if_pos hc, if_pos hc]
      simp [(takeWhile_append_stop r rest hd).1, (takeWhile_append_stop r rest hd).2]
    · rw [if_neg hc, if_neg hc]
      rfl

theorem scanSign_parts (x : Str) : (scanSign x).1 ++ (scanSign x).2 = x := by
  cases x with
  | nil => rfl
  | cons c r =>
    simp only [scanSign]
    by_cases h : (c == '+' || c == '-') = true
    · rw [if_pos h]; rfl
    · rw [if_neg h]; rfl

theorem scanSign_chars (x : Str) : ∀ c ∈ (scanSign x).1, isLitChar c = true := by
  cases x with
  | nil => intro c hc; cases hc
  | cons d r =>
    simp only [scanSign]
    by_cases h : (d == '+' || d == '-') = true
    · rw [if_pos h]
      intro c hc
      rw [List.mem_singleton] at hc
      subst hc
      simp only [Bool.or_eq_true, beq_iff_eq] at h
      rcases h with rfl | rfl <;> rfl
    · rw [if_neg h]
      intro c hc; cases hc

theorem scanSign_append (x rest : Str) (hx : x ≠ []) :
    scanSign (x ++ rest) = ((scanSign x).1, (scanSign x).2 ++ rest) := by
  cases x with
  | nil => exact absurd rfl hx
  | cons c r =>
    simp only [List.cons_append, scanSign]
    by_cases h : (c == '+' || c == '-') = true
    · rw [if_pos h, if_pos h]
    · rw [if_neg h, if_neg h]; rfl

theorem scanExp_parts (x : Str) : (scanExp x).1 ++ (scanExp x).2 = x := by
  cases x with
  | nil => rfl
  | cons c r =>
    simp only [scanExp]
    by_cases h : ((c == 'e' || c == 'E') && (scanSign r).2.head?.any isDigit) = true
    · rw [if_pos h]
      simp only [List.cons_append, List.append_assoc, List.takeWhile_append_dropWhile,
        scanSign_parts]
    · rw [if_neg h]; rfl

theorem scanExp_chars (x : Str) : ∀ c ∈ (scanExp x).1, isLitChar c = true := by
  cases x with
  | nil => intro c hc; cases hc
  | cons d r =>
    simp only [scanExp]
    by_cases h : ((d == 'e' || d == 'E') && (scanSign r).2.head?.any isDigit) = true
    · rw [if_pos h]
      intro c hc
      rw [List.mem_cons, List.mem_append] at hc
      rcases hc with rfl | hc | hc
      · simp only [Bool.and_eq_true, Bool.or_eq_true, beq_iff_eq] at h
        rcases h.1 with rfl | rfl <;> rfl
      · exact scanSign_chars r c hc
      · simp [isLitChar, takeWhile_digits _ c hc]
    · rw [if_neg h]
      intro c hc; cases hc

theorem scanExp_append_full (y rest : Str) (hfull : (scanExp y).2 = [])
    (h : ∀ c, rest.head? = some c → isDigit c = false ∧ c ≠ 'e' ∧ c ≠ 'E') :
    scanExp (y ++ rest) = ((scanExp y).1, rest) := by
  have hd : ∀ c, rest.head? = some c → isDigit c = false := fun c hc => (h c hc).1
  cases y with
  | nil =>
    cases rest with
    | nil => rfl
    | cons c r => simp [scanExp, (h c rfl).2.1, (h c rfl).2.2]
  | cons c r =>
    simp only [scanExp] at hfull
    by_cases hc : ((c == 'e' || c == 'E') && (scanSign r).2.head?.any isDigit) = true
    · rw [if_pos hc] at hfull
      simp only at hfull
      have hr : r ≠ [] := by
        rintro rfl
        simp [scanSign] at hc
      simp only [List.cons_append, scanExp, scanSign_append r rest hr,
        head?_any_append _ rest hd]
      rw [if_pos hc, if_pos hc]
      simp [(takeWhile_append_stop (scanSign r).2 rest hd).1,
        (takeWhile_append_stop (scanSign r).2 rest hd).2, hfull]
    · rw [if_neg hc] at hfull
      cases hfull

theorem scanNumber_parts {s : Str} {m : Str × Str} (h : scanNumber s = some m) :
    m.1 ++ m.2 = s := by
  unfold scanNumber at h
  by_cases hd : s.head?.any isDigit = true
  · rw [if_pos hd] at h
    injection h with h
    rw [← h]
    simp only [List.append_assoc, scanExp_parts, scanFrac_parts, List.takeWhile_append_dropWhile]
  · rw [if_neg hd] at h
    cases h

theorem scanNumber_chars {s : Str} {m : Str × Str} (h : scanNumber s = some m) :
    ∀ c ∈ m.1, isLitChar c = true := by
  unfold scanNumber at h
  by_cases hd : s.head?.any isDigit = true
  · rw [if_pos hd] at h
    injection h with h
    rw [← h]
    intro c hc
    simp only [List.mem_append] at hc
    rcases hc with hc | hc | hc
    · simp [isLitChar, takeWhile_digits _ c hc]
    · exact scanFrac_chars _ c hc
    · exact scanExp_chars _ c hc
  · rw [if_neg hd] at h
    cases h

theorem scanDotNumber_parts {s : Str} {m : Str × Str} (h : scanDotNumber s = some m) :
    m.1 ++ m.2 = s := by
  cases s with
  | nil => cases h
  | cons c r =>
    simp only [scanDotNumber] at h
    by_cases hc : (c == '.' && r.head?.any isDigit) = true
    · rw [if_pos hc] at h
      injection h with h
      rw [← h]
      simp only [Bool.and_eq_true, beq_iff_eq] at hc
      simp [hc.1]
    · rw [if_neg hc] at h
      cases h

theorem scanDotNumber_chars {s : Str} {m : Str × Str} (h : scanDotNumber s = some m) :
    ∀ c ∈ m.1, isLitChar c = true := by
  cases s with
  | nil => cases h
  | cons d r =>
    simp only [scanDotNumber] at h
    by_cases hc : (d == '.' && r.head?.any isDigit) = true
    · rw [if_pos hc] at h
      injection h with h
      rw [← h]
      intro c hm
      rw [List.mem_cons] at hm
      rcases hm with rfl | hm
      · rfl
      · simp [isLitChar, takeWhile_digits _ c hm]
    · rw [if_neg hc] at h
      cases h

/-! ## Number literals and the tokenizer -/

theorem numberToken_cases {t : Str} (h : isNumberToken t = true) :
    (∃ m, scanNumber t = some m ∧ m.2 = []) ∨
      (scanNumber t = none ∧ ∃ m, scanDotNumber t = some m ∧ m.2 = []) := by
  unfold isNumberToken at h
  cases h1 : scanNumber t with
  | some m =>
    rw [h1] at h
    exact Or.inl ⟨m, rfl, List.isEmpty_iff.1 h⟩
  | none =>
    rw [h1] at h
    cases h2 : scanDotNumber t with
    | some m =>
      rw [h2] at h
      exact Or.inr ⟨rfl, m, rfl, List.isEmpty_iff.1 h⟩
    | none =>
      rw [h2] at h
      cases h

theorem numberToken_chars {t : Str} (h : isNumberToken t = true) :
    ∀ c ∈ t, isLitChar c = true := by
  rcases numberToken_cases h with ⟨m, hm, h2⟩ | ⟨_, m, hm, h2⟩
  · have hp := scanNumber_parts hm
    rw [h2, List.append_nil] at hp
    rw [← hp]
    exact scanNumber_chars hm
  · have hp := scanDotNumber_parts hm
    rw [h2, List.append_nil] at hp
    rw [← hp]
    exact scanDotNumber_chars hm

theorem numberToken_ne_nil {t : Str} (h : isNumberToken t = true) : t ≠ [] := by
  rintro rfl
  exact absurd h (by decide)

theorem stop_facts {rest : Str} (h : ∀ c, rest.head? = some c → isStopChar c = true) :
    ∀ c, rest.head? = some c → isDigit c = false ∧ c ≠ '.' ∧ c ≠ 'e' ∧ c ≠ 'E' := by
  intro c hc
  have := h c hc
  simp only [isStopChar, Bool.not_eq_true', Bool.or_eq_false_iff, beq_eq_false_iff_ne] at this
  exact ⟨this.1.1.1, this.1.1.2, this.1.2, this.2⟩

/-- A number literal followed by a character that cannot continue it is
scanned whole. -/
theorem scanToken_literal {t : Str} (rest : Str) (ht : isNumberToken t = true)
    (hstop : ∀ c, rest.head? = some c → isStopChar c = true) :
    scanToken (t ++ rest) = some (t, rest) := by
  have hs := stop_facts hstop
  have hd : ∀ c, rest.head? = some c → isDigit c = false := fun c hc => (hs c hc).1
  rcases numberToken_cases ht with ⟨m, hm, h2⟩ | ⟨hnone, m, hm, h2⟩
  · have hp := scanNumber_parts hm
    rw [h2, List.append_nil] at hp
    have hm2 := hm
    unfold scanNumber at hm2
    by_cases hdig : t.head?.any isDigit = true
    · rw [if_pos hdig] at hm2
      injection hm2 with hm2
      have hfull : (scanExp (scanFrac (t.dropWhile isDigit)).2).2 = [] := by
        have := congrArg Prod.snd hm2
        simp only at this
        rw [this, h2]
      have hnum : scanNumber (t ++ rest) = some (t, rest) := by
        unfold scanNumber
        rw [head?_any_append t rest hd, if_pos hdig]
        simp only [(takeWhile_append_stop t rest hd).1, (takeWhile_append_stop t rest hd).2]
        rw [scanFrac_append_stop _ rest (fun c hc => ⟨(hs c hc).1, (hs c hc).2.1⟩)]
        simp only
        rw [scanExp_append_full _ rest hfull
          (fun c hc => ⟨(hs c hc).1, (hs c hc).2.2.1, (hs c hc).2.2.2⟩)]
        simp only
        have := congrArg Prod.fst hm2
        simp only at this
        rw [this, hp]
      unfold scanToken
      rw [hnum]
    · rw [if_neg hdig] at hm2
      cases hm2
  · cases t with
    | nil => cases hm
    | cons c r =>
      simp only [scanDotNumber] at hm
      by_cases hc : (c == '.' && r.head?.any isDigit) = true
      · rw [if_pos hc] at hm
        injection hm with hm
        have hdrop : r.dropWhile isDigit = [] := by
          have := congrArg Prod.snd hm
          simp only at this
          rw [this, h2]
        have htake : r.takeWhile isDigit = r := by
          have := List.takeWhile_append_dropWhile isDigit r
          rw [hdrop, List.append_nil] at this
          exact this
        have hcdot : c = '.' := by
          simp only [Bool.and_eq_true, beq_iff_eq] at hc
          exact hc.1
        have hnum : scanNumber (c :: r ++ rest) = none := by
          unfold scanNumber
          rw [hcdot]
          simp
          decide
        have hdot : scanDotNumber (c :: r ++ rest) = some (c :: r, rest) := by
          simp only [List.cons_append, scanDotNumber, head?_any_append r rest hd]
          rw [if_pos hc]
          simp [(takeWhile_append_stop r rest hd).1, (takeWhile_append_stop r rest hd).2,
            htake, hdrop, hcdot]
        unfold scanToken
        rw [hnum]
        simp only
        rw [hdot]
      · rw [if_neg hc] at hm
        cases hm

theorem opChar_facts {c : Char} (h : isOpChar c = true) :
    isDigit c = false ∧ c ≠ '.' ∧ isStopChar c = true ∧ isAllowedChar c = true ∧
      isJsSpace c = false := by
  simp only [isOpChar, Bool.or_eq_true, beq_iff_eq] at h
  rcases h with (((((rfl | rfl) | rfl) | rfl) | rfl) | rfl) | rfl <;> decide

/-- An operator or parenthesis character is scanned as a token of its own. -/
theorem scanToken_opChar {c : Char} (rest : Str) (h : isOpChar c = true) :
    scanToken (c :: rest) = some ([c], rest) := by
  have hf := opChar_facts h
  have h1 : scanNumber (c :: rest) = none := by
    simp [scanNumber, hf.1]
  have h2 : scanDotNumber (c :: rest) = none := by
    simp [scanDotNumber, hf.2.1]
  simp only [scanToken, h1, h2, h, if_true]

theorem tokenizeLoop_skip (a rest : Str) :
    tokenizeLoop a.length (a ++ rest) = tokenizeLoop 0 rest := by
  induction a with
  | nil => rfl
  | cons c r ih => simpa [tokenizeLoop] using ih

theorem tokenizeLoop_token {t rest : Str} (h : scanToken (t ++ rest) = some (t, rest))
    (hne : t ≠ []) : tokenizeLoop 0 (t ++ rest) = t :: tokenizeLoop 0 rest := by
  cases t with
  | nil => exact absurd rfl hne
  | cons c r =>
    have h2 : scanToken (c :: (r ++ rest)) = some (c :: r, rest) := h
    rw [List.cons_append, tokenizeLoop, h2]
    simp only [List.length_cons, Nat.add_sub_cancel]
    rw [tokenizeLoop_skip]

theorem opToken_cases {t : Str} (h : isOpToken t = true) : ∃ c, t = [c] ∧ isOpChar c = true := by
  match t, h with
  | [c], h => exact ⟨c, rfl, h⟩

/-- The tokenizer recovers a token sequence from its text, as long as no two
number literals are adjacent in it. -/
theorem tokenizeLoop_flatten (ts : List Str)
    (h1 : ∀ t ∈ ts, isNumberToken t = true ∨ isOpToken t = true) (h2 : separated ts = true) :
    tokenizeLoop 0 ts.flatten = ts := by
  induction ts with
  | nil => rfl
  | cons t ts ih =>
    have hts : separated ts = true := by
      cases ts with
      | nil => rfl
      | cons b r =>
        simp only [separated, Bool.and_eq_true] at h2
        exact h2.2
    have ih' := ih (fun u hu => h1 u (List.mem_cons_of_mem t hu)) hts
    rw [List.flatten_cons]
    rcases h1 t (List.mem_cons_self t ts) with ht | ht
    · have hstop : ∀ c, ts.flatten.head? = some c → isStopChar c = true := by
        cases ts with
        | nil => intro c hc; cases hc
        | cons b r =>
          simp only [separated, Bool.and_eq_true, ht, Bool.true_and, Bool.not_eq_true'] at h2
          rcases h1 b (List.mem_cons_of_mem t (List.mem_cons_self b r)) with hb | hb
          · rw [hb] at h2; exact absurd h2.1 (by decide)
          · obtain ⟨d, hd, hop⟩ := opToken_cases hb
            intro c hc
            rw [hd, List.flatten_cons, List.singleton_append, List.head?_cons] at hc
            injection hc with hc
            rw [← hc]
            exact (opChar_facts hop).2.2.1
      rw [tokenizeLoop_token (scanToken_literal _ ht hstop) (numberToken_ne_nil ht), ih']
    · obtain ⟨d, hd, hop⟩ := opToken_cases ht
      rw [hd]
      rw [tokenizeLoop_token (scanToken_opChar _ hop) (by simp), ih']

/-! ## Texts with white space between the tokens -/

theorem spells_flatten (ts : List Str) : Spells ts ts.flatten := by
  induction ts with
  | nil => exact Spells.done
  | cons t ts ih =>
    rw [List.flatten_cons]
    exact Spells.token t ih

theorem validToken_chars {t : Str} (h : isNumberToken t = true ∨ isOpToken t = true) :
    t ≠ [] ∧ ∀ c ∈ t, isAllowedChar c = true ∧ isJsSpace c = false := by
  rcases h with h | h
  · refine ⟨numberToken_ne_nil h, fun c hc => ?_⟩
    have := numberToken_chars h c hc
    simp only [isLitChar, Bool.or_eq_true, beq_iff_eq] at this
    rcases this with ((((hd | rfl) | rfl) | rfl) | rfl) | rfl
    · exact ⟨by simp [isAllowedChar, hd], digit_not_space hd⟩
    all_goals exact ⟨by decide, by decide⟩
  · obtain ⟨d, hd, hop⟩ := opToken_cases h
    subst hd
    refine ⟨by simp, fun c hc => ?_⟩
    rw [List.mem_singleton] at hc
    subst hc
    exact ⟨(opChar_facts hop).2.2.2.1, (opChar_facts hop).2.2.2.2⟩

theorem spells_chars {ts : List Str} {s : Str} (h : Spells ts s)
    (hv : ∀ t ∈ ts, isNumberToken t = true ∨ isOpToken t = true) :
    ∀ c ∈ s, isAllowedChar c = true := by
  induction h with
  | done => intro c hc; cases hc
  | token t _ ih =>
    intro c hc
    rw [List.mem_append] at hc
    rcases hc with hc | hc
    · exact ((validToken_chars (hv t (List.mem_cons_self t _))).2 c hc).1
    · exact ih (fun u hu => hv u (List.mem_cons_of_mem t hu)) c hc
  | space d hd _ ih =>
    intro c hc
    rw [List.mem_cons] at hc
    rcases hc with rfl | hc
    · simp [isAllowedChar, hd]
    · exact ih hv c hc

theorem spells_nil {ts : List Str} {s : Str} (h : Spells ts s) (hs : s = [])
    (hv : ∀ t ∈ ts, isNumberToken t = true ∨ isOpToken t = true) : ts = [] := by
  induction h with
  | done => rfl
  | token t _ _ =>
    have := (validToken_chars (hv t (List.mem_cons_self t _))).1
    rw [List.append_eq_nil] at hs
    exact absurd hs.1 this
  | space d _ _ _ => cases hs

theorem spells_head {ts : List Str} {s : Str} (h : Spells ts s)
    (hv : ∀ t ∈ ts, isNumberToken t = true ∨ isOpToken t = true) :
    ∀ c, s.head? = some c → isJsSpace c = true ∨ ∃ t ts1, ts = t :: ts1 ∧ t.head? = some c := by
  induction h with
  | done => intro c hc; cases hc
  | token t _ _ =>
    intro c hc
    have hne := (validToken_chars (hv t (List.mem_cons_self t _))).1
    cases t with
    | nil => exact absurd rfl hne
    | cons d r => exact Or.inr ⟨d :: r, _, rfl, hc⟩
  | space d hd _ _ =>
    intro c hc
    simp only [List.head?_cons, Option.some.injEq] at hc
    subst hc
    exact Or.inl hd

theorem space_facts {c : Char} (h : isJsSpace c = true) :
    isDigit c = false ∧ c ≠ '.' ∧ isOpChar c = false ∧ isStopChar c = true := by
  have hd : isDigit c = false := by
    cases hc : isDigit c
    · rfl
    · rw [digit_not_space hc] at h; cases h
  have hne : ∀ d : Char, isJsSpace d = false → c ≠ d := by
    rintro d hd2 rfl
    rw [hd2] at h; cases h
  refine ⟨hd, hne '.' (by decide), ?_, ?_⟩
  · simp only [isOpChar, Bool.or_eq_false_iff, beq_eq_false_iff_ne]
    exact ⟨⟨⟨⟨⟨⟨hne _ (by decide), hne _ (by decide)⟩, hne _ (by decide)⟩, hne _ (by decide)⟩,
      hne _ (by decide)⟩, hne _ (by decide)⟩, hne _ (by decide)⟩
  · simp only [isStopChar, hd, Bool.false_or, Bool.not_eq_true', Bool.or_eq_false_iff,
      beq_eq_false_iff_ne]
    exact ⟨⟨hne _ (by decide), hne _ (by decide)⟩, hne _ (by decide)⟩

theorem scanToken_space {c : Char} (rest : Str) (h : isJsSpace c = true) :
    scanToken (c :: rest) = none := by
  have hf := space_facts h
  have h1 : scanNumber (c :: rest) = none := by simp [scanNumber, hf.1]
  have h2 : scanDotNumber (c :: rest) = none := by simp [scanDotNumber, hf.2.1]
  simp [scanToken, h1, h2, hf.2.2.1]

/-- The tokenizer recovers a token sequence from any text that spells it, as
long as no two number literals are adjacent in the sequence. -/
theorem tokenizeLoop_spells {ts : List Str} {s : Str} (h : Spells ts s)
    (hv : ∀ t ∈ ts, isNumberToken t = true ∨ isOpToken t = true) (hsep : separated ts = true) :
    tokenizeLoop 0 s = ts := by
  induction h with
  | done => rfl
  | @token t ts1 s1 hsp ih =>
    have hts : separated ts1 = true := by
      cases ts1 with
      | nil => rfl
      | cons b r =>
        simp only [separated, Bool.and_eq_true] at hsep
        exact hsep.2
    have hv1 : ∀ u ∈ ts1, isNumberToken u = true ∨ isOpToken u = true :=
      fun u hu => hv u (List.mem_cons_of_mem t hu)
    have ih' := ih hv1 hts
    rcases hv t (List.mem_cons_self t ts1) with ht | ht
    · have hstop : ∀ c, s1.head? = some c → isStopChar c = true := by
        intro c hc
        rcases spells_head hsp hv1 c hc with hsp2 | ⟨b, r, hb, hbc⟩
        · exact (space_facts hsp2).2.2.2
        · subst hb
          simp only [separated, Bool.and_eq_true, ht, Bool.true_and, Bool.not_eq_true'] at hsep
          rcases hv1 b (List.mem_cons_self b r) with hb | hb
          · rw [hb] at hsep; exact absurd hsep.1 (by decide)
          · obtain ⟨d, hd, hop⟩ := opToken_cases hb
            rw [hd, List.head?_cons] at hbc
            injection hbc with hbc
            rw [← hbc]
            exact (opChar_facts hop).2.2.1
      rw [tokenizeLoop_token (scanToken_literal _ ht hstop) (numberToken_ne_nil ht), ih']
    · obtain ⟨d, hd, hop⟩ := opToken_cases ht
      rw [hd]
      rw [tokenizeLoop_token (scanToken_opChar _ hop) (by simp), ih']
  | @space c ts1 s1 hc _ ih =>
    rw [tokenizeLoop, scanToken_space s1 hc]
    exact ih hv hsep

theorem spells_dropWhile {ts : List Str} {s : Str} (h : Spells ts s)
    (hv : ∀ t ∈ ts, isNumberToken t = true ∨ isOpToken t = true) :
    Spells ts (s.dropWhile isJsSpace) := by
  induction h with
  | done => exact Spells.done
  | @token t ts1 s1 hsp _ =>
    have hvt := validToken_chars (hv t (List.mem_cons_self t ts1))
    have : (t ++ s1).dropWhile isJsSpace = t ++ s1 := by
      apply dropWhile_eq_self_of_head
      intro c hc
      cases t with
      | nil => exact absurd rfl hvt.1
      | cons d r =>
        simp only [List.cons_append, List.head?_cons, Option.some.injEq] at hc
        subst hc
        exact (hvt.2 d (List.mem_cons_self d r)).2
    rw [this]
    exact Spells.token t hsp
  | @space c ts1 s1 hc _ ih =>
    rw [List.dropWhile_cons_of_pos hc]
    exact ih hv

theorem rdropWhile_append (p : Char → Bool) (a b : Str) :
    (a ++ b).rdropWhile p = if b.rdropWhile p = [] then a.rdropWhile p else a ++ b.rdropWhile p := by
  unfold List.rdropWhile
  rw [List.reverse_append, List.dropWhile_append]
  by_cases h : List.dropWhile p b.reverse = []
  · simp [h]
  · have h2 : (List.dropWhile p b.reverse).isEmpty = false := by
      cases hd : List.dropWhile p b.reverse with
      | nil => exact absurd hd h
      | cons _ _ => rfl
    simp [h, h2]

theorem spells_rdropWhile {ts : List Str} {s : Str} (h : Spells ts s)
    (hv : ∀ t ∈ ts, isNumberToken t = true ∨ isOpToken t = true) :
    Spells ts (s.rdropWhile isJsSpace) := by
  induction h with
  | done => exact Spells.done
  | @token t ts1 s1 hsp ih =>
    have hvt := validToken_chars (hv t (List.mem_cons_self t ts1))
    have hv1 : ∀ u ∈ ts1, isNumberToken u = true ∨ isOpToken u = true :=
      fun u hu => hv u (List.mem_cons_of_mem t hu)
    have ih' := ih hv1
    rw [rdropWhile_append]
    by_cases hnil : s1.rdropWhile isJsSpace = []
    · rw [if_pos hnil]
      have hts : ts1 = [] := spells_nil ih' hnil hv1
      have ht : t.rdropWhile isJsSpace = t := by
        rw [List.rdropWhile_eq_self_iff]
        intro hl hp
        have := (hvt.2 _ (List.getLast_mem hl)).2
        rw [this] at hp
        cases hp
      rw [ht, hts]
      have := Spells.token t Spells.done
      rwa [List.append_nil] at this
    · rw [if_neg hnil]
      exact Spells.token t ih'
  | @space c ts1 s1 hc _ ih =>
    have ih' := ih hv
    have : (c :: s1).rdropWhile isJsSpace = ([c] ++ s1).rdropWhile isJsSpace := rfl
    rw [this, rdropWhile_append]
    by_cases hnil : s1.rdropWhile isJsSpace = []
    · rw [if_pos hnil]
      have : [c].rdropWhile isJsSpace = [] := by
        rw [List.rdropWhile_singleton, if_pos hc]
      rw [this]
      rwa [hnil] at ih'
    · rw [if_neg hnil]
      exact Spells.space c hc ih'

theorem spells_trim {ts : List Str} {s : Str} (h : Spells ts s)
    (hv : ∀ t ∈ ts, isNumberToken t = true ∨ isOpToken t = true) : Spells ts (trim s) :=
  spells_rdropWhile (spells_dropWhile h hv) hv

/-! ## The evaluator on conventional expressions -/

theorem isOpToken_tok (b : BinOp) : isOpToken b.tok = true := by
  cases b <;> rfl

theorem tokens_valid (e : Expr) (he : e.conventional = true) :
    ∀ t ∈ e.tokens, isNumberToken t = true ∨ isOpToken t = true := by
  induction e with
  | lit t =>
    intro u hu
    simp only [Expr.tokens, List.mem_singleton] at hu
    subst hu
    exact Or.inl he
  | paren e ih =>
    intro u hu
    simp only [Expr.tokens, List.mem_cons, List.mem_append, List.mem_singleton,
      List.not_mem_nil, or_false] at hu
    rcases hu with rfl | hu | rfl
    · exact Or.inr rfl
    · exact ih he u hu
    · exact Or.inr rfl
  | bin op l r ihl ihr =>
    intro u hu
    obtain ⟨hl, hr, _, _⟩ := conventional_bin he
    simp only [Expr.tokens, List.mem_cons, List.mem_append] at hu
    rcases hu with hu | rfl | hu
    · exact ihl hl u hu
    · exact Or.inr (isOpToken_tok op)
    · exact ihr hr u hu

theorem separated_cons_op {y : Str} (zs : List Str) (hy : isNumberToken y = false)
    (hz : separated zs = true) : separated (y :: zs) = true := by
  cases zs with
  | nil => rfl
  | cons b r => simp [separated, hy, hz]

theorem separated_append_op (xs : List Str) {y : Str} (zs : List Str)
    (hx : separated xs = true) (hy : isNumberToken y = false) (hz : separated zs = true) :
    separated (xs ++ y :: zs) = true := by
  induction xs with
  | nil => exact separated_cons_op zs hy hz
  | cons a r ih =>
    cases r with
    | nil =>
      simp only [List.singleton_append, separated, hy, Bool.and_false, Bool.not_false,
        Bool.true_and]
      exact separated_cons_op zs hy hz
    | cons b r2 =>
      simp only [separated, Bool.and_eq_true] at hx
      simp only [List.cons_append, separated, Bool.and_eq_true]
      exact ⟨hx.1, ih hx.2⟩

theorem tokens_separated (e : Expr) (he : e.conventional = true) :
    separated e.tokens = true := by
  induction e with
  | lit t => rfl
  | paren e ih =>
    simp only [Expr.tokens]
    exact separated_cons_op _ rfl (separated_append_op _ [] (ih he) rfl rfl)
  | bin op l r ihl ihr =>
    obtain ⟨hl, hr, _, _⟩ := conventional_bin he
    exact separated_append_op _ _ (ihl hl) (isNumberToken_tok op) (ihr hr)

theorem tokens_ne_nil (e : Expr) : e.tokens ≠ [] := by
  cases e with
  | lit t => simp [Expr.tokens]
  | paren e => simp [Expr.tokens]
  | bin op l r => simp [Expr.tokens]

theorem spells_text (e : Expr) : Spells e.tokens e.text :=
  spells_flatten e.tokens

/-- The tokenizer, after the character filter of `evalExpression`, reads any
text that spells the tokens of a conventional expression back as these
tokens. -/
theorem tokenizeExpr_spells (e : Expr) (he : e.conventional = true) {s : Str}
    (hs : Spells e.tokens s) : tokenizeExpr (s.filter isAllowedChar) = e.tokens := by
  have hfilter : s.filter isAllowedChar = s :=
    List.filter_eq_self.2 (spells_chars hs (tokens_valid e he))
  unfold tokenizeExpr
  rw [hfilter]
  exact tokenizeLoop_spells (spells_trim hs (tokens_valid e he)) (tokens_valid e he)
    (tokens_separated e he)

/-! ## The conventional grammar -/

/-- A tree the grammar reads from a token sequence has these tokens, is a
conventional reading, and binds at least as tightly as the level it was read
at. -/
theorem parses_conventional {n : Nat} {ts : List Str} {e : Expr} (h : Parses n ts e) :
    e.tokens = ts ∧ e.conventional = true ∧ n ≤ e.level := by
  induction h with
  | literal t ht => exact ⟨rfl, ht, Nat.le_refl _⟩
  | parens _ ih => exact ⟨by simp [Expr.tokens, ih.1], ih.2.1, Nat.le_refl _⟩
  | atom _ ih => exact ⟨ih.1, ih.2.1, by omega⟩
  | factor _ ih => exact ⟨ih.1, ih.2.1, by omega⟩
  | term _ ih => exact ⟨ih.1, ih.2.1, by omega⟩
  | power _ _ iha ihb =>
    refine ⟨by simp [Expr.tokens, iha.1, ihb.1, BinOp.tok], ?_, Nat.le_refl _⟩
    simp [Expr.conventional, iha.2.1, ihb.2.1, BinOp.groupsRight, BinOp.strength]
    omega
  | times _ _ iha ihb =>
    refine ⟨by simp [Expr.tokens, iha.1, ihb.1, BinOp.tok], ?_, Nat.le_refl _⟩
    simp [Expr.conventional, iha.2.1, ihb.2.1, BinOp.groupsRight, BinOp.strength]
    omega
  | over _ _ iha ihb =>
    refine ⟨by simp [Expr.tokens, iha.1, ihb.1, BinOp.tok], ?_, Nat.le_refl _⟩
    simp [Expr.conventional, iha.2.1, ihb.2.1, BinOp.groupsRight, BinOp.strength]
    omega
  | plus _ _ iha ihb =>
    refine ⟨by simp [Expr.tokens, iha.1, ihb.1, BinOp.tok], ?_, Nat.le_refl _⟩
    simp [Expr.conventional, iha.2.1, ihb.2.1, BinOp.groupsRight, BinOp.strength]
    omega
  | minus _ _ iha ihb =>
    refine ⟨by simp [Expr.tokens, iha.1, ihb.1, BinOp.tok], ?_, Nat.le_refl _⟩
    simp [Expr.conventional, iha.2.1, ihb.2.1, BinOp.groupsRight, BinOp.strength]
    omega

theorem level_bounds (e : Expr) : 1 ≤ e.level ∧ e.level ≤ 4 := by
  cases e with
  | lit t => simp [Expr.level]
  | paren e => simp [Expr.level]
  | bin op l r => cases op <;> simp [Expr.level, BinOp.strength]

theorem parses_weaken {n : Nat} {ts : List Str} {e : Expr} (h : Parses n ts e) :
    ∀ m, 1 ≤ m → m ≤ n → Parses m ts e := by
  have hn := (parses_conventional h).2.2
  have hb := level_bounds e
  intro m hm1 hmn
  have h4 : n = 1 ∨ n = 2 ∨ n = 3 ∨ n = 4 := by omega
  have hm : m = 1 ∨ m = 2 ∨ m = 3 ∨ m = 4 := by omega
  rcases h4 with rfl | rfl | rfl | rfl <;> rcases hm with rfl | rfl | rfl | rfl <;>
    first
    | exact h
    | exact absurd hmn (by decide)
    | exact Parses.term h
    | exact Parses.factor h
    | exact Parses.atom h
    | exact Parses.term (Parses.factor h)
    | exact Parses.factor (Parses.atom h)
    | exact Parses.term (Parses.factor (Parses.atom h))

/-- Every conventional reading is a reading of the grammar, at the level of
its root. -/
theorem conventional_parses (e : Expr) (he : e.conventional = true) :
    Parses e.level e.tokens e := by
  induction e with
  | lit t => exact Parses.literal t he
  | paren e ih =>
    exact Parses.parens (parses_weaken (ih he) 1 (Nat.le_refl 1) (level_bounds e).1)
  | bin op l r ihl ihr =>
    obtain ⟨hl, hr, hright, hleft⟩ := conventional_bin he
    have pl := ihl hl
    have pr := ihr hr
    cases op with
    | add =>
      have := hleft rfl
      simp only [BinOp.strength] at this
      exact Parses.plus (parses_weaken pl 1 (by omega) this.1) (parses_weaken pr 2 (by omega) this.2)
    | sub =>
      have := hleft rfl
      simp only [BinOp.strength] at this
      exact Parses.minus (parses_weaken pl 1 (by omega) this.1)
        (parses_weaken pr 2 (by omega) this.2)
    | mul =>
      have := hleft rfl
      simp only [BinOp.strength] at this
      exact Parses.times (parses_weaken pl 2 (by omega) this.1)
        (parses_weaken pr 3 (by omega) this.2)
    | div =>
      have := hleft rfl
      simp only [BinOp.strength] at this
      exact Parses.over (parses_weaken pl 2 (by omega) this.1)
        (parses_weaken pr 3 (by omega) this.2)
    | pow =>
      have := hright rfl
      simp only [BinOp.strength] at this
      exact Parses.power (parses_weaken pl 4 (by omega) this.1)
        (parses_weaken pr 3 (by omega) this.2)

/-- The readings of the grammar from level 1 are the conventional readings. -/
theorem parses_iff_conventional (ts : List Str) (e : Expr) :
    Parses 1 ts e ↔ e.tokens = ts ∧ e.conventional = true := by
  constructor
  · intro h
    exact ⟨(parses_conventional h).1, (parses_conventional h).2.1⟩
  · rintro ⟨rfl, he⟩
    exact parses_weaken (conventional_parses e he) 1 (Nat.le_refl 1) (level_bounds e).1

/-- Two readings of the same token sequence have the same value in every
arithmetic: the value of a written expression does not depend on the reading
chosen. -/
theorem parses_value_unique {V : Type} (A : Arith V) {ts : List Str} {e1 e2 : Expr}
    (h1 : Parses 1 ts e1) (h2 : Parses 1 ts e2) : e1.value A = e2.value A := by
  obtain ⟨ht1, hc1, _⟩ := parses_conventional h1
  obtain ⟨ht2, hc2, _⟩ := parses_conventional h2
  have hs1 := shuntingYard_expr e1 hc1
  have hs2 := shuntingYard_expr e2 hc2
  rw [ht1] at hs1
  rw [ht2, hs1] at hs2
  injection hs2 with hrpn
  have hv1 := evaluateRPN_rpn A e1 hc1
  have hv2 := evaluateRPN_rpn A e2 hc2
  rw [hrpn, hv2] at hv1
  injection hv1 with hv
  exact hv.symm

/-- A leading-point literal takes no exponent: `.5e3` is read as the two
tokens `.5` and `3`, which is no expression. -/
theorem evalExpression_point_exponent :
    tokenizeExpr ".5e3".toList = [".5".toList, "3".toList] ∧
      evalExpression termArith ".5e3".toList = .error "Invalid expression" :=
  ⟨by decide, rfl⟩

/-- C9: on a text that spells an infix expression (its tokens, with white
space anywhere around them), `evalExpression` returns the value of the tree
the conventional grammar reads the tokens as: `^` above `*` and `/` above `+`
and `-`, all grouping to the left but `^`, parentheses first.  The value is
taken in any arithmetic, that of doubles included. -/
theorem C9_conventional_value {V : Type} (A : Arith V) (ts : List Str) (e : Expr) (s : Str)
    (hp : Parses 1 ts e) (hs : Spells ts s) : evalExpression A s = .ok (e.value A) := by
  obtain ⟨ht, he, _⟩ := parses_conventional hp
  subst ht
  unfold evalExpression
  simp only [tokenizeExpr_spells e he hs]
  have hlen : (e.tokens.length == 0) = false := by
    cases h : e.tokens with
    | nil => exact absurd h (tokens_ne_nil e)
    | cons _ _ => rfl
  rw [hlen]
  simp only [Bool.false_eq_true, if_false, shuntingYard_expr e he]
  exact evaluateRPN_rpn A e he

/-- C9, at `2+3*4`, `(2+3)*4`, `2^3^2`, `3.14` and ` 8 - 2-1`, in the
arithmetic of terms: the results are the terms `2+(3*4)`, `(2+3)*4`,
`2^(3^2)`, `3.14` and `(8-2)-1`. -/
theorem C9_conventional_value_witness :
    evalExpression termArith "2+3*4".toList =
        .ok (Term.add (Term.num ['2']) (Term.mul (Term.num ['3']) (Term.num ['4']))) ∧
      evalExpression termArith "(2+3)*4".toList =
        .ok (Term.mul (Term.add (Term.num ['2']) (Term.num ['3'])) (Term.num ['4'])) ∧
      evalExpression termArith "2^3^2".toList =
        .ok (Term.pow (Term.num ['2']) (Term.pow (Term.num ['3']) (Term.num ['2']))) ∧
      evalExpression termArith "3.14".toList = .ok (Term.num "3.14".toList) ∧
      evalExpression termArith " 8 - 2-1".toList =
        .ok (Term.sub (Term.sub (Term.num ['8']) (Term.num ['2'])) (Term.num ['1'])) :=
  ⟨C9_conventional_value termArith _
      (.bin .add (.lit ['2']) (.bin .mul (.lit ['3']) (.lit ['4']))) _
      ((parses_iff_conventional _ _).2 ⟨rfl, by decide⟩) (spells_flatten _),
    C9_conventional_value termArith _
      (.bin .mul (.paren (.bin .add (.lit ['2']) (.lit ['3']))) (.lit ['4'])) _
      ((parses_iff_conventional _ _).2 ⟨rfl, by decide⟩) (spells_flatten _),
    C9_conventional_value termArith _
      (.bin .pow (.lit ['2']) (.bin .pow (.lit ['3']) (.lit ['2']))) _
      ((parses_iff_conventional _ _).2 ⟨rfl, by decide⟩) (spells_flatten _),
    C9_conventional_value termArith _ (.lit "3.14".toList) _
      ((parses_iff_conventional _ _).2 ⟨rfl, by decide⟩) (spells_flatten _),
    C9_conventional_value termArith _
      (.bin .sub (.bin .sub (.lit ['8']) (.lit ['2'])) (.lit ['1'])) _
      (Parses.minus
        (Parses.minus (Parses.term (Parses.factor (Parses.atom (Parses.literal ['8'] rfl))))
          (Parses.factor (Parses.atom (Parses.literal ['2'] rfl))))
        (Parses.factor (Parses.atom (Parses.literal ['1'] rfl))))
      (Spells.space ' ' rfl (Spells.token ['8'] (Spells.space ' ' rfl (Spells.token ['-']
        (Spells.space ' ' rfl (Spells.token ['2'] (Spells.token ['-']
          (Spells.token ['1'] Spells.done))))))))⟩

/-! ## Parentheses in the shunting-yard -/

theorem prec_some_ne_paren {o : Str} {p : Nat} (h : prec o = some p) :
    o ≠ ['('] ∧ o ≠ [')'] := by
  constructor <;> (rintro rfl; cases h)

theorem shouldPop_ne_paren {t o : Str} (h : shouldPop t o = true) : o ≠ ['('] ∧ o ≠ [')'] := by
  unfold shouldPop at h
  cases hp : prec o with
  | none => rw [hp] at h; cases h
  | some p => exact prec_some_ne_paren hp

theorem isOperator_ne_paren {t : Str} (h : isOperator t = true) : t ≠ ['('] ∧ t ≠ [')'] := by
  constructor <;> (rintro rfl; cases h)

theorem isNumberToken_ne_paren {t : Str} (h : isNumberToken t = true) :
    t ≠ ['('] ∧ t ≠ [')'] := by
  constructor <;> (rintro rfl; cases h)

theorem popOps_paren (t : Str) (ops out : List Str) :
    (popOps t out ops).2.count ['('] = ops.count ['('] ∧
      ([')'] ∉ ops → [')'] ∉ (popOps t out ops).2) := by
  induction ops generalizing out with
  | nil => exact ⟨rfl, fun h => h⟩
  | cons o r ih =>
    rw [popOps]
    by_cases hp : shouldPop t o = true
    · rw [if_pos hp]
      have hne := shouldPop_ne_paren hp
      refine ⟨?_, fun h => ?_⟩
      · rw [(ih (out ++ [o])).1, List.count_cons_of_ne (Ne.symm hne.1)]
      · exact (ih (out ++ [o])).2 (fun hm => h (List.mem_cons_of_mem o hm))
    · rw [if_neg hp]
      exact ⟨rfl, fun h => h⟩

theorem popToParen_paren (ops out : List Str) :
    ((popToParen out ops).2 = [] ∧ ops.count ['('] = 0) ∨
      (∃ rest, (popToParen out ops).2 = ['('] :: rest ∧ ops.count ['('] = rest.count ['('] + 1 ∧
        ([')'] ∉ ops → [')'] ∉ rest)) := by
  induction ops generalizing out with
  | nil => exact Or.inl ⟨rfl, rfl⟩
  | cons o r ih =>
    rw [popToParen]
    by_cases ho : o = ['(']
    · rw [if_pos ho]
      refine Or.inr ⟨r, by rw [ho], by rw [ho, List.count_cons_self], fun h hm => ?_⟩
      exact h (List.mem_cons_of_mem o hm)
    · rw [if_neg ho]
      rcases ih (out ++ [o]) with ⟨h1, h2⟩ | ⟨rest, h1, h2, h3⟩
      · exact Or.inl ⟨h1, by rw [List.count_cons_of_ne (Ne.symm ho)]; exact h2⟩
      · refine Or.inr ⟨rest, h1, by rw [List.count_cons_of_ne (Ne.symm ho)]; exact h2, fun h => ?_⟩
        exact h3 (fun hm => h (List.mem_cons_of_mem o hm))

/-- One step of the shunting-yard against one step of the depth scan. -/
theorem syStep_paren (st : List Str × List Str) (t : Str) (hst : [')'] ∉ st.2) :
    (∃ st1, syStep st t = .ok st1 ∧ [')'] ∉ st1.2 ∧
        ∀ ts, parenScan (t :: ts) (st.2.count ['(']) = parenScan ts (st1.2.count ['('])) ∨
      (syStep st t = .error "Mismatched parentheses" ∧
        ∀ ts, parenScan (t :: ts) (st.2.count ['(']) = none) := by
  by_cases hnum : isNumberToken t = true
  · have hne := isNumberToken_ne_paren hnum
    refine Or.inl ⟨(st.1 ++ [t], st.2), syStep_number hnum st, hst, fun ts => ?_⟩
    simp only [parenScan, hne.1, hne.2, if_false]
  · by_cases hop : isOperator t = true
    · have hne := isOperator_ne_paren hop
      have hp := popOps_paren t st.2 st.1
      refine Or.inl ⟨((popOps t st.1 st.2).1, t :: (popOps t st.1 st.2).2), ?_, ?_, fun ts => ?_⟩
      · simp [syStep, hnum, hop]
      · intro hm
        rw [List.mem_cons] at hm
        rcases hm with hm | hm
        · exact hne.2 hm.symm
        · exact hp.2 hst hm
      · simp only [parenScan, hne.1, hne.2, if_false]
        rw [List.count_cons_of_ne (Ne.symm hne.1), hp.1]
    · by_cases hopen : t = ['(']
      · subst hopen
        refine Or.inl ⟨(st.1, ['('] :: st.2), syStep_open st, ?_, fun ts => ?_⟩
        · intro hm
          rw [List.mem_cons] at hm
          rcases hm with hm | hm
          · exact absurd hm (by decide)
          · exact hst hm
        · simp only [parenScan, if_true, List.count_cons_self]
      · by_cases hclose : t = [')']
        · subst hclose
          rw [syStep_close]
          rcases popToParen_paren st.2 st.1 with ⟨h1, h2⟩ | ⟨rest, h1, h2, h3⟩
          · refine Or.inr ⟨by rw [h1], fun ts => ?_⟩
            simp only [parenScan, hopen, if_false, if_true, h2]
          · refine Or.inl ⟨((popToParen st.1 st.2).1, rest), by rw [h1]; simp, h3 hst,
              fun ts => ?_⟩
            simp only [parenScan, hopen, if_false, if_true, h2]
            simp
        · refine Or.inl ⟨st, ?_, hst, fun ts => ?_⟩
          · simp [syStep, hnum, hop, hopen, hclose]
          · simp only [parenScan, hopen, hclose, if_false]

/-- The `forEach` loop of the shunting-yard against the depth scan. -/
theorem syLoop_paren (ts : List Str) :
    ∀ (st : List Str × List Str), [')'] ∉ st.2 →
      (∃ st1, syLoop ts st = .ok st1 ∧ [')'] ∉ st1.2 ∧
          parenScan ts (st.2.count ['(']) = some (st1.2.count ['('])) ∨
        (syLoop ts st = .error "Mismatched parentheses" ∧
          parenScan ts (st.2.count ['(']) = none) := by
  induction ts with
  | nil => intro st hst; exact Or.inl ⟨st, rfl, hst, rfl⟩
  | cons t ts ih =>
    intro st hst
    rcases syStep_paren st t hst with ⟨st1, h1, h2, h3⟩ | ⟨h1, h3⟩
    · rw [h3 ts]
      rw [syLoop, h1]
      exact ih st1 h2
    · rw [h3 ts]
      rw [syLoop, h1]
      exact Or.inr ⟨rfl, rfl⟩

theorem drainOps_paren (ops out : List Str) (hst : [')'] ∉ ops) :
    (ops.count ['('] = 0 ∧ drainOps out ops = .ok (out ++ ops)) ∨
      (ops.count ['('] ≠ 0 ∧ drainOps out ops = .error "Mismatched parentheses") := by
  induction ops generalizing out with
  | nil => exact Or.inl ⟨rfl, by simp [drainOps]⟩
  | cons o r ih =>
    have hr : [')'] ∉ r := fun hm => hst (List.mem_cons_of_mem o hm)
    have hoc : o ≠ [')'] := fun h => hst (h ▸ List.mem_cons_self o r)
    by_cases ho : o = ['(']
    · refine Or.inr ⟨by rw [ho, List.count_cons_self]; omega, ?_⟩
      simp [drainOps, ho]
    · rw [drainOps, if_neg (by simp [ho, hoc]), List.count_cons_of_ne (Ne.symm ho)]
      rcases ih (out ++ [o]) hr with ⟨h1, h2⟩ | ⟨h1, h2⟩
      · exact Or.inl ⟨h1, by rw [h2]; simp⟩
      · exact Or.inr ⟨h1, h2⟩

/-- The shunting-yard fails, and then with the parenthesis error, exactly
when the depth scan does not end at depth 0. -/
theorem shuntingYard_parenScan (ts : List Str) :
    (parenScan ts 0 = some 0 ∧ ∃ rpn, shuntingYard ts = .ok rpn) ∨
      (parenScan ts 0 ≠ some 0 ∧ shuntingYard ts = .error "Mismatched parentheses") := by
  unfold shuntingYard
  rcases syLoop_paren ts ([], []) (by simp) with ⟨st1, h1, h2, h3⟩ | ⟨h1, h3⟩
  · simp only [List.count_nil] at h3
    rw [h1]
    simp only
    rcases drainOps_paren st1.2 st1.1 h2 with ⟨h4, h5⟩ | ⟨h4, h5⟩
    · exact Or.inl ⟨by rw [h3, h4], _, h5⟩
    · refine Or.inr ⟨?_, h5⟩
      rw [h3]
      intro h
      injection h with h
      exact h4 h
  · simp only [List.count_nil] at h3
    rw [h1]
    exact Or.inr ⟨by rw [h3]; exact fun h => Option.noConfusion h, rfl⟩

/-- The depth scan in terms of counts of parentheses. -/
theorem parenScan_iff (ts : List Str) :
    ∀ d d1 : Nat, parenScan ts d = some d1 ↔
      (∀ n, (ts.take n).count [')'] ≤ d + (ts.take n).count ['(']) ∧
        d + ts.count ['('] = d1 + ts.count [')'] := by
  induction ts with
  | nil =>
    intro d d1
    simp only [parenScan, Option.some.injEq, List.take_nil, List.count_nil, Nat.add_zero,
      Nat.zero_le, implies_true, true_and]
  | cons t ts ih =>
    intro d d1
    have hsplit : ∀ P : Nat → Prop, (∀ n, P n) ↔ P 0 ∧ ∀ n, P (n + 1) :=
      fun P => ⟨fun h => ⟨h 0, fun n => h (n + 1)⟩, fun h n => by
        cases n with
        | zero => exact h.1
        | succ m => exact h.2 m⟩
    rw [hsplit]
    simp only [List.take_zero, List.count_nil, Nat.zero_le, true_and, List.take_succ_cons]
    have hoc : (['('] : Str) ≠ [')'] := by decide
    by_cases hopen : t = ['(']
    · subst hopen
      simp only [parenScan, if_true, ih, List.count_cons_self, List.count_cons_of_ne hoc.symm]
      constructor
      · rintro ⟨h1, h2⟩
        exact ⟨fun n => by have := h1 n; omega, by omega⟩
      · rintro ⟨h1, h2⟩
        exact ⟨fun n => by have := h1 n; omega, by omega⟩
    · by_cases hclose : t = [')']
      · subst hclose
        simp only [parenScan, hopen, if_false, if_true, List.count_cons_self,
          List.count_cons_of_ne hoc]
        by_cases hd : d = 0
        · subst hd
          simp only [if_true]
          constructor
          · intro h; cases h
          · rintro ⟨h1, _⟩
            have := h1 0
            simp at this
        · rw [if_neg hd, ih]
          constructor
          · rintro ⟨h1, h2⟩
            exact ⟨fun n => by have := h1 n; omega, by omega⟩
          · rintro ⟨h1, h2⟩
            exact ⟨fun n => by have := h1 n; omega, by omega⟩
      · simp only [parenScan, hopen, hclose, if_false, ih,
          List.count_cons_of_ne (Ne.symm hopen), List.count_cons_of_ne (Ne.symm hclose)]

theorem specBalanced_iff (ts : List Str) : specBalanced ts ↔ parenScan ts 0 = some 0 := by
  rw [parenScan_iff]
  unfold specBalanced
  simp only [Nat.zero_add]

/-- C10: `shuntingYard` raises the `Mismatched parentheses` error exactly on
the token sequences whose parentheses are not balanced, and returns an output
exactly on those whose parentheses are balanced. -/
theorem C10_mismatched_iff_unbalanced (ts : List Str) :
    (shuntingYard ts = .error "Mismatched parentheses" ↔ ¬ specBalanced ts) ∧
      ((∃ rpn, shuntingYard ts = .ok rpn) ↔ specBalanced ts) := by
  rw [specBalanced_iff]
  rcases shuntingYard_parenScan ts with ⟨h1, rpn, h2⟩ | ⟨h1, h2⟩
  · refine ⟨⟨fun h => ?_, fun h => absurd h1 h⟩, ⟨fun _ => h1, fun _ => ⟨rpn, h2⟩⟩⟩
    rw [h2] at h
    cases h
  · refine ⟨⟨fun _ => h1, fun _ => h2⟩, ⟨fun h => ?_, fun h => absurd h h1⟩⟩
    obtain ⟨rpn, h⟩ := h
    rw [h2] at h
    cases h

/-- C10, at the tokens of `(1+2`: the parentheses are not balanced and the
error is raised, also through `evalExpression`. -/
theorem C10_mismatched_iff_unbalanced_witness :
    ¬ specBalanced (tokenizeExpr "(1+2".toList) ∧
      shuntingYard (tokenizeExpr "(1+2".toList) = .error "Mismatched parentheses" ∧
      evalExpression termArith "(1+2".toList = .error "Mismatched parentheses" := by
  have hnb : ¬ specBalanced (tokenizeExpr "(1+2".toList) := by
    intro h
    have h2 := h.2
    revert h2
    decide
  exact ⟨hnb, (C10_mismatched_iff_unbalanced (tokenizeExpr "(1+2".toList)).1.2 hnb, rfl⟩

/-! ## What the shunting-yard puts out -/

theorem isOperator_cases {t : Str} (h : isOperator t = true) : ∃ b : BinOp, t = b.tok := by
  simp only [isOperator, Bool.or_eq_true, decide_eq_true_eq] at h
  rcases h with (((h | h) | h) | h) | h
  · exact ⟨.add, h⟩
  · exact ⟨.sub, h⟩
  · exact ⟨.mul, h⟩
  · exact ⟨.div, h⟩
  · exact ⟨.pow, h⟩

theorem isOperator_not_number {t : Str} (h : isOperator t = true) : isNumberToken t = false := by
  obtain ⟨b, rfl⟩ := isOperator_cases h
  exact isNumberToken_tok b

theorem prec_some_isOperator {o : Str} {p : Nat} (h : prec o = some p) : isOperator o = true := by
  unfold prec at h
  unfold isOperator
  by_cases h1 : o = ['+']
  · simp [h1]
  · by_cases h2 : o = ['-']
    · simp [h2]
    · by_cases h3 : o = ['*']
      · simp [h3]
      · by_cases h4 : o = ['/']
        · simp [h4]
        · by_cases h5 : o = ['^']
          · simp [h5]
          · simp [h1, h2, h3, h4, h5] at h

theorem shouldPop_isOperator {t o : Str} (h : shouldPop t o = true) : isOperator o = true := by
  unfold shouldPop at h
  cases hp : prec o with
  | none => rw [hp] at h; cases h
  | some p => exact prec_some_isOperator hp

theorem isRpnToken_not_paren : isRpnToken ['('] = false ∧ isRpnToken [')'] = false ∧
    isRpnToken ['u', '-'] = false := by
  refine ⟨rfl, rfl, rfl⟩

/-- The operator loop moves a run of operators from the top of the stack to
the end of the output. -/
theorem popOps_split (t : Str) (ops out : List Str) :
    ∃ popped, (popOps t out ops).1 = out ++ popped ∧ ops = popped ++ (popOps t out ops).2 ∧
      ∀ o ∈ popped, isOperator o = true := by
  induction ops generalizing out with
  | nil => exact ⟨[], by simp [popOps], by simp [popOps], fun o h => absurd h (List.not_mem_nil o)⟩
  | cons o r ih =>
    rw [popOps]
    by_cases hp : shouldPop t o = true
    · rw [if_pos hp]
      obtain ⟨popped, h1, h2, h3⟩ := ih (out ++ [o])
      refine ⟨o :: popped, by rw [h1]; simp, by rw [List.cons_append, ← h2], ?_⟩
      intro x hx
      rw [List.mem_cons] at hx
      rcases hx with rfl | hx
      · exact shouldPop_isOperator hp
      · exact h3 x hx
    · rw [if_neg hp]
      exact ⟨[], by simp, by simp, fun x h => absurd h (List.not_mem_nil x)⟩

/-- The closing-parenthesis loop moves what is above the first `(` from the
stack to the end of the output. -/
theorem popToParen_split (ops out : List Str) :
    ∃ popped, (popToParen out ops).1 = out ++ popped ∧ ops = popped ++ (popToParen out ops).2 ∧
      ∀ o ∈ popped, o ≠ ['('] := by
  induction ops generalizing out with
  | nil =>
    exact ⟨[], by simp [popToParen], by simp [popToParen],
      fun o h => absurd h (List.not_mem_nil o)⟩
  | cons o r ih =>
    rw [popToParen]
    by_cases ho : o = ['(']
    · rw [if_pos ho]
      exact ⟨[], by simp, by simp, fun x h => absurd h (List.not_mem_nil x)⟩
    · rw [if_neg ho]
      obtain ⟨popped, h1, h2, h3⟩ := ih (out ++ [o])
      refine ⟨o :: popped, by rw [h1]; simp, by rw [List.cons_append, ← h2], ?_⟩
      intro x hx
      rw [List.mem_cons] at hx
      rcases hx with rfl | hx
      · exact ho
      · exact h3 x hx

theorem filter_number_operators {xs : List Str} (h : ∀ o ∈ xs, isOperator o = true) :
    xs.filter isNumberToken = [] := by
  rw [List.filter_eq_nil_iff]
  intro o ho
  rw [isOperator_not_number (h o ho)]
  exact Bool.false_ne_true

theorem filter_number_stack {xs : List Str} (h : ∀ o ∈ xs, isOperator o = true ∨ o = ['(']) :
    xs.filter isNumberToken = [] := by
  rw [List.filter_eq_nil_iff]
  intro o ho
  rcases h o ho with h1 | h1
  · rw [isOperator_not_number h1]; exact Bool.false_ne_true
  · rw [h1]; decide

/-- One step of the shunting-yard keeps the state well formed, adds the token
to the tokens held by output and stack if it is a number or an operator, and
adds it to the numbers of the output if it is a number. -/
theorem syStep_rpn {st st1 : List Str × List Str} {t : Str} (hok : StateOk st)
    (h : syStep st t = .ok st1) :
    StateOk st1 ∧
      ((st1.1 ++ st1.2).filter isRpnToken).Perm
        ((st.1 ++ st.2).filter isRpnToken ++ [t].filter isRpnToken) ∧
      st1.1.filter isNumberToken = st.1.filter isNumberToken ++ [t].filter isNumberToken := by
  by_cases hnum : isNumberToken t = true
  · rw [syStep_number hnum] at h
    injection h with h
    subst h
    have hk : isRpnToken t = true := by simp [isRpnToken, hnum]
    refine ⟨⟨?_, hok.2⟩, ?_, ?_⟩
    · intro x hx
      rw [List.mem_append, List.mem_singleton] at hx
      rcases hx with hx | rfl
      · exact hok.1 x hx
      · exact hk
    · simp only [List.filter_append, List.append_assoc]
      exact List.Perm.append_left _ List.perm_append_comm
    · simp only [List.filter_append]
  · have hnumf : isNumberToken t = false := by simpa using hnum
    by_cases hop : isOperator t = true
    · have hk : isRpnToken t = true := by simp [isRpnToken, hop]
      obtain ⟨popped, h1, h2, h3⟩ := popOps_split t st.2 st.1
      have hs : syStep st t = .ok ((popOps t st.1 st.2).1, t :: (popOps t st.1 st.2).2) := by
        simp [syStep, hnum, hop]
      rw [hs] at h
      injection h with h
      subst h
      have hrest : ∀ x ∈ (popOps t st.1 st.2).2, isOperator x = true ∨ x = ['('] := by
        intro x hx
        exact hok.2 x (by rw [h2]; exact List.mem_append_right _ hx)
      refine ⟨⟨?_, ?_⟩, ?_, ?_⟩
      · intro x hx
        simp only [h1, List.mem_append] at hx
        rcases hx with hx | hx
        · exact hok.1 x hx
        · simp [isRpnToken, h3 x hx]
      · intro x hx
        rw [List.mem_cons] at hx
        rcases hx with rfl | hx
        · exact Or.inl hop
        · exact hrest x hx
      · have hcat : st.1 ++ st.2 = (popOps t st.1 st.2).1 ++ (popOps t st.1 st.2).2 := by
          rw [h1, List.append_assoc, ← h2]
        rw [hcat]
        simp only [List.filter_append, List.filter_cons, hk, if_true, List.filter_nil]
        exact (List.perm_middle).trans (@List.perm_append_comm _ [t] _)
      · simp only [h1, List.filter_append, filter_number_operators h3, List.filter_cons, hnumf,
          List.filter_nil, List.append_nil]
        simp
    · have hopf : isOperator t = false := by simpa using hop
      have hk : isRpnToken t = false := by simp [isRpnToken, hnumf, hopf]
      by_cases hopen : t = ['(']
      · subst hopen
        rw [syStep_open] at h
        injection h with h
        subst h
        refine ⟨⟨hok.1, ?_⟩, ?_, ?_⟩
        · intro x hx
          rw [List.mem_cons] at hx
          rcases hx with rfl | hx
          · exact Or.inr rfl
          · exact hok.2 x hx
        · simp only [List.filter_append, List.filter_cons, hk, List.filter_nil, List.append_nil]
          simp
        · simp only [List.filter_cons, hnumf, List.filter_nil, List.append_nil]
          simp
      · by_cases hclose : t = [')']
        · subst hclose
          rw [syStep_close] at h
          obtain ⟨popped, h1, h2, h3⟩ := popToParen_split st.2 st.1
          cases hres : (popToParen st.1 st.2).2 with
          | nil => rw [hres] at h; cases h
          | cons o rest =>
            rw [hres] at h
            simp only at h
            by_cases ho : o = ['(']
            · rw [if_pos ho] at h
              injection h with h
              subst h
              rw [hres] at h2
              have hpop : ∀ x ∈ popped, isOperator x = true := by
                intro x hx
                rcases hok.2 x (by rw [h2]; exact List.mem_append_left _ hx) with hx1 | hx1
                · exact hx1
                · exact absurd hx1 (h3 x hx)
              refine ⟨⟨?_, ?_⟩, ?_, ?_⟩
              · intro x hx
                simp only [h1, List.mem_append] at hx
                rcases hx with hx | hx
                · exact hok.1 x hx
                · simp [isRpnToken, hpop x hx]
              · intro x hx
                exact hok.2 x (by
                  rw [h2]
                  exact List.mem_append_right _ (List.mem_cons_of_mem o hx))
              · have hcat : st.1 ++ st.2 = (popToParen st.1 st.2).1 ++ o :: rest := by
                  rw [h1, List.append_assoc, ← h2]
                rw [hcat, ho]
                simp only [List.filter_append, List.filter_cons, hk, isRpnToken_not_paren.1,
                  List.filter_nil, List.append_nil]
                simp
              · simp only [h1, List.filter_append, filter_number_operators hpop,
                  List.filter_cons, hnumf, List.filter_nil, List.append_nil]
                simp
            · rw [if_neg ho] at h
              cases h
        · have hs : syStep st t = .ok st := by
            simp [syStep, hnum, hop, hopen, hclose]
          rw [hs] at h
          injection h with h
          subst h
          refine ⟨hok, ?_, ?_⟩
          · simp only [List.filter_cons, hk, List.filter_nil, List.append_nil]
            simp
          · simp only [List.filter_cons, hnumf, List.filter_nil, List.append_nil]
            simp

/-- The `forEach` loop of the shunting-yard keeps the state well formed and
adds the numbers and operators it reads to those held by output and stack. -/
theorem syLoop_rpn (ts : List Str) :
    ∀ {st st1 : List Str × List Str}, StateOk st → syLoop ts st = .ok st1 →
      StateOk st1 ∧
        ((st1.1 ++ st1.2).filter isRpnToken).Perm
          ((st.1 ++ st.2).filter isRpnToken ++ ts.filter isRpnToken) ∧
        st1.1.filter isNumberToken = st.1.filter isNumberToken ++ ts.filter isNumberToken := by
  induction ts with
  | nil =>
    intro st st1 hok h
    simp only [syLoop] at h
    injection h with h
    subst h
    exact ⟨hok, by simp, by simp⟩
  | cons t ts ih =>
    intro st st1 hok h
    rw [syLoop] at h
    cases hs : syStep st t with
    | error e => rw [hs] at h; cases h
    | ok st2 =>
      rw [hs] at h
      simp only at h
      obtain ⟨hok2, hp2, hn2⟩ := syStep_rpn hok hs
      obtain ⟨hok1, hp1, hn1⟩ := ih hok2 h
      refine ⟨hok1, ?_, ?_⟩
      · refine hp1.trans ?_
        have : List.filter isRpnToken (t :: ts) =
            [t].filter isRpnToken ++ ts.filter isRpnToken := by
          rw [← List.filter_append]; rfl
        rw [this, ← List.append_assoc]
        exact List.Perm.append_right _ hp2
      · have : List.filter isNumberToken (t :: ts) =
            [t].filter isNumberToken ++ ts.filter isNumberToken := by
          rw [← List.filter_append]; rfl
        rw [hn1, hn2, this, List.append_assoc]

/-- The output of a successful shunting-yard: the final state, well formed
and free of parentheses, written out. -/
theorem shuntingYard_rpn {ts rpn : List Str} (h : shuntingYard ts = .ok rpn) :
    (∀ t ∈ rpn, isRpnToken t = true) ∧ rpn.Perm (ts.filter isRpnToken) ∧
      rpn.filter isNumberToken = ts.filter isNumberToken := by
  unfold shuntingYard at h
  cases hl : syLoop ts ([], []) with
  | error e => rw [hl] at h; cases h
  | ok st1 =>
    rw [hl] at h
    simp only at h
    have hok0 : StateOk (([], []) : List Str × List Str) :=
      ⟨fun x hx => absurd hx (List.not_mem_nil x), fun x hx => absurd hx (List.not_mem_nil x)⟩
    obtain ⟨hok1, hp1, hn1⟩ := syLoop_rpn ts hok0 hl
    have hparen : [')'] ∉ st1.2 := by
      intro hm
      rcases hok1.2 _ hm with h1 | h1
      · exact absurd h1 (by decide)
      · exact absurd h1 (by decide)
    rcases drainOps_paren st1.2 st1.1 hparen with ⟨hc, hd⟩ | ⟨_, hd⟩
    · rw [hd] at h
      injection h with h
      subst h
      have hnoopen : ['('] ∉ st1.2 := by
        intro hm
        have := List.count_pos_iff.2 hm
        omega
      have hops : ∀ x ∈ st1.2, isOperator x = true := by
        intro x hx
        rcases hok1.2 x hx with h1 | h1
        · exact h1
        · exact absurd (h1 ▸ hx) hnoopen
      have hall : ∀ t ∈ st1.1 ++ st1.2, isRpnToken t = true := by
        intro t ht
        rw [List.mem_append] at ht
        rcases ht with ht | ht
        · exact hok1.1 t ht
        · simp [isRpnToken, hops t ht]
      refine ⟨hall, ?_, ?_⟩
      · have hself : (st1.1 ++ st1.2).filter isRpnToken = st1.1 ++ st1.2 :=
          List.filter_eq_self.2 hall
        rw [hself] at hp1
        simpa using hp1
      · rw [List.filter_append, filter_number_operators hops, List.append_nil, hn1]
        simp
    · rw [hd] at h
      cases h

theorem length_filter_rpn (ts : List Str)
    (hv : ∀ t ∈ ts, isRpnToken t = true ∨ t = ['('] ∨ t = [')']) :
    (ts.filter isRpnToken).length + ts.count ['('] + ts.count [')'] = ts.length := by
  induction ts with
  | nil => rfl
  | cons t ts ih =>
    have ih' := ih (fun u hu => hv u (List.mem_cons_of_mem t hu))
    have hoc : (['('] : Str) ≠ [')'] := by decide
    rcases hv t (List.mem_cons_self t ts) with h | h | h
    · have h1 : ['('] ≠ t := by
        rintro rfl; rw [isRpnToken_not_paren.1] at h; cases h
      have h2 : [')'] ≠ t := by
        rintro rfl; rw [isRpnToken_not_paren.2.1] at h; cases h
      rw [List.filter_cons_of_pos h, List.count_cons_of_ne h1, List.count_cons_of_ne h2,
        List.length_cons, List.length_cons]
      omega
    · subst h
      rw [List.filter_cons_of_neg (by rw [isRpnToken_not_paren.1]; exact Bool.false_ne_true),
        List.count_cons_self, List.count_cons_of_ne hoc.symm, List.length_cons]
      omega
    · subst h
      rw [List.filter_cons_of_neg (by rw [isRpnToken_not_paren.2.1]; exact Bool.false_ne_true),
        List.count_cons_self, List.count_cons_of_ne hoc, List.length_cons]
      omega

/-- C16: the output of a successful `shuntingYard` holds no parenthesis and
no `u-`; it is a rearrangement of the number and operator tokens of the
input, with the number tokens in their order in the input; and when the
input holds only numbers, operators and parentheses, its length is that of
the input less the parentheses. -/
theorem C16_rpn_rearrangement (ts rpn : List Str) (h : shuntingYard ts = .ok rpn) :
    ['('] ∉ rpn ∧ [')'] ∉ rpn ∧ ['u', '-'] ∉ rpn ∧
      rpn.Perm (ts.filter isRpnToken) ∧
      rpn.filter isNumberToken = ts.filter isNumberToken ∧
      ((∀ t ∈ ts, isRpnToken t = true ∨ t = ['('] ∨ t = [')']) →
        rpn.length + ts.count ['('] + ts.count [')'] = ts.length) := by
  obtain ⟨hall, hperm, hnum⟩ := shuntingYard_rpn h
  refine ⟨?_, ?_, ?_, hperm, hnum, fun hv => ?_⟩
  · intro hm
    have := hall _ hm
    rw [isRpnToken_not_paren.1] at this
    cases this
  · intro hm
    have := hall _ hm
    rw [isRpnToken_not_paren.2.1] at this
    cases this
  · intro hm
    have := hall _ hm
    rw [isRpnToken_not_paren.2.2] at this
    cases this
  · rw [hperm.length_eq]
    exact length_filter_rpn ts hv

/-- C16, at the tokens of `(1+2)*3`, with output `1 2 + 3 *`. -/
theorem C16_rpn_rearrangement_witness :
    shuntingYard (tokenizeExpr "(1+2)*3".toList) = .ok [['1'], ['2'], ['+'], ['3'], ['*']] ∧
      ([['1'], ['2'], ['+'], ['3'], ['*']] : List Str).Perm
        ((tokenizeExpr "(1+2)*3".toList).filter isRpnToken) ∧
      ([['1'], ['2'], ['+'], ['3'], ['*']] : List Str).filter isNumberToken =
        (tokenizeExpr "(1+2)*3".toList).filter isNumberToken :=
  ⟨rfl,
    (C16_rpn_rearrangement (tokenizeExpr "(1+2)*3".toList) [['1'], ['2'], ['+'], ['3'], ['*']]
      rfl).2.2.2.1,
    (C16_rpn_rearrangement (tokenizeExpr "(1+2)*3".toList) [['1'], ['2'], ['+'], ['3'], ['*']]
      rfl).2.2.2.2.1⟩

/-! ## Every token of the tokenizer is a number literal or an operator character -/

theorem takeWhile_takeWhile_digits (r : Str) :
    (r.takeWhile isDigit).takeWhile isDigit = r.takeWhile isDigit ∧
      (r.takeWhile isDigit).dropWhile isDigit = [] := by
  constructor
  · rw [List.takeWhile_eq_self_iff]
    exact takeWhile_digits r
  · rw [List.dropWhile_eq_nil_iff]
    exact takeWhile_digits r

theorem head?_takeWhile_digits (r : Str) :
    (r.takeWhile isDigit).head?.any isDigit = r.head?.any isDigit := by
  cases r with
  | nil => rfl
  | cons c r =>
    cases hc : isDigit c
    · simp [List.takeWhile, hc]
    · simp [List.takeWhile, hc]

theorem scanFrac_idem (x : Str) : scanFrac (scanFrac x).1 = ((scanFrac x).1, []) := by
  cases x with
  | nil => rfl
  | cons c r =>
    simp only [scanFrac]
    by_cases h : (c == '.' && r.head?.any isDigit) = true
    · rw [if_pos h]
      simp only [Bool.and_eq_true, beq_iff_eq] at h
      simp only [scanFrac, head?_takeWhile_digits, h.2, beq_self_eq_true, Bool.and_self, if_true,
        (takeWhile_takeWhile_digits r).1, (takeWhile_takeWhile_digits r).2]
    · rw [if_neg h]

theorem scanFrac_head (x : Str) :
    ∀ c, (scanFrac x).1.head? = some c → c = '.' := by
  cases x with
  | nil => intro c hc; cases hc
  | cons d r =>
    simp only [scanFrac]
    by_cases h : (d == '.' && r.head?.any isDigit) = true
    · rw [if_pos h]
      intro c hc
      simp only [List.head?_cons, Option.some.injEq] at hc
      exact hc.symm
    · rw [if_neg h]
      intro c hc; cases hc

theorem scanExp_head (x : Str) :
    ∀ c, (scanExp x).1.head? = some c → c = 'e' ∨ c = 'E' := by
  cases x with
  | nil => intro c hc; cases hc
  | cons d r =>
    simp only [scanExp]
    by_cases h : ((d == 'e' || d == 'E') && (scanSign r).2.head?.any isDigit) = true
    · rw [if_pos h]
      intro c hc
      simp only [List.head?_cons, Option.some.injEq] at hc
      simp only [Bool.and_eq_true, Bool.or_eq_true, beq_iff_eq] at h
      rw [← hc]
      exact h.1
    · rw [if_neg h]
      intro c hc; cases hc

theorem scanSign_rebuild (r : Str) (ds : Str)
    (hds : ∀ c, ds.head? = some c → c ≠ '+' ∧ c ≠ '-') :
    scanSign ((scanSign r).1 ++ ds) = ((scanSign r).1, ds) := by
  have hplain : scanSign ds = ([], ds) := by
    cases ds with
    | nil => rfl
    | cons c t =>
      have := hds c rfl
      simp [scanSign, this.1, this.2]
  cases r with
  | nil => exact hplain
  | cons c t =>
    simp only [scanSign]
    by_cases h : (c == '+' || c == '-') = true
    · rw [if_pos h]
      simp only [List.singleton_append, scanSign, h, if_true]
    · rw [if_neg h]
      exact hplain

theorem scanExp_idem (x : Str) : scanExp (scanExp x).1 = ((scanExp x).1, []) := by
  cases x with
  | nil => rfl
  | cons c r =>
    simp only [scanExp]
    by_cases h : ((c == 'e' || c == 'E') && (scanSign r).2.head?.any isDigit) = true
    · rw [if_pos h]
      have hds : ∀ d, ((scanSign r).2.takeWhile isDigit).head? = some d → d ≠ '+' ∧ d ≠ '-' := by
        intro d hd
        have hdig := takeWhile_digits _ d (List.mem_of_mem_head? hd)
        exact ⟨digit_ne_plus hdig, digit_ne_minus hdig⟩
      have hre := scanSign_rebuild r ((scanSign r).2.takeWhile isDigit) hds
      simp only [Bool.and_eq_true] at h
      simp only [scanExp, hre, head?_takeWhile_digits, h.1, h.2, Bool.and_self, if_true,
        (takeWhile_takeWhile_digits _).1, (takeWhile_takeWhile_digits _).2]
    · rw [if_neg h]

/-- What the first alternative of the tokenizer matches is a number literal. -/
theorem scanNumber_literal {s : Str} {m : Str × Str} (h : scanNumber s = some m) :
    isNumberToken m.1 = true := by
  unfold scanNumber at h
  by_cases hd : s.head?.any isDigit = true
  · rw [if_pos hd] at h
    injection h with h
    have hm1 : m.1 = s.takeWhile isDigit ++
        ((scanFrac (s.dropWhile isDigit)).1 ++ (scanExp (scanFrac (s.dropWhile isDigit)).2).1) := by
      rw [← h]
    -- the pieces of the match
    have hE : ∀ c, (scanExp (scanFrac (s.dropWhile isDigit)).2).1.head? = some c →
        isDigit c = false ∧ c ≠ '.' := by
      intro c hc
      rcases scanExp_head _ c hc with rfl | rfl <;> exact ⟨by decide, by decide⟩
    have hFE : ∀ c, ((scanFrac (s.dropWhile isDigit)).1 ++
        (scanExp (scanFrac (s.dropWhile isDigit)).2).1).head? = some c → isDigit c = false := by
      intro c hc
      cases hf : (scanFrac (s.dropWhile isDigit)).1 with
      | nil =>
        rw [hf, List.nil_append] at hc
        exact (hE c hc).1
      | cons d r =>
        rw [hf] at hc
        simp only [List.cons_append, List.head?_cons, Option.some.injEq] at hc
        have := scanFrac_head (s.dropWhile isDigit) d (by rw [hf]; rfl)
        rw [← hc, this]
        decide
    have hscan : scanNumber m.1 = some (m.1, []) := by
      rw [hm1]
      unfold scanNumber
      have hhead : (s.takeWhile isDigit ++ ((scanFrac (s.dropWhile isDigit)).1 ++
          (scanExp (scanFrac (s.dropWhile isDigit)).2).1)).head?.any isDigit = true := by
        rw [head?_any_append _ _ hFE, head?_takeWhile_digits, hd]
      rw [if_pos hhead]
      simp only [(takeWhile_append_stop _ _ hFE).1, (takeWhile_append_stop _ _ hFE).2,
        (takeWhile_takeWhile_digits s).1, (takeWhile_takeWhile_digits s).2, List.nil_append]
      rw [scanFrac_append_stop _ _ hE, scanFrac_idem]
      simp only [List.nil_append, scanExp_idem, List.append_nil]
    unfold isNumberToken
    rw [hscan]
    rfl
  · rw [if_neg hd] at h
    cases h

/-- What the second alternative of the tokenizer matches is a number literal. -/
theorem scanDotNumber_literal {s : Str} {m : Str × Str} (h : scanDotNumber s = some m) :
    isNumberToken m.1 = true := by
  cases s with
  | nil => cases h
  | cons c r =>
    simp only [scanDotNumber] at h
    by_cases hc : (c == '.' && r.head?.any isDigit) = true
    · rw [if_pos hc] at h
      injection h with h
      rw [← h]
      simp only [Bool.and_eq_true, beq_iff_eq] at hc
      have h1 : scanNumber ('.' :: r.takeWhile isDigit) = none := by
        simp [scanNumber]
        decide
      have h2 : scanDotNumber ('.' :: r.takeWhile isDigit) =
          some ('.' :: r.takeWhile isDigit, []) := by
        simp only [scanDotNumber, head?_takeWhile_digits, hc.2, beq_self_eq_true, Bool.and_self,
          if_true, (takeWhile_takeWhile_digits r).1, (takeWhile_takeWhile_digits r).2]
      unfold isNumberToken
      simp only [h1, h2]
      rfl
    · rw [if_neg hc] at h
      cases h

theorem scanToken_valid {s : Str} {m : Str × Str} (h : scanToken s = some m) :
    isNumberToken m.1 = true ∨ isOpToken m.1 = true := by
  unfold scanToken at h
  cases h1 : scanNumber s with
  | some m1 =>
    rw [h1] at h
    injection h with h
    subst h
    exact Or.inl (scanNumber_literal h1)
  | none =>
    rw [h1] at h
    simp only at h
    cases h2 : scanDotNumber s with
    | some m2 =>
      rw [h2] at h
      injection h with h
      subst h
      exact Or.inl (scanDotNumber_literal h2)
    | none =>
      rw [h2] at h
      simp only at h
      cases s with
      | nil => cases h
      | cons c r =>
        simp only at h
        by_cases hc : isOpChar c = true
        · rw [if_pos hc] at h
          injection h with h
          subst h
          exact Or.inr hc
        · rw [if_neg hc] at h
          cases h

theorem tokenizeLoop_valid (s : Str) :
    ∀ k, ∀ t ∈ tokenizeLoop k s, isNumberToken t = true ∨ isOpToken t = true := by
  induction s with
  | nil => intro k t ht; cases k <;> cases ht
  | cons c r ih =>
    intro k t ht
    cases k with
    | succ k => exact ih k t ht
    | zero =>
      rw [tokenizeLoop] at ht
      cases hs : scanToken (c :: r) with
      | none =>
        rw [hs] at ht
        exact ih 0 t ht
      | some m =>
        rw [hs] at ht
        simp only [List.mem_cons] at ht
        rcases ht with rfl | ht
        · exact scanToken_valid hs
        · exact ih _ t ht

theorem tokenizeExpr_valid (x : Str) :
    ∀ t ∈ tokenizeExpr x, isNumberToken t = true ∨ isOpToken t = true :=
  tokenizeLoop_valid (trim x) 0

/-! ## The stack machine on the output of the shunting-yard -/

theorem evalLoop_number {V : Type} (A : Arith V) {t : Str} (ht : isNumberToken t = true)
    (rpn : List Str) (st : List V) :
    evalLoop A (t :: rpn) st = evalLoop A rpn (A.num t :: st) := by
  simp [evalLoop, ht]

/-- An operator on any stack: missing operands are read as `nan`. -/
theorem evalLoop_operator_any {V : Type} (A : Arith V) (b : BinOp) (rpn : List Str)
    (st : List V) :
    evalLoop A (b.tok :: rpn) st =
      evalLoop A rpn
        (b.apply A (pop A (pop A st).2).1 (pop A st).1 :: (pop A (pop A st).2).2) := by
  have hn := isNumberToken_tok b
  cases b <;> simp only [BinOp.tok] at hn <;>
    simp [evalLoop, BinOp.tok, BinOp.apply, hn]

/-- The loop of `evaluateRPN` ends without error on numbers and operators. -/
theorem evalLoop_total {V : Type} (A : Arith V) (rpn : List Str)
    (h : ∀ t ∈ rpn, isRpnToken t = true) :
    ∀ st : List V, ∃ st1, evalLoop A rpn st = .ok st1 := by
  induction rpn with
  | nil => intro st; exact ⟨st, rfl⟩
  | cons t r ih =>
    intro st
    have ih' := ih (fun u hu => h u (List.mem_cons_of_mem t hu))
    have ht := h t (List.mem_cons_self t r)
    simp only [isRpnToken, Bool.or_eq_true] at ht
    rcases ht with ht | ht
    · rw [evalLoop_number A ht]
      exact ih' _
    · obtain ⟨b, rfl⟩ := isOperator_cases ht
      rw [evalLoop_operator_any]
      exact ih' _

/-- Where every operator finds its two operands, the loop of `evaluateRPN`
ends with a stack of the height `specStack` computes. -/
theorem evalLoop_specStack {V : Type} (A : Arith V) (rpn : List Str)
    (h : ∀ t ∈ rpn, isRpnToken t = true) :
    ∀ (st : List V) (n : Nat), specStack rpn st.length = some n →
      ∃ st1, evalLoop A rpn st = .ok st1 ∧ st1.length = n := by
  induction rpn with
  | nil =>
    intro st n hn
    simp only [specStack, Option.some.injEq] at hn
    exact ⟨st, rfl, hn⟩
  | cons t r ih =>
    intro st n hn
    have ih' := ih (fun u hu => h u (List.mem_cons_of_mem t hu))
    have ht := h t (List.mem_cons_self t r)
    simp only [isRpnToken, Bool.or_eq_true] at ht
    by_cases hnum : isNumberToken t = true
    · rw [specStack, if_pos hnum] at hn
      rw [evalLoop_number A hnum]
      exact ih' (A.num t :: st) n hn
    · rw [specStack, if_neg hnum] at hn
      have hop : isOperator t = true := ht.resolve_left hnum
      obtain ⟨b, rfl⟩ := isOperator_cases hop
      by_cases h2 : 2 ≤ st.length
      · rw [if_pos h2] at hn
        match st, h2 with
        | y :: x :: st2, _ =>
          rw [evalLoop_operator]
          exact ih' (b.apply A x y :: st2) n (by simpa using hn)
      · rw [if_neg h2] at hn
        cases hn

theorem evaluateRPN_errors {V : Type} (A : Arith V) (rpn : List Str)
    (h : ∀ t ∈ rpn, isRpnToken t = true) :
    ∀ e, evaluateRPN A rpn = .error e → e = "Invalid expression" := by
  intro e he
  unfold evaluateRPN at he
  obtain ⟨st1, hst⟩ := evalLoop_total A rpn h []
  rw [hst] at he
  match st1, he with
  | [], he => injection he with he; exact he.symm
  | _ :: _ :: _, he => injection he with he; exact he.symm

theorem evaluateRPN_height {V : Type} (A : Arith V) (rpn : List Str)
    (h : ∀ t ∈ rpn, isRpnToken t = true) {n : Nat} (hn : specStack rpn 0 = some n)
    (h1 : n ≠ 1) : evaluateRPN A rpn = .error "Invalid expression" := by
  obtain ⟨st1, hst, hlen⟩ := evalLoop_specStack A rpn h [] n hn
  unfold evaluateRPN
  rw [hst]
  match st1, hlen with
  | [], _ => rfl
  | [v], hl => exact absurd hl.symm h1
  | _ :: _ :: _, _ => rfl

/-! ## The evaluator on malformed input -/

/-- C11 fails at `1+`, `*2` and `1 2 +`: a missing operand is read as `nan`
and a number is returned, and the reordered input is evaluated as `1+2`. -/
theorem C11_malformed_accepted_counterexample :
    evalExpression termArith "1+".toList = .ok (Term.add Term.nan (Term.num ['1'])) ∧
      evalExpression termArith "*2".toList = .ok (Term.mul Term.nan (Term.num ['2'])) ∧
      evalExpression termArith "1 2 +".toList =
        .ok (Term.add (Term.num ['1']) (Term.num ['2'])) :=
  ⟨rfl, rfl, rfl⟩

/-- C11 (amended): `evalExpression` raises `Empty expression` on an input
without tokens, `Mismatched parentheses` on tokens whose parentheses are not
balanced, and `Invalid expression` where, every operator finding two operands
on the stack, the evaluation leaves no value or more than one. -/
theorem C11_errors_raised {V : Type} (A : Arith V) (x : Str) :
    (tokenizeExpr (x.filter isAllowedChar) = [] →
        evalExpression A x = .error "Empty expression") ∧
      (tokenizeExpr (x.filter isAllowedChar) ≠ [] →
        ¬ specBalanced (tokenizeExpr (x.filter isAllowedChar)) →
        evalExpression A x = .error "Mismatched parentheses") ∧
      (tokenizeExpr (x.filter isAllowedChar) ≠ [] →
        ∀ rpn n, shuntingYard (tokenizeExpr (x.filter isAllowedChar)) = .ok rpn →
          specStack rpn 0 = some n → n ≠ 1 →
          evalExpression A x = .error "Invalid expression") := by
  have hlen : tokenizeExpr (x.filter isAllowedChar) ≠ [] →
      ((tokenizeExpr (x.filter isAllowedChar)).length == 0) = false := by
    intro hne
    cases h : tokenizeExpr (x.filter isAllowedChar) with
    | nil => exact absurd h hne
    | cons _ _ => rfl
  refine ⟨fun h => ?_, fun hne hb => ?_, fun hne rpn n hs hn h1 => ?_⟩
  · unfold evalExpression
    simp [h]
  · have herr : shuntingYard (tokenizeExpr (x.filter isAllowedChar)) =
        .error "Mismatched parentheses" := by
      rcases shuntingYard_parenScan (tokenizeExpr (x.filter isAllowedChar)) with
        ⟨h1, _⟩ | ⟨_, h2⟩
      · exact absurd ((specBalanced_iff _).2 h1) hb
      · exact h2
    unfold evalExpression
    simp only [hlen hne, Bool.false_eq_true, if_false, herr]
  · unfold evalExpression
    simp only [hlen hne, Bool.false_eq_true, if_false, hs]
    exact evaluateRPN_height A rpn (shuntingYard_rpn hs).1 hn h1

/-- C11 (amended), at `2 3` (two values left) and `()` (no value left). -/
theorem C11_errors_raised_witness :
    evalExpression termArith "2 3".toList = .error "Invalid expression" ∧
      evalExpression termArith "()".toList = .error "Invalid expression" :=
  ⟨(C11_errors_raised termArith "2 3".toList).2.2 (by decide) [['2'], ['3']] 2 rfl rfl
      (by decide),
    (C11_errors_raised termArith "()".toList).2.2 (by decide) [] 0 rfl rfl (by decide)⟩

/-- C12 (the code at `-5` and `-(2+3)`): the minus sign is read as the binary
operator with its left operand missing, so the results are `nan - 5` and
`nan - (2+3)`, not the negations. -/
theorem C12_unary_minus_not_read :
    shuntingYard (tokenizeExpr "-5".toList) = .ok [['5'], ['-']] ∧
      evalExpression termArith "-5".toList = .ok (Term.sub Term.nan (Term.num ['5'])) ∧
      evalExpression termArith "-(2+3)".toList =
        .ok (Term.sub Term.nan (Term.add (Term.num ['2']) (Term.num ['3']))) :=
  ⟨rfl, rfl, rfl⟩

/-- In any arithmetic, a leading minus before a number literal gives
`nan - n`. -/
theorem evalExpression_leading_minus {V : Type} (A : Arith V) :
    evalExpression A "-5".toList = .ok (A.sub A.nan (A.num ['5'])) := rfl

/-- C17: every token of `tokenizeExpr` is a number literal or one of the
characters `+ - * / ^ ( )`; every token `shuntingYard` puts out is a number
literal or one of the operators `+ - * / ^`; and `evalExpression` fails with
`Empty expression`, `Mismatched parentheses` or `Invalid expression` only,
never with `Unknown operator`. -/
theorem C17_unknown_operator_unreachable {V : Type} (A : Arith V) (x : Str) :
    (∀ t ∈ tokenizeExpr x, isNumberToken t = true ∨ isOpToken t = true) ∧
      (∀ ts rpn, shuntingYard ts = .ok rpn →
        ∀ t ∈ rpn, isNumberToken t = true ∨ isOperator t = true) ∧
      (∀ e, evalExpression A x = .error e →
        e = "Empty expression" ∨ e = "Mismatched parentheses" ∨ e = "Invalid expression") := by
  refine ⟨tokenizeExpr_valid x, fun ts rpn hs t ht => ?_, fun e he => ?_⟩
  · have := (shuntingYard_rpn hs).1 t ht
    simpa [isRpnToken] using this
  · unfold evalExpression at he
    by_cases hl : ((tokenizeExpr (x.filter isAllowedChar)).length == 0) = true
    · simp only [hl, if_true] at he
      injection he with he
      exact Or.inl he.symm
    · simp only [hl, Bool.false_eq_true, if_false] at he
      cases hs : shuntingYard (tokenizeExpr (x.filter isAllowedChar)) with
      | error e1 =>
        rw [hs] at he
        simp only at he
        injection he with he
        rcases shuntingYard_parenScan (tokenizeExpr (x.filter isAllowedChar)) with
          ⟨_, rpn, h2⟩ | ⟨_, h2⟩
        · rw [h2] at hs; cases hs
        · rw [h2] at hs
          injection hs with hs
          exact Or.inr (Or.inl (by rw [← he, ← hs]))
      | ok rpn =>
        rw [hs] at he
        simp only at he
        exact Or.inr (Or.inr (evaluateRPN_errors A rpn (shuntingYard_rpn hs).1 e he))

/-- C17, at `2 3`, `(1+2` and the empty input: the three errors. -/
theorem C17_unknown_operator_unreachable_witness :
    (∀ t ∈ tokenizeExpr "1.5e3*(x+.25)".toList, isNumberToken t = true ∨ isOpToken t = true) ∧
      evalExpression termArith "2 3".toList = .error "Invalid expression" ∧
      evalExpression termArith "(1+2".toList = .error "Mismatched parentheses" ∧
      evalExpression termArith "".toList = .error "Empty expression" :=
  ⟨(C17_unknown_operator_unreachable termArith "1.5e3*(x+.25)".toList).1, rfl, rfl, rfl⟩

/-! ## The counting functions never raise -/

/-- C13: `decimalPlacesFromString` never raises: it returns `null` or an
integer on every input; the split piece it reads (as does the counter) is
there whenever the string has a decimal point; and on an input that
sanitizes to nothing the two functions return their defaults, 0 and `null`.
The counter is a function into the natural numbers. -/
theorem C13_never_raise (raw : Str) :
    (∃ r : Option Int, decimalPlacesFromString raw = .ok r) ∧
      (∃ n : Nat, countSigFigsFromString raw = n ∧
        (sanitizeInputRaw raw = [] → n = 0 ∧ decimalPlacesFromString raw = .ok none)) ∧
      (∀ s : Str, s.contains '.' = true → ∃ p ps, (splitDot s).2 = p :: ps) := by
  refine ⟨?_, ⟨_, rfl, fun h => ?_⟩, fun s hs => ?_⟩
  · by_cases hne : sanitizeInputRaw raw = []
    · exact ⟨none, by unfold decimalPlacesFromString; simp [hne]⟩
    · cases hsci : sciMatch (stripSign (sanitizeInputRaw raw)) with
      | none =>
        rw [dp_plain hne hsci]
        by_cases hdot : (stripSign (sanitizeInputRaw raw)).contains '.' = true
        · rw [if_pos hdot]; exact ⟨_, rfl⟩
        · rw [if_neg hdot]; exact ⟨_, rfl⟩
      | some p =>
        have hemp : (sanitizeInputRaw raw).isEmpty = false := by
          cases h : sanitizeInputRaw raw with
          | nil => exact absurd h hne
          | cons _ _ => rfl
        unfold decimalPlacesFromString
        simp only [hemp, Bool.false_eq_true, if_false, hsci]
        exact ⟨_, rfl⟩
  · constructor
    · unfold countSigFigsFromString
      simp [h]
    · unfold decimalPlacesFromString
      simp [h]
  · obtain ⟨a, f, hsf, ha⟩ := exists_first_dot s hs
    rw [hsf, splitDot_append f ha]
    exact ⟨_, _, rfl⟩

/-- C13, at the multi-dot text `1.2.3`, the malformed exponent `1e+` and the
blank input. -/
theorem C13_never_raise_witness :
    decimalPlacesFromString "1.2.3".toList = .ok (some 1) ∧
      decimalPlacesFromString "1e+".toList = .ok (some 0) ∧
      countSigFigsFromString "1e+".toList = 0 ∧
      countSigFigsFromString "  ".toList = 0 ∧
      decimalPlacesFromString "  ".toList = .ok none := by
  refine ⟨rfl, rfl, by decide, ?_, ?_⟩
  · obtain ⟨n, hn, h⟩ := (C13_never_raise "  ".toList).2.1
    rw [hn]
    exact (h (by decide)).1
  · obtain ⟨n, _, h⟩ := (C13_never_raise "  ".toList).2.1
    exact (h (by decide)).2

/-! ## Fixed-point formatting -/

theorem digitChar_facts :
    ∀ d, d < 10 → isDigit (digitChar d) = true ∧ (digitChar d).toNat = 48 + d := by
  decide

theorem natDigitsAux_digits (fuel : Nat) :
    ∀ n, ∀ c ∈ natDigitsAux fuel n, isDigit c = true := by
  induction fuel with
  | zero => intro n c hc; cases hc
  | succ k ih =>
    intro n c hc
    rw [natDigitsAux] at hc
    by_cases hn : n < 10
    · rw [if_pos hn, List.mem_singleton] at hc
      rw [hc]
      exact (digitChar_facts n hn).1
    · rw [if_neg hn, List.mem_append, List.mem_singleton] at hc
      rcases hc with hc | hc
      · exact ih _ c hc
      · rw [hc]
        exact (digitChar_facts _ (Nat.mod_lt n (by decide))).1

theorem natDigits_digits (n : Nat) : ∀ c ∈ natDigits n, isDigit c = true :=
  natDigitsAux_digits (n + 1) n

theorem parseDigits_concat (l : Str) (c : Char) :
    parseDigits (l ++ [c]) = 10 * parseDigits l + (c.toNat - 48) := by
  unfold parseDigits
  rw [List.foldl_append]
  rfl

/-- The digits of a number denote it: the bound on the number of digits in
`natDigits` is never met. -/
theorem parseDigits_natDigitsAux (fuel : Nat) :
    ∀ n, n < fuel → parseDigits (natDigitsAux fuel n) = n := by
  induction fuel with
  | zero => intro n hn; exact absurd hn (Nat.not_lt_zero n)
  | succ k ih =>
    intro n hn
    rw [natDigitsAux]
    by_cases h10 : n < 10
    · rw [if_pos h10]
      have := (digitChar_facts n h10).2
      simp [parseDigits, this]
    · rw [if_neg h10, parseDigits_concat, ih (n / 10) (by omega),
        (digitChar_facts _ (Nat.mod_lt n (by decide))).2]
      omega

theorem parseDigits_natDigits (n : Nat) : parseDigits (natDigits n) = n :=
  parseDigits_natDigitsAux (n + 1) n (Nat.lt_succ_self n)

/-- The text of `toFixed` for `f` fraction digits: digits only when `f` is 0,
and otherwise digits, a point and exactly `f` digits. -/
theorem toFixedDigits_shape (x : ℚ) (f : Nat) :
    (f = 0 → ∀ c ∈ toFixedDigits x f, isDigit c = true) ∧
      (0 < f → ∃ a b, toFixedDigits x f = a ++ '.' :: b ∧ b.length = f ∧
        (∀ c ∈ a, isDigit c = true) ∧ ∀ c ∈ b, isDigit c = true) := by
  constructor
  · intro hf
    unfold toFixedDigits
    simp only [hf, if_true]
    exact natDigits_digits _
  · intro hf
    unfold toFixedDigits
    simp only [Nat.ne_of_gt hf, if_false]
    have hdig : ∀ c ∈ List.replicate
        (f + 1 - (natDigits ((2 * x.num.natAbs * 10 ^ f + x.den) / (2 * x.den))).length) '0' ++
        natDigits ((2 * x.num.natAbs * 10 ^ f + x.den) / (2 * x.den)), isDigit c = true := by
      intro c hc
      rw [List.mem_append] at hc
      rcases hc with hc | hc
      · rw [(List.mem_replicate.1 hc).2]; rfl
      · exact natDigits_digits _ c hc
    refine ⟨_, _, rfl, ?_, fun c hc => hdig c (List.mem_of_mem_take hc),
      fun c hc => hdig c (List.mem_of_mem_drop hc)⟩
    rw [List.length_drop]
    simp only [List.length_append, List.length_replicate]
    omega

/-- C15 fails at 101 decimal places: `toFixed` raises a `RangeError`, and no
text is returned. -/
theorem C15_range_counterexample :
    formatRoundedToDecimalPlaces (.finite 1) 101 = .error "RangeError" := by
  rfl

/-- From `10^21` on, `toFixed` gives the default text of the number (in
exponent form), whatever the number of places. -/
theorem formatRounded_large (dp : Int) (h0 : 0 ≤ dp) (h100 : dp ≤ 100) :
    formatRoundedToDecimalPlaces (.finite ((10 : ℚ) ^ 21)) dp =
      .ok (.ofNumber (.finite ((10 : ℚ) ^ 21))) := by
  have h1 : ¬ (dp < 0 ∨ 100 < dp) := by omega
  have h2 : (10 : ℚ) ^ 21 ≤ |(10 : ℚ) ^ 21| := le_abs_self _
  simp only [formatRoundedToDecimalPlaces, h0, if_true, toFixed, h1, if_false, h2]

/-- C15 (amended): for a finite value below `10^21` in absolute value and a
number of places from 0 to 100, `formatRoundedToDecimalPlaces` returns a text
with exactly that many digits after the decimal point, and with no decimal
point when the number of places is 0. -/
theorem C15_fixed_places (q : ℚ) (dp : Int) (hq : |q| < (10 : ℚ) ^ 21) (h0 : 0 ≤ dp)
    (h100 : dp ≤ 100) :
    ∃ s, formatRoundedToDecimalPlaces (.finite q) dp = .ok (.text s) ∧
      (dp = 0 → '.' ∉ s) ∧
      (0 < dp → ∃ a b, s = a ++ '.' :: b ∧ (b.length : Int) = dp ∧ '.' ∉ a ∧
        ∀ c ∈ b, isDigit c = true) := by
  have h1 : ¬ (dp < 0 ∨ 100 < dp) := by omega
  have h2 : ¬ ((10 : ℚ) ^ 21 ≤ |q|) := not_le.2 hq
  have hsign : ∀ c ∈ (if q < 0 then ['-'] else ([] : Str)), c ≠ '.' := by
    intro c hc
    by_cases hneg : q < 0
    · rw [if_pos hneg, List.mem_singleton] at hc
      rw [hc]; decide
    · rw [if_neg hneg] at hc
      cases hc
  refine ⟨(if q < 0 then ['-'] else []) ++ toFixedDigits |q| dp.toNat, ?_, ?_, ?_⟩
  · simp only [formatRoundedToDecimalPlaces, h0, if_true, toFixed, h1, if_false, h2]
  · intro hdp
    have hf : dp.toNat = 0 := by omega
    intro hm
    rw [List.mem_append] at hm
    rcases hm with hm | hm
    · exact hsign _ hm rfl
    · exact digit_ne_dot ((toFixedDigits_shape |q| dp.toNat).1 hf _ hm) rfl
  · intro hdp
    have hf : 0 < dp.toNat := by omega
    obtain ⟨a, b, hab, hlen, ha, hb⟩ := (toFixedDigits_shape |q| dp.toNat).2 hf
    refine ⟨(if q < 0 then ['-'] else []) ++ a, b, by rw [hab, List.append_assoc], ?_, ?_, hb⟩
    · rw [hlen]
      exact Int.toNat_of_nonneg h0
    · intro hm
      rw [List.mem_append] at hm
      rcases hm with hm | hm
      · exact hsign _ hm rfl
      · exact digit_ne_dot (ha _ hm) rfl

/-- C15 (amended), at the value 5/4 with one place, which gives `1.3`, and at
the value 2 with two places, which gives `2.00`. -/
theorem C15_fixed_places_witness :
    formatRoundedToDecimalPlaces (.finite (5 / 4)) 1 = .ok (.text "1.3".toList) ∧
      formatRoundedToDecimalPlaces (.finite 2) 2 = .ok (.text "2.00".toList) ∧
      ∃ s, formatRoundedToDecimalPlaces (.finite 2) 2 = .ok (.text s) ∧
        ∃ a b, s = a ++ '.' :: b ∧ (b.length : Int) = 2 := by
  have hq : |(2 : ℚ)| < (10 : ℚ) ^ 21 := by
    rw [abs_of_nonneg (by norm_num)]; norm_num
  have hq2 : |(5 / 4 : ℚ)| < (10 : ℚ) ^ 21 := by
    rw [abs_of_nonneg (by norm_num)]; norm_num
  have hd1 : toFixedDigits (5 / 4) 1 = "1.3".toList := by
    have h1 : (5 / 4 : ℚ).num = 5 := by norm_num
    have h2 : (5 / 4 : ℚ).den = 4 := by norm_num
    unfold toFixedDigits
    simp only [h1, h2]
    decide
  have hd2 : toFixedDigits 2 2 = "2.00".toList := by
    have h1 : (2 : ℚ).num = 2 := rfl
    have h2 : (2 : ℚ).den = 1 := rfl
    unfold toFixedDigits
    simp only [h1, h2]
    decide
  refine ⟨?_, ?_, ?_⟩
  · have hn2 : ¬ ((5 / 4 : ℚ) < 0) := by norm_num
    have hn3 : |(5 / 4 : ℚ)| = 5 / 4 := abs_of_nonneg (by norm_num)
    have hn4 : ¬ ((10 : ℚ) ^ 21 ≤ 5 / 4) := by norm_num
    have hr0 : (0 : Int) ≤ 1 := by decide
    have hr1 : ¬ ((1 : Int) < 0 ∨ (100 : Int) < 1) := by decide
    have ht : (1 : Int).toNat = 1 := rfl
    simp only [formatRoundedToDecimalPlaces, toFixed, hn2, hn3, hn4, hr0, hr1, ht, if_false,
      if_true, hd1, List.nil_append]
  · have hn2 : ¬ ((2 : ℚ) < 0) := by norm_num
    have hn3 : |(2 : ℚ)| = 2 := abs_of_nonneg (by norm_num)
    have hn4 : ¬ ((10 : ℚ) ^ 21 ≤ 2) := by norm_num
    have hr0 : (0 : Int) ≤ 2 := by decide
    have hr1 : ¬ ((2 : Int) < 0 ∨ (100 : Int) < 2) := by decide
    have ht : (2 : Int).toNat = 2 := rfl
    simp only [formatRoundedToDecimalPlaces, toFixed, hn2, hn3, hn4, hr0, hr1, ht, if_false,
      if_true, hd2, List.nil_append]
  · obtain ⟨s, hs, _, h⟩ := C15_fixed_places 2 2 hq (by decide) (by decide)
    obtain ⟨a, b, hab, hlen, _, _⟩ := h (by decide)
    exact ⟨s, hs, a, b, hab, hlen⟩

/-! ## The precisions of the arithmetic rule -/

/-- The precisions the arithmetic rule computes for its two examples: the
smaller number of decimal places of `1.2` and `3.45` is 1, and the smaller
count of significant figures of `4.5` and `2.10` is 2.  The rounding itself
is done on doubles and is not modelled. -/
theorem arithmetic_rule_precisions :
    decimalPlacesFromString "1.2".toList = .ok (some 1) ∧
      decimalPlacesFromString "3.45".toList = .ok (some 2) ∧
      min (countSigFigsFromString "4.5".toList) (countSigFigsFromString "2.10".toList) = 2 :=
  ⟨rfl, rfl, by decide⟩

end SigFig
